import Mathlib

/-! # JobScheduler: a shallow embedding of `src/JobScheduler.cpp`

The C++ program keeps a registry of jobs, 100 priority heaps of job IDs, an AVL tree of
CPU free-after times, an AVL tree of arrival timestamps of waiting jobs, a log of
(timestamp, Min, Max) entries and 100 historical buckets fed through per-importance
duration heaps.  This file translates those functions into Lean and proves properties
of them.

Conventions of the embedding.
* `ll` is `unsigned long long`.  User supplied numbers are `Nat`; the one addition of two
  user supplied numbers (`timestamp + duration` in the assign loop) is reduced modulo `2^64`,
  and the index decrements `mid-1` / `size()-1` wrap modulo `2^64`.  Counters of CPUs and
  jobs (`freq`, `subtreeSize`, heap sizes, `selected`) never exceed the number of CPUs or of
  jobs and are plain `Nat`.
* A `vector<ll>` is a `List Nat`; `v[i]` inside the heap routines and the bucket scan is
  `v.getD i 0`.  The three binary searches and the log access of the assign branch, where an
  index may leave the vector, report that as `Outcome.oob` and the command aborts.
* Pointers to `CPUNode` are the inductive type `CPUNode` (`nil` is `NULL`).
* Arrays indexed by importance (`jobHeap[101]` ...) are functions `Nat → _`.
-/

namespace JobScheduler

/-- The modulus of `unsigned long long` arithmetic. -/
def llMod : Nat := 2 ^ 64

/-! ## Data model -/

/-- Class `Job`. -/
structure Job where
  processID : Nat
  timestamp : Nat
  originSystem : String
  instruction : String
  importance : Nat
  duration : Nat
  qExit : Nat
  ID : Nat
deriving DecidableEq, Repr, Inhabited

/-- Constructor `Job(ID, processID, timestamp, originSystem, instruction, importance, duration)`:
`qExit` starts at 0. -/
def Job.create (ID processID timestamp : Nat) (originSystem instruction : String)
    (importance duration : Nat) : Job :=
  { processID := processID, timestamp := timestamp, originSystem := originSystem,
    instruction := instruction, importance := importance, duration := duration,
    qExit := 0, ID := ID }

/-- Struct `MaxMinNode`. -/
structure MaxMinNode where
  Max : Nat
  Min : Nat
  timestamp : Nat
deriving DecidableEq, Repr, Inhabited

/-- Constructor `MaxMinNode(Min, Max, timestamp)`. -/
def MaxMinNode.create (Min Max timestamp : Nat) : MaxMinNode :=
  { Max := Max, Min := Min, timestamp := timestamp }

/-- Method `MaxMinNode::updateValues`. -/
def MaxMinNode.updateValues (n : MaxMinNode) (value : Nat) : MaxMinNode :=
  { n with Max := max n.Max value, Min := min n.Min value }

/-- Class `CPUNode` together with the pointer to it: `nil` is `NULL`. -/
inductive CPUNode where
  | nil : CPUNode
  | node (freeAfter subtreeSize freq height : Nat) (left right : CPUNode) : CPUNode
deriving DecidableEq, Repr, Inhabited

/-- The job stored under an ID: `jobList[id]`. -/
def getJob (jobList : List Job) (id : Nat) : Job := jobList.getD id default

/-! ## Priority order -/

def getLeft (pos : Nat) : Nat := 2 * pos + 1

def getRight (pos : Nat) : Nat := 2 * pos + 2

/-- Only called with `pos > 0`. -/
def getParent (pos : Nat) : Nat := (pos - 1) / 2

/-- Function `hasHigherPriority` on two jobs. -/
def Job.higher (j1 j2 : Job) : Bool :=
  if j1.importance > j2.importance then true
  else if j1.importance < j2.importance then false
  else if j1.timestamp < j2.timestamp then true
  else if j1.timestamp > j2.timestamp then false
  else if j1.duration < j2.duration then true
  else false

/-- Function `hasHigherPriority(jID1, jID2)`. -/
def hasHigherPriority (jobList : List Job) (jID1 jID2 : Nat) : Bool :=
  (getJob jobList jID1).higher (getJob jobList jID2)

/-- The comparison of `maxHeapify_Duration` / `insertIntoDurationHeap`. -/
def hasShorterDuration (jobList : List Job) (jID1 jID2 : Nat) : Bool :=
  decide ((getJob jobList jID1).duration < (getJob jobList jID2).duration)

/-! ## Binary heaps of job IDs

`maxHeapify` / `maxHeapify_Duration`, `extractNextJob` / `extractNextID` and
`insertJobIntoHeap` / `insertIntoDurationHeap` differ only in the comparison, which is the
parameter `hi` below (and in the `totalSize` bookkeeping, done by the callers here). -/

/-- Exchange of `heap[i]` and `heap[j]`. -/
def swapAt (heap : List Nat) (i j : Nat) : List Nat :=
  (heap.set i (heap.getD j 0)).set j (heap.getD i 0)

/-- The value of `maxPos` after the two `if`s at the start of `maxHeapify` /
`maxHeapify_Duration`. -/
def maxPosOf (hi : Nat → Nat → Bool) (jobHeap : List Nat) (pos jobHeapSize : Nat) : Nat :=
  let left := getLeft pos
  let right := getRight pos
  let maxPos := if left < jobHeapSize ∧ hi (jobHeap.getD left 0) (jobHeap.getD pos 0) = true
    then left else pos
  if right < jobHeapSize ∧ hi (jobHeap.getD right 0) (jobHeap.getD maxPos 0) = true
    then right else maxPos

/-- Body of `maxHeapify` / `maxHeapify_Duration`; `fuel` bounds the recursion depth
(each call moves to a child, so `jobHeapSize` calls are enough). -/
def heapifyBy (hi : Nat → Nat → Bool) : Nat → List Nat → Nat → Nat → List Nat
  | 0, jobHeap, _, _ => jobHeap
  | fuel + 1, jobHeap, pos, jobHeapSize =>
    let maxPos := maxPosOf hi jobHeap pos jobHeapSize
    if maxPos ≠ pos then heapifyBy hi fuel (swapAt jobHeap maxPos pos) maxPos jobHeapSize
    else jobHeap

/-- Body of `extractNextJob` / `extractNextID`: the ID at the root, the heap and its new size. -/
def extractBy (hi : Nat → Nat → Bool) (jobHeap : List Nat) (jobHeapSize : Nat) :
    Nat × List Nat × Nat :=
  let jobID := jobHeap.getD 0 0
  if jobHeapSize = 1 then (jobID, jobHeap, 0)
  else
    let size := jobHeapSize - 1
    let heap := jobHeap.set 0 (jobHeap.getD size 0)
    (jobID, heapifyBy hi size heap 0 size, size)

/-- The `while(1)` loop of `insertJobIntoHeap` / `insertIntoDurationHeap`; `fuel` bounds the
number of iterations (`pos` strictly decreases). -/
def siftUpBy (hi : Nat → Nat → Bool) (jobID : Nat) : Nat → List Nat → Nat → List Nat
  | 0, jobHeap, _ => jobHeap
  | fuel + 1, jobHeap, pos =>
    if pos = 0 then jobHeap
    else
      let parent := getParent pos
      if hi (jobHeap.getD pos 0) (jobHeap.getD parent 0) = true then
        siftUpBy hi jobID fuel ((jobHeap.set pos (jobHeap.getD parent 0)).set parent jobID) parent
      else jobHeap

/-- Body of `insertJobIntoHeap` / `insertIntoDurationHeap`: the heap and its new size. -/
def insertBy (hi : Nat → Nat → Bool) (jobID : Nat) (jobHeap : List Nat) (jobHeapSize : Nat) :
    List Nat × Nat :=
  let heap := if jobHeapSize + 1 > jobHeap.length then jobHeap ++ [jobID]
    else jobHeap.set jobHeapSize jobID
  (siftUpBy hi jobID (jobHeapSize + 1) heap jobHeapSize, jobHeapSize + 1)

def maxHeapify (jobList : List Job) (jobHeap : List Nat) (pos jobHeapSize : Nat) : List Nat :=
  heapifyBy (hasHigherPriority jobList) jobHeapSize jobHeap pos jobHeapSize

def maxHeapify_Duration (jobList : List Job) (jobHeap : List Nat) (pos jobHeapSize : Nat) :
    List Nat :=
  heapifyBy (hasShorterDuration jobList) jobHeapSize jobHeap pos jobHeapSize

def extractNextJob (jobList : List Job) (jobHeap : List Nat) (jobHeapSize : Nat) :
    Nat × List Nat × Nat :=
  extractBy (hasHigherPriority jobList) jobHeap jobHeapSize

/-- Function `extractNextID` without its `totalSize--`, which the caller performs. -/
def extractNextID (jobList : List Job) (jobHeap : List Nat) (jobHeapSize : Nat) :
    Nat × List Nat × Nat :=
  extractBy (hasShorterDuration jobList) jobHeap jobHeapSize

def insertJobIntoHeap (jobList : List Job) (jobID : Nat) (jobHeap : List Nat)
    (jobHeapSize : Nat) : List Nat × Nat :=
  insertBy (hasHigherPriority jobList) jobID jobHeap jobHeapSize

/-- Function `insertIntoDurationHeap` without its `totalSize++`, which the caller performs. -/
def insertIntoDurationHeap (jobList : List Job) (jobID : Nat) (jobHeap : List Nat)
    (jobHeapSize : Nat) : List Nat × Nat :=
  insertBy (hasShorterDuration jobList) jobID jobHeap jobHeapSize

/-! ## The AVL tree of `CPUNode`s -/

def getSubtreeSize : CPUNode → Nat
  | .nil => 0
  | .node _ subtreeSize _ _ _ _ => subtreeSize

def getHeight : CPUNode → Nat
  | .nil => 0
  | .node _ _ _ height _ _ => height

/-- Function `getBalance`: a signed difference of two heights. -/
def getBalance : CPUNode → Int
  | .nil => 0
  | .node _ _ _ _ left right => (getHeight left : Int) - (getHeight right : Int)

/-- The two assignments `root->subtreeSize = ...; root->height = ...` which follow every
structural change of a node. -/
def refresh : CPUNode → CPUNode
  | .nil => .nil
  | .node freeAfter _ freq _ left right =>
    .node freeAfter (getSubtreeSize left + freq + getSubtreeSize right) freq
      (max (getHeight left) (getHeight right) + 1) left right

/-- Function `rightRotate(y)`.  The callers pass a `y` whose left child exists (its height
exceeds that of the right child by more than 1); other arguments are returned unchanged. -/
def rightRotate : CPUNode → CPUNode
  | .node yFreeAfter _ yFreq _ (.node xFreeAfter _ xFreq _ xLeft T2) yRight =>
    let y := .node yFreeAfter (getSubtreeSize T2 + yFreq + getSubtreeSize yRight) yFreq
      (max (getHeight T2) (getHeight yRight) + 1) T2 yRight
    .node xFreeAfter (getSubtreeSize xLeft + xFreq + getSubtreeSize y) xFreq
      (max (getHeight xLeft) (getHeight y) + 1) xLeft y
  | t => t

/-- Function `leftRotate(x)`.  The callers pass an `x` whose right child exists; other
arguments are returned unchanged. -/
def leftRotate : CPUNode → CPUNode
  | .node xFreeAfter _ xFreq _ xLeft (.node yFreeAfter _ yFreq _ T2 yRight) =>
    let x := .node xFreeAfter (getSubtreeSize xLeft + xFreq + getSubtreeSize T2) xFreq
      (max (getHeight xLeft) (getHeight T2) + 1) xLeft T2
    .node yFreeAfter (getSubtreeSize x + yFreq + getSubtreeSize yRight) yFreq
      (max (getHeight x) (getHeight yRight) + 1) x yRight
  | t => t

/-- Function `getMinimum`; the callers pass a non-null root (0 stands for the null case). -/
def getMinimum : CPUNode → Nat
  | .nil => 0
  | .node freeAfter _ _ _ .nil _ => freeAfter
  | .node _ _ _ _ left _ => getMinimum left

/-- Function `getMaximum`; the callers pass a non-null root (0 stands for the null case). -/
def getMaximum : CPUNode → Nat
  | .nil => 0
  | .node freeAfter _ _ _ _ .nil => freeAfter
  | .node _ _ _ _ _ right => getMaximum right

/-- Function `createBST`: the constructor sets `height = 1`. -/
def createBST (noOfCPU : Nat) : CPUNode :=
  if noOfCPU ≤ 0 then .nil else .node 0 noOfCPU noOfCPU 1 .nil .nil

/-- Function `getValuesLessThanEqualTo`. -/
def getValuesLessThanEqualTo : CPUNode → Nat → Nat
  | .nil, _ => 0
  | .node freeAfter _ freq _ left right, value =>
    if freeAfter ≤ value then
      getSubtreeSize left + freq + getValuesLessThanEqualTo right value
    else getValuesLessThanEqualTo left value

/-- Replace the left child pointer: `root->left = ...`. -/
def setLeft : CPUNode → CPUNode → CPUNode
  | .nil, _ => .nil
  | .node freeAfter subtreeSize freq height _ right, l =>
    .node freeAfter subtreeSize freq height l right

/-- Replace the right child pointer: `root->right = ...`. -/
def setRight : CPUNode → CPUNode → CPUNode
  | .nil, _ => .nil
  | .node freeAfter subtreeSize freq height left _, r =>
    .node freeAfter subtreeSize freq height left r

def leftOf : CPUNode → CPUNode
  | .nil => .nil
  | .node _ _ _ _ left _ => left

def rightOf : CPUNode → CPUNode
  | .nil => .nil
  | .node _ _ _ _ _ right => right

/-- The freeAfter field of a node (0 for `nil`, which the callers exclude). -/
def keyOf : CPUNode → Nat
  | .nil => 0
  | .node freeAfter _ _ _ _ _ => freeAfter

/-- The common tail of `deleteCPUNode` and `deleteCustom`: refresh `subtreeSize` and
`height` of the root, then rebalance by the four rotation cases. -/
def rebalanceDelete (root : CPUNode) : CPUNode :=
  let root := refresh root
  let balance := getBalance root
  if balance.natAbs ≤ 1 then root
  else if balance > 1 ∧ getBalance (leftOf root) ≥ 0 then rightRotate root
  else if balance > 1 ∧ getBalance (leftOf root) < 0 then
    rightRotate (setLeft root (leftRotate (leftOf root)))
  else if balance < -1 ∧ getBalance (rightOf root) ≤ 0 then leftRotate root
  else if balance < -1 ∧ getBalance (rightOf root) > 0 then
    leftRotate (setRight root (rightRotate (rightOf root)))
  else root

/-- The tail of `insertCPUNode`: refresh the root, then rebalance by comparing the inserted
value with the child's key. -/
def rebalanceInsert (root : CPUNode) (value : Nat) : CPUNode :=
  let root := refresh root
  let balance := getBalance root
  if balance.natAbs ≤ 1 then root
  else if balance > 1 ∧ value < keyOf (leftOf root) then rightRotate root
  else if balance < -1 ∧ value > keyOf (rightOf root) then leftRotate root
  else if balance > 1 ∧ value > keyOf (leftOf root) then
    rightRotate (setLeft root (leftRotate (leftOf root)))
  else if balance < -1 ∧ value < keyOf (rightOf root) then
    leftRotate (setRight root (rightRotate (rightOf root)))
  else root

/-- Function `deleteCPUNode`. -/
def deleteCPUNode : CPUNode → Nat → CPUNode
  | .nil, _ => .nil
  | .node freeAfter subtreeSize freq height left right, value =>
    if freeAfter > value then
      rebalanceDelete (.node freeAfter subtreeSize freq height (deleteCPUNode left value) right)
    else if left ≠ .nil then
      rebalanceDelete (.node freeAfter subtreeSize freq height (deleteCPUNode left value) right)
    else if freq > 1 then
      .node freeAfter (subtreeSize - 1) (freq - 1) height left right
    else
      match right with
      | .nil => .nil
      | .node f s q h l r => rebalanceDelete (.node f s q h l r)

/-- Function `deleteCustom`. -/
def deleteCustom : CPUNode → Nat → CPUNode
  | .nil, _ => .nil
  | .node freeAfter subtreeSize freq height left right, value =>
    if freeAfter > value then
      rebalanceDelete (.node freeAfter subtreeSize freq height (deleteCustom left value) right)
    else if freeAfter < value then
      rebalanceDelete (.node freeAfter subtreeSize freq height left (deleteCustom right value))
    else if freq > 1 then
      .node freeAfter (subtreeSize - 1) (freq - 1) height left right
    else
      match left, right with
      | .nil, .nil => .nil
      | .node f s q h l r, .nil => rebalanceDelete (.node f s q h l r)
      | .nil, .node f s q h l r => rebalanceDelete (.node f s q h l r)
      | .node lf ls lq lh ll lr, .node rf rs rq rh rl rr =>
        let temp := getMinimum (.node rf rs rq rh rl rr)
        rebalanceDelete (.node temp subtreeSize freq height (.node lf ls lq lh ll lr)
          (deleteCustom (.node rf rs rq rh rl rr) temp))

/-- Function `insertCPUNode`. -/
def insertCPUNode : CPUNode → Nat → CPUNode
  | .nil, value => .node value 1 1 1 .nil .nil
  | .node freeAfter subtreeSize freq height left right, value =>
    if freeAfter = value then
      .node freeAfter (subtreeSize + 1) (freq + 1) height left right
    else if freeAfter < value then
      rebalanceInsert (.node freeAfter subtreeSize freq height left (insertCPUNode right value))
        value
    else
      rebalanceInsert (.node freeAfter subtreeSize freq height (insertCPUNode left value) right)
        value

/-! ## Outcomes of code that indexes a vector -/

/-- Result of running a piece of the program: a value, an access outside a vector
(`oob`, undefined behaviour in C++, the run stops there), or `fuel` when the bound put on
a recursion by the embedding was reached. -/
inductive Outcome (α : Type) where
  | ok (a : α) : Outcome α
  | oob : Outcome α
  | fuel : Outcome α
deriving DecidableEq, Repr

/-- Sequencing of outcomes. -/
def Outcome.bind {α β : Type} : Outcome α → (α → Outcome β) → Outcome β
  | .ok a, f => f a
  | .oob, _ => .oob
  | .fuel, _ => .fuel

/-- Checked read `v[i]`. -/
def readAt {α : Type} (v : List α) (i : Nat) : Outcome α :=
  match v[i]? with
  | some a => .ok a
  | none => .oob

/-- Unsigned decrement `i - 1`: it wraps to `2^64 - 1` at 0. -/
def llPred (i : Nat) : Nat := if i = 0 then llMod - 1 else i - 1

/-! ## Binary searches -/

/-- Function `doBinarySearchMaxMins(timestamp, left, right)`. -/
def doBinarySearchMaxMins (MaxMins : List MaxMinNode) (timestamp : Nat) :
    Nat → Nat → Nat → Outcome Nat
  | 0, _, _ => .fuel
  | fuel + 1, left, right =>
    (readAt MaxMins right).bind fun nr =>
    if nr.timestamp ≤ timestamp then .ok right
    else
      let mid := (left + right) / 2
      (readAt MaxMins mid).bind fun nm =>
      if nm.timestamp ≤ timestamp then
        (readAt MaxMins (mid + 1)).bind fun nm1 =>
        if nm1.timestamp ≤ timestamp then
          doBinarySearchMaxMins MaxMins timestamp fuel (mid + 1) right
        else .ok mid
      else doBinarySearchMaxMins MaxMins timestamp fuel left (llPred mid)

/-- Function `getStartPoint(value, jobIDVector, left, right)`. -/
def getStartPoint (jobList : List Job) (value : Nat) (jobIDVector : List Nat) :
    Nat → Nat → Nat → Outcome Nat
  | 0, _, _ => .fuel
  | fuel + 1, left, right =>
    if left = right then .ok left
    else
      let mid := (left + right) / 2
      (readAt jobIDVector mid).bind fun id =>
      if (getJob jobList id).timestamp = value then
        getStartPoint jobList value jobIDVector fuel left mid
      else if (getJob jobList id).timestamp < value then
        getStartPoint jobList value jobIDVector fuel (mid + 1) right
      else if mid ≠ left then
        getStartPoint jobList value jobIDVector fuel left (llPred mid)
      else .ok left

/-- Function `getEndPoint(value, jobIDVector, left, right)`. -/
def getEndPoint (jobList : List Job) (value : Nat) (jobIDVector : List Nat) :
    Nat → Nat → Nat → Outcome Nat
  | 0, _, _ => .fuel
  | fuel + 1, left, right =>
    if left = right then .ok left
    else
      let mid := (left + right) / 2
      (readAt jobIDVector mid).bind fun id =>
      if (getJob jobList id).timestamp = value then
        (readAt jobIDVector (mid + 1)).bind fun id1 =>
        if (getJob jobList id1).timestamp = value then
          getEndPoint jobList value jobIDVector fuel (mid + 1) right
        else .ok mid
      else if (getJob jobList id).timestamp < value then
        (readAt jobIDVector (mid + 1)).bind fun id1 =>
        if (getJob jobList id1).timestamp > value then .ok mid
        else getEndPoint jobList value jobIDVector fuel (mid + 1) right
      else getEndPoint jobList value jobIDVector fuel left (llPred mid)

/-! ## Program state -/

/-- The global variables of the program and the locals of `main` that live across
commands. -/
structure State where
  jobList : List Job
  qJobList : Nat → List Nat
  durationHeaps : Nat → List Nat
  prevTimestamps : Nat → Nat
  durationHeapSize : Nat → Nat
  totalSize : Nat
  MaxMins : List MaxMinNode
  jobHeap : Nat → List Nat
  jobHeapSize : Nat → Nat
  cpuTreeRoot : CPUNode
  startTimeRoot : CPUNode
  ID : Nat
  prevTimestamp : Nat

/-- Update of one slot of an array indexed by importance. -/
def setSlot {α : Type} (f : Nat → α) (i : Nat) (a : α) : Nat → α :=
  fun k => if k = i then a else f k

/-- The state after the command `cpus noOfCPU` at the start of the input.  The local
`prevTimestamp` of `main` is not initialised by the program: its first value is the
parameter `prevTimestamp0`. -/
def initState (noOfCPU prevTimestamp0 : Nat) : State :=
  { jobList := [], qJobList := fun _ => [], durationHeaps := fun _ => [],
    prevTimestamps := fun _ => 0, durationHeapSize := fun _ => 0, totalSize := 0,
    MaxMins := [], jobHeap := fun _ => [], jobHeapSize := fun _ => 0,
    cpuTreeRoot := createBST noOfCPU, startTimeRoot := .nil, ID := 0,
    prevTimestamp := prevTimestamp0 }

/-! ## Staging: duration heaps and historical buckets -/

/-- One iteration of the `while` loop of `emptyOutDurationHeap`: `extractNextID` (with its
`totalSize--`) and `push_back` on the bucket. -/
def popDurationHeap (s : State) (importance : Nat) : State :=
  let r := extractNextID s.jobList (s.durationHeaps importance) (s.durationHeapSize importance)
  { s with
    totalSize := s.totalSize - 1
    durationHeaps := setSlot s.durationHeaps importance r.2.1
    durationHeapSize := setSlot s.durationHeapSize importance r.2.2
    qJobList := setSlot s.qJobList importance (s.qJobList importance ++ [r.1]) }

/-- The `while(durationHeapSize[importance])` loop; every iteration lowers the size by one,
so `fuel` = the size on entry is the number of iterations. -/
def drainDurationHeap (importance : Nat) : Nat → State → State
  | 0, s => s
  | fuel + 1, s =>
    if s.durationHeapSize importance = 0 then s
    else drainDurationHeap importance fuel (popDurationHeap s importance)

/-- Function `emptyOutDurationHeap`. -/
def emptyOutDurationHeap (s : State) (importance : Nat) : State :=
  if s.durationHeapSize importance = 0 then s
  else drainDurationHeap importance (s.durationHeapSize importance) s

/-- Function `emptyOutAllDurationHeaps`: `for(i=1; i<=100; i++)`. -/
def emptyOutAllDurationHeaps (s : State) : State :=
  (List.range' 1 100).foldl emptyOutDurationHeap s

/-! ## Commands -/

/-- One parsed input line after the initial `cpus`.  `query` is split by the kind of its
second argument, as `main` does with `containsAlphabet`. -/
inductive Cmd where
  | job (timestamp processID : Nat) (originSystem instruction : String)
      (importance duration : Nat) : Cmd
  | assign (timestamp K : Nat) : Cmd
  | queryTopK (timestamp K : Nat) : Cmd
  | queryOrigin (timestamp : Nat) (origin : String) : Cmd
deriving DecidableEq, Repr

/-- The log update that ends the `job` branch of `main`. -/
def logJob (MaxMins : List MaxMinNode) (startTimeRoot : CPUNode) (timestamp : Nat) :
    List MaxMinNode :=
  if MaxMins.length = 0 then MaxMins ++ [MaxMinNode.create timestamp timestamp timestamp]
  else if (MaxMins.getD (MaxMins.length - 1) default).timestamp = timestamp then
    MaxMins.set (MaxMins.length - 1)
      ((MaxMins.getD (MaxMins.length - 1) default).updateValues timestamp)
  else
    MaxMins ++ [MaxMinNode.create (getMinimum startTimeRoot) (getMaximum startTimeRoot)
      timestamp]

/-- The staging part of the `job` branch (source lines 849-866), for the job `ID`. -/
def stageJob (s : State) (ID timestamp importance : Nat) : State :=
  let push (s : State) : State :=
    let r := insertIntoDurationHeap s.jobList ID (s.durationHeaps importance)
      (s.durationHeapSize importance)
    { s with
      totalSize := s.totalSize + 1
      durationHeaps := setSlot s.durationHeaps importance r.1
      durationHeapSize := setSlot s.durationHeapSize importance r.2 }
  if s.durationHeapSize importance = 0 then
    { push s with prevTimestamps := setSlot (push s).prevTimestamps importance timestamp }
  else if s.prevTimestamps importance = timestamp then push s
  else
    push (emptyOutDurationHeap
      { s with prevTimestamps := setSlot s.prevTimestamps importance timestamp } importance)

/-- The flush at the start of the `job` branch of `main`. -/
def jobFlush (s : State) (timestamp : Nat) : State :=
  if timestamp > s.prevTimestamp ∧ s.totalSize > 0 then emptyOutAllDurationHeaps s else s

/-- The `job` branch of `main` up to the insertion into the priority heap (source lines
840-847). -/
def jobAdmitted (s : State) (timestamp processID : Nat) (originSystem instruction : String)
    (importance duration : Nat) : State :=
  let s := jobFlush s timestamp
  let s := { s with prevTimestamp := timestamp }
  let job := Job.create s.ID processID timestamp originSystem instruction importance duration
  let s := { s with jobList := s.jobList ++ [job] }
  let r := insertJobIntoHeap s.jobList s.ID (s.jobHeap importance) (s.jobHeapSize importance)
  { s with
    jobHeap := setSlot s.jobHeap importance r.1
    jobHeapSize := setSlot s.jobHeapSize importance r.2 }

/-- The `job` branch of `main`. -/
def doJob (s : State) (timestamp processID : Nat) (originSystem instruction : String)
    (importance duration : Nat) : State :=
  let s := jobAdmitted s timestamp processID originSystem instruction importance duration
  let s := stageJob s s.ID timestamp importance
  let s := { s with ID := s.ID + 1 }
  let s := { s with startTimeRoot := insertCPUNode s.startTimeRoot timestamp }
  { s with MaxMins := logJob s.MaxMins s.startTimeRoot timestamp }

/-- Write `jobList[id].qExit = timestamp`. -/
def setQExit (jobList : List Job) (id timestamp : Nat) : List Job :=
  jobList.set id { getJob jobList id with qExit := timestamp }

/-- One iteration of the inner `for` loop of the `assign` branch (source lines 915-920):
the state after it and the ID of the job whose line is printed. -/
def assignOne (s : State) (timestamp importance : Nat) : State × Nat :=
  let r := extractNextJob s.jobList (s.jobHeap importance) (s.jobHeapSize importance)
  let nextJobID := r.1
  let cpu := deleteCPUNode s.cpuTreeRoot timestamp
  let cpu := insertCPUNode cpu ((timestamp + (getJob s.jobList nextJobID).duration) % llMod)
  let jobList := setQExit s.jobList nextJobID timestamp
  let start := deleteCustom s.startTimeRoot (getJob jobList nextJobID).timestamp
  ({ s with
      jobHeap := setSlot s.jobHeap importance r.2.1
      jobHeapSize := setSlot s.jobHeapSize importance r.2.2
      cpuTreeRoot := cpu
      jobList := jobList
      startTimeRoot := start }, nextJobID)

/-- The inner `for(i=0; i<newJobsToSchedule; ++i)` loop: state and printed IDs. -/
def assignBatch (timestamp importance : Nat) : Nat → State → List Nat → State × List Nat
  | 0, s, out => (s, out)
  | n + 1, s, out =>
    let r := assignOne s timestamp importance
    assignBatch timestamp importance n r.1 (out ++ [r.2])

/-- The `while(selected < K && importance != 0)` loop of the `assign` branch, entered with
the given `importance`. -/
def assignLoop (timestamp K : Nat) : Nat → Nat → State → List Nat → State × List Nat
  | 0, _, s, out => (s, out)
  | importance + 1, selected, s, out =>
    if selected < K then
      let choose := K - selected
      let newJobsToSchedule := min choose (s.jobHeapSize (importance + 1))
      if newJobsToSchedule = 0 then assignLoop timestamp K importance selected s out
      else
        let r := assignBatch timestamp (importance + 1) newJobsToSchedule s out
        assignLoop timestamp K importance (selected + newJobsToSchedule) r.1 r.2
    else (s, out)

/-- The `assign` branch up to the end of the assignment loop (source lines 889-925): the
state and the IDs of the printed jobs in output order. -/
def assignJobs (s : State) (timestamp K : Nat) : State × List Nat :=
  let s := if s.totalSize > 0 then emptyOutAllDurationHeaps s else s
  let freeCPU := getValuesLessThanEqualTo s.cpuTreeRoot timestamp
  let s := { s with prevTimestamp := timestamp }
  let K := min freeCPU K
  assignLoop timestamp K 100 0 s []

/-- The log update that ends the `assign` branch (source lines 929-943).  It reads
`MaxMins[MaxMins.size()-1]` without testing for an empty log. -/
def logAssign (MaxMins : List MaxMinNode) (startTimeRoot : CPUNode) (timestamp : Nat) :
    Outcome (List MaxMinNode) :=
  let Max := if startTimeRoot = .nil then 0 else getMaximum startTimeRoot
  let Min := if startTimeRoot = .nil then 1 else getMinimum startTimeRoot
  (readAt MaxMins (llPred MaxMins.length)).bind fun last =>
  if last.timestamp = timestamp then
    .ok (MaxMins.set (llPred MaxMins.length) (MaxMinNode.create Min Max timestamp))
  else .ok (MaxMins ++ [MaxMinNode.create Min Max timestamp])

/-- The `assign` branch of `main`. -/
def doAssign (s : State) (timestamp K : Nat) : Outcome (State × List Nat) :=
  let r := assignJobs s timestamp K
  (logAssign r.1.MaxMins r.1.startTimeRoot timestamp).bind fun log =>
  .ok ({ r.1 with MaxMins := log }, r.2)

/-! ## Historical queries -/

/-- The test of the scan loops: the job was waiting at `timestamp`. -/
def Job.waitingAt (job : Job) (timestamp : Nat) : Bool :=
  decide (job.timestamp ≤ timestamp ∧ (timestamp < job.qExit ∨ job.qExit = 0))

/-- The `for(j=left,l=right; j<=l; ++j)` loop of `printHistory_TOPK`, with `n = l + 1 - j`
iterations left: printed IDs and `selected`. -/
def scanTOPK (jobList : List Job) (timestamp K : Nat) (jobIDVector : List Nat) :
    Nat → Nat → Nat → List Nat → Outcome (List Nat × Nat)
  | 0, _, selected, out => .ok (out, selected)
  | n + 1, j, selected, out =>
    (readAt jobIDVector j).bind fun jobID =>
    let job := getJob jobList jobID
    let out := if job.waitingAt timestamp = true then out ++ [jobID] else out
    let selected := if job.waitingAt timestamp = true then selected + 1 else selected
    if job.timestamp > timestamp ∨ selected = K then .ok (out, selected)
    else scanTOPK jobList timestamp K jobIDVector n (j + 1) selected out

/-- The scan loop of `printHistory_Origin`. -/
def scanOrigin (jobList : List Job) (timestamp : Nat) (origin : String)
    (jobIDVector : List Nat) : Nat → Nat → List Nat → Outcome (List Nat)
  | 0, _, out => .ok out
  | n + 1, j, out =>
    (readAt jobIDVector j).bind fun jobID =>
    let job := getJob jobList jobID
    let out := if job.waitingAt timestamp = true ∧ job.originSystem = origin
      then out ++ [jobID] else out
    if job.timestamp > timestamp then .ok out
    else scanOrigin jobList timestamp origin jobIDVector n (j + 1) out

/-- The part of both query loops that decides the scan window of one bucket:
`none` when the bucket is skipped, else `(left, right)`. -/
def bucketWindow (jobList : List Job) (Min Max : Nat) (jobIDVector : List Nat) :
    Outcome (Option (Nat × Nat)) :=
  if jobIDVector.length = 0 then .ok none
  else if Max < (getJob jobList (jobIDVector.getD 0 0)).timestamp then .ok none
  else if Min > (getJob jobList
      (jobIDVector.getD (jobIDVector.length - 1) 0)).timestamp then .ok none
  else
    (getStartPoint jobList Min jobIDVector jobIDVector.length 0
      (jobIDVector.length - 1)).bind fun left =>
    (getEndPoint jobList Max jobIDVector jobIDVector.length 0
      (jobIDVector.length - 1)).bind fun right =>
    .ok (some (left, right))

/-- The `while(selected < K && importance != 0)` loop of `printHistory_TOPK`. -/
def topKLoop (s : State) (timestamp K Min Max : Nat) :
    Nat → Nat → List Nat → Outcome (List Nat)
  | 0, _, out => .ok out
  | importance + 1, selected, out =>
    if selected < K then
      (bucketWindow s.jobList Min Max (s.qJobList (importance + 1))).bind fun w =>
      match w with
      | none => topKLoop s timestamp K Min Max importance selected out
      | some (left, right) =>
        (scanTOPK s.jobList timestamp K (s.qJobList (importance + 1)) (right + 1 - left)
          left selected out).bind fun r =>
        topKLoop s timestamp K Min Max importance r.2 r.1
    else .ok out

/-- The `while(importance != 0)` loop of `printHistory_Origin`. -/
def originLoop (s : State) (timestamp : Nat) (origin : String) (Min Max : Nat) :
    Nat → List Nat → Outcome (List Nat)
  | 0, out => .ok out
  | importance + 1, out =>
    (bucketWindow s.jobList Min Max (s.qJobList (importance + 1))).bind fun w =>
    match w with
    | none => originLoop s timestamp origin Min Max importance out
    | some (left, right) =>
      (scanOrigin s.jobList timestamp origin (s.qJobList (importance + 1)) (right + 1 - left)
        left out).bind fun out =>
      originLoop s timestamp origin Min Max importance out

/-- The first lines of both query functions: the log entry found for `timestamp`. -/
def nearbyEntry (s : State) (timestamp : Nat) : Outcome MaxMinNode :=
  (doBinarySearchMaxMins s.MaxMins timestamp (s.MaxMins.length + 1) 0
    (llPred s.MaxMins.length)).bind fun tsNearbyIndex =>
  readAt s.MaxMins tsNearbyIndex

/-- Function `printHistory_TOPK`: the IDs of the printed jobs in output order. -/
def printHistory_TOPK (s : State) (timestamp K : Nat) : Outcome (List Nat) :=
  (nearbyEntry s timestamp).bind fun e =>
  if e.Max < e.Min then .ok []
  else topKLoop s timestamp K e.Min e.Max 100 0 []

/-- Function `printHistory_Origin`: the IDs of the printed jobs in output order. -/
def printHistory_Origin (s : State) (timestamp : Nat) (origin : String) :
    Outcome (List Nat) :=
  (nearbyEntry s timestamp).bind fun e =>
  if e.Max < e.Min then .ok []
  else originLoop s timestamp origin e.Min e.Max 100 []

/-- The flush at the start of the `query` branch of `main`. -/
def queryFlush (s : State) (timestamp : Nat) : State :=
  if timestamp ≥ s.prevTimestamp ∧ s.totalSize > 0 then emptyOutAllDurationHeaps s else s

/-- One command: the state after it and the IDs of the jobs it prints, in order. -/
def step (s : State) : Cmd → Outcome (State × List Nat)
  | .job timestamp processID originSystem instruction importance duration =>
    .ok (doJob s timestamp processID originSystem instruction importance duration, [])
  | .assign timestamp K => doAssign s timestamp K
  | .queryTopK timestamp K =>
    (printHistory_TOPK (queryFlush s timestamp) timestamp K).bind fun out =>
    .ok (queryFlush s timestamp, out)
  | .queryOrigin timestamp origin =>
    (printHistory_Origin (queryFlush s timestamp) timestamp origin).bind fun out =>
    .ok (queryFlush s timestamp, out)

/-- The main loop over the input lines: final state and everything printed. -/
def runFrom : State → List Nat → List Cmd → Outcome (State × List Nat)
  | s, out, [] => .ok (s, out)
  | s, out, c :: cs => (step s c).bind fun r => runFrom r.1 (out ++ r.2) cs

/-- The program on the input `cpus noOfCPU` followed by `cmds`. -/
def run (noOfCPU prevTimestamp0 : Nat) (cmds : List Cmd) : Outcome (State × List Nat) :=
  runFrom (initState noOfCPU prevTimestamp0) [] cmds

/-- The printed line of a job: the fields that `printDescription` writes after the
word "job". -/
def Job.printDescription (job : Job) : Nat × Nat × String × String × Nat × Nat :=
  (job.timestamp, job.processID, job.originSystem, job.instruction, job.importance,
    job.duration)

/-- In-order list of the `freeAfter` keys of the nodes. -/
def CPUNode.keys : CPUNode → List Nat
  | .nil => []
  | .node freeAfter _ _ _ left right => left.keys ++ freeAfter :: right.keys

/-- In-order list of the values held in the tree: each node's `freeAfter`, `freq` times. -/
def CPUNode.values : CPUNode → List Nat
  | .nil => []
  | .node freeAfter _ freq _ left right =>
    left.values ++ (List.replicate freq freeAfter ++ right.values)

/-- Sum of `freq` over all nodes. -/
def CPUNode.sumFreq : CPUNode → Nat
  | .nil => 0
  | .node _ _ freq _ left right => left.sumFreq + freq + right.sumFreq

/-- Sum of `freq` over the nodes whose `freeAfter` is at most `T`. -/
def CPUNode.sumFreqLE : CPUNode → Nat → Nat
  | .nil, _ => 0
  | .node freeAfter _ freq _ left right, T =>
    left.sumFreqLE T + (if freeAfter ≤ T then freq else 0) + right.sumFreqLE T

/-- Every node's `subtreeSize` field is the sum of its `freq` and its children's fields. -/
def CPUNode.SizeOK : CPUNode → Prop
  | .nil => True
  | .node _ subtreeSize freq _ left right =>
    subtreeSize = getSubtreeSize left + freq + getSubtreeSize right ∧ left.SizeOK ∧ right.SizeOK

/-- Every node has `freq ≥ 1`. -/
def CPUNode.FreqPos : CPUNode → Prop
  | .nil => True
  | .node _ _ freq _ left right => 1 ≤ freq ∧ left.FreqPos ∧ right.FreqPos

/-- Search-tree order: the in-order keys are non-decreasing. -/
def CPUNode.Ordered (t : CPUNode) : Prop := t.keys.Pairwise (· ≤ ·)

/-- The invariant of both trees. -/
structure CPUNode.Inv (t : CPUNode) : Prop where
  ordered : t.Ordered
  sizeOK : t.SizeOK
  freqPos : t.FreqPos

/-- What `deleteCPUNode` does to the in-order list of values: the first (leftmost) value
is removed when it is at most `T`. -/
def dropFirstIfLE (T : Nat) : List Nat → List Nat
  | [] => []
  | a :: rest => if a ≤ T then rest else a :: rest

/-- A call made on the CPU free-after tree. -/
inductive CpuOp where
  | insert (value : Nat) : CpuOp
  | delete (value : Nat) : CpuOp
deriving DecidableEq, Repr

/-- One call `insertCPUNode(root, value)` or `deleteCPUNode(root, value)`. -/
def CpuOp.apply (root : CPUNode) : CpuOp → CPUNode
  | .insert value => insertCPUNode root value
  | .delete value => deleteCPUNode root value

/-- A sequence of calls, each made on the root returned by the previous one. -/
def applyCpuOps (root : CPUNode) (ops : List CpuOp) : CPUNode :=
  ops.foldl CpuOp.apply root

/-- No slot of the live prefix outranks its parent slot. -/
def HeapOrdered (hi : Nat → Nat → Bool) (heap : List Nat) (size : Nat) : Prop :=
  ∀ i, 0 < i → i < size → hi (heap.getD i 0) (heap.getD (getParent i) 0) = false

/-- What the heap routines need of their comparison: it is asymmetric and its complement
is transitive (a strict weak order). -/
structure StrictWeak (hi : Nat → Nat → Bool) : Prop where
  asymm : ∀ a b, hi a b = true → hi b a = false
  negTrans : ∀ a b c, hi a b = false → hi b c = false → hi a c = false

/-- IDs of the jobs that have not been assigned (`qExit == 0`), in admission order. -/
def waitingIds (jobList : List Job) : List Nat :=
  (List.range jobList.length).filter fun id => decide ((getJob jobList id).qExit = 0)

/-- IDs of the unassigned jobs of one importance, in admission order. -/
def waitingOf (jobList : List Job) (importance : Nat) : List Nat :=
  (List.range jobList.length).filter fun id =>
    decide ((getJob jobList id).importance = importance ∧ (getJob jobList id).qExit = 0)

/-- IDs of all admitted jobs of one importance, in admission order. -/
def idsOf (jobList : List Job) (importance : Nat) : List Nat :=
  (List.range jobList.length).filter fun id =>
    decide ((getJob jobList id).importance = importance)

/-- The live prefix of the priority heap of one importance. -/
def State.live (s : State) (importance : Nat) : List Nat :=
  (s.jobHeap importance).take (s.jobHeapSize importance)

/-- The live prefix of the duration (staging) heap of one importance. -/
def State.staged (s : State) (importance : Nat) : List Nat :=
  (s.durationHeaps importance).take (s.durationHeapSize importance)

/-- The part of the system invariant about the registry, the priority heaps and the two
trees; `M` is the number of CPUs. -/
structure CoreInv (M : Nat) (s : State) : Prop where
  id_eq : s.ID = s.jobList.length
  imp_range : ∀ id, id < s.jobList.length →
    1 ≤ (getJob s.jobList id).importance ∧ (getJob s.jobList id).importance ≤ 100
  heap_len : ∀ i, s.jobHeapSize i ≤ (s.jobHeap i).length
  heap_ord : ∀ i, HeapOrdered (hasHigherPriority s.jobList) (s.jobHeap i) (s.jobHeapSize i)
  heap_perm : ∀ i, (s.live i).Perm (waitingOf s.jobList i)
  cpu_inv : s.cpuTreeRoot.Inv
  cpu_total : s.cpuTreeRoot.sumFreq = M
  start_inv : s.startTimeRoot.Inv
  start_perm : s.startTimeRoot.values.Perm
    ((waitingIds s.jobList).map fun id => (getJob s.jobList id).timestamp)

/-- Sum of `jobHeapSize[1..m]`. -/
def heapSizeUpTo (jobHeapSize : Nat → Nat) : Nat → Nat
  | 0 => 0
  | m + 1 => heapSizeUpTo jobHeapSize m + jobHeapSize (m + 1)

/-- Total size of the 100 priority heaps. -/
def totalHeapSize (s : State) : Nat := heapSizeUpTo s.jobHeapSize 100

/-- State `s'` differs from `s` at most in the staging heaps, the buckets and `totalSize`. -/
structure StagingOnly (s s' : State) : Prop where
  jobList : s'.jobList = s.jobList
  MaxMins : s'.MaxMins = s.MaxMins
  jobHeap : s'.jobHeap = s.jobHeap
  jobHeapSize : s'.jobHeapSize = s.jobHeapSize
  cpuTreeRoot : s'.cpuTreeRoot = s.cpuTreeRoot
  startTimeRoot : s'.startTimeRoot = s.startTimeRoot
  ID : s'.ID = s.ID
  prevTimestamp : s'.prevTimestamp = s.prevTimestamp

/-- Well-formed input after the `cpus` line, read after a `job`/`assign` command with
timestamp `prev`: the timestamps of `job` and `assign` commands never decrease, every
`assign` timestamp is positive and every importance lies in `[1, 100]`. -/
def wellFormedFrom : Nat → List Cmd → Bool
  | _, [] => true
  | prev, .job timestamp _ _ _ importance _ :: cs =>
    decide (prev ≤ timestamp) && decide (1 ≤ importance) && decide (importance ≤ 100)
      && wellFormedFrom timestamp cs
  | prev, .assign timestamp _ :: cs =>
    decide (prev ≤ timestamp) && decide (0 < timestamp) && wellFormedFrom timestamp cs
  | prev, .queryTopK _ _ :: cs => wellFormedFrom prev cs
  | prev, .queryOrigin _ _ :: cs => wellFormedFrom prev cs

/-- Well-formed input after the `cpus` line. -/
def WellFormed (cmds : List Cmd) : Prop := wellFormedFrom 0 cmds = true

/-- The condition a single command has to meet for the core invariant. -/
def Cmd.sane : Cmd → Prop
  | .job _ _ _ _ importance _ => 1 ≤ importance ∧ importance ≤ 100
  | .assign timestamp _ => 0 < timestamp
  | _ => True

/-- The value carried by a finished run (the initial state stands for an aborted one). -/
def resultOf (o : Outcome (State × List Nat)) : State × List Nat :=
  match o with
  | .ok r => r
  | _ => (initState 0 0, [])

/-- Scenario S1 of the specification, after its line `cpus 2`. -/
def scenarioS1 : List Cmd :=
  [.job 1 100 "sysA" "rebuild" 50 10, .job 2 101 "sysB" "compile" 80 5, .assign 3 2]

/-- Scenario S3 of the specification, after its line `cpus 2`. -/
def scenarioS3 : List Cmd :=
  [.job 5 1 "sysA" "x" 10 7, .job 5 2 "sysA" "y" 10 3, .job 5 3 "sysA" "z" 10 5, .assign 6 2]

/-- The printed jobs `out` are in priority order and no job that is still waiting
outranks any of them; `hi` is the priority comparison. -/
structure OutOrdered (hi : Nat → Nat → Bool) (jobList : List Job) (out : List Nat) : Prop where
  sorted : out.Pairwise fun a b => hi b a = false
  bound : ∀ w, w ∈ waitingIds jobList → ∀ e, e ∈ out → hi w e = false

/-- The three `job` lines of scenario S3 of the specification. -/
def scenarioS3Jobs : List Cmd :=
  [.job 5 1 "sysA" "x" 10 7, .job 5 2 "sysA" "y" 10 3, .job 5 3 "sysA" "z" 10 5]

/-- Arrival timestamp of the job listed at index `i` of a bucket. -/
def tsAt (jobList : List Job) (jobIDVector : List Nat) (i : Nat) : Nat :=
  (getJob jobList (jobIDVector.getD i 0)).timestamp

/-- Timestamp of the log entry at index `i`. -/
def logTsAt (MaxMins : List MaxMinNode) (i : Nat) : Nat :=
  (MaxMins.getD i default).timestamp

/-- The job `id` was waiting at time `T`: admitted not later than `T` and not assigned at
or before `T`. -/
def waitingAtId (jobList : List Job) (T : Nat) (id : Nat) : Bool :=
  (getJob jobList id).waitingAt T

/-- The job `id` was waiting at time `T` and comes from `origin`. -/
def waitingFromAt (jobList : List Job) (T : Nat) (origin : String) (id : Nat) : Bool :=
  (getJob jobList id).waitingAt T && decide ((getJob jobList id).originSystem = origin)

/-- The IDs of a bucket are listed by non-decreasing arrival timestamp. -/
def SortedByTs (jobList : List Job) (v : List Nat) : Prop :=
  v.Pairwise fun a b => (getJob jobList a).timestamp ≤ (getJob jobList b).timestamp

/-- The buckets `m, m-1, ..., 1` one after the other: the order in which a query visits
the historical buckets. -/
def bucketsFrom (qJobList : Nat → List Nat) : Nat → List Nat
  | 0 => []
  | m + 1 => qJobList (m + 1) ++ bucketsFrom qJobList m

/-- The part of the system invariant about staging, the historical buckets and the
timestamp log. -/
structure HistInv (s : State) : Prop where
  stage_len : ∀ i, s.durationHeapSize i ≤ (s.durationHeaps i).length
  bucket_perm : ∀ i, (s.qJobList i ++ s.staged i).Perm (idsOf s.jobList i)
  staged_ts : ∀ i id, id ∈ s.staged i → (getJob s.jobList id).timestamp = s.prevTimestamp
  total : s.totalSize = heapSizeUpTo s.durationHeapSize 100
  bucket_sorted : ∀ i, SortedByTs s.jobList (s.qJobList i)
  ts_le : ∀ id, id < s.jobList.length → (getJob s.jobList id).timestamp ≤ s.prevTimestamp
  qexit_le : ∀ id, id < s.jobList.length → (getJob s.jobList id).qExit ≤ s.prevTimestamp
  log_sorted : s.MaxMins.Pairwise fun a b => a.timestamp < b.timestamp
  log_last : ∀ e, s.MaxMins.getLast? = some e → e.timestamp = s.prevTimestamp
  log_empty_iff : s.MaxMins = [] ↔ s.jobList = []
  log_window : ∀ e, e ∈ s.MaxMins → ∀ id, id < s.jobList.length →
    (getJob s.jobList id).timestamp ≤ e.timestamp →
    ((getJob s.jobList id).qExit = 0 ∨ e.timestamp < (getJob s.jobList id).qExit) →
    e.Min ≤ (getJob s.jobList id).timestamp ∧ (getJob s.jobList id).timestamp ≤ e.Max
  log_has_ts : ∀ id, id < s.jobList.length →
    ∃ e, e ∈ s.MaxMins ∧ e.timestamp = (getJob s.jobList id).timestamp
  log_has_qexit : ∀ id, id < s.jobList.length → (getJob s.jobList id).qExit ≠ 0 →
    ∃ e, e ∈ s.MaxMins ∧ e.timestamp = (getJob s.jobList id).qExit
  log_first : ∀ e j, s.MaxMins.head? = some e → s.jobList.head? = some j →
    e.timestamp = j.timestamp

/-- What `emptyOutDurationHeap(i)` does: bucket `i` receives the staged IDs in some order
`D`, its staging heap becomes empty, and the rest of staging is untouched. -/
structure Flushed (i : Nat) (s s' : State) : Prop where
  frame : StagingOnly s s'
  size_i : s'.durationHeapSize i = 0
  bucket_i : ∃ D, s'.qJobList i = s.qJobList i ++ D ∧ D.Perm (s.staged i)
  size_other : ∀ j, j ≠ i → s'.durationHeapSize j = s.durationHeapSize j
  heap_other : ∀ j, j ≠ i → s'.durationHeaps j = s.durationHeaps j
  bucket_other : ∀ j, j ≠ i → s'.qJobList j = s.qJobList j
  total : s'.totalSize = s.totalSize - s.durationHeapSize i
  heap_len : (s'.durationHeaps i).length = (s.durationHeaps i).length

/-- All 100 staging heaps are empty. -/
def Unstaged (s : State) : Prop := ∀ i, 1 ≤ i → i ≤ 100 → s.durationHeapSize i = 0

/-- What the staging part of the `job` branch does for the job `id` of importance `i`:
`D` is what it flushes to the bucket first and `R` what stays staged next to `id`. -/
structure StagedJob (id i : Nat) (s s' : State) : Prop where
  frame : StagingOnly s s'
  parts : ∃ D R, s'.qJobList i = s.qJobList i ++ D ∧ (D ++ R).Perm (s.staged i) ∧
    (s'.staged i).Perm (id :: R)
  size_le : s'.durationHeapSize i ≤ (s'.durationHeaps i).length
  size_other : ∀ j, j ≠ i → s'.durationHeapSize j = s.durationHeapSize j
  heap_other : ∀ j, j ≠ i → s'.durationHeaps j = s.durationHeaps j
  bucket_other : ∀ j, j ≠ i → s'.qJobList j = s.qJobList j
  total : s'.totalSize + s.durationHeapSize i = s.totalSize + s'.durationHeapSize i

/-- How a `job` or `assign` command at time `ts` changes the log: the new log ends with
`enew`, stamped `ts`; every other entry is an old entry with a smaller timestamp, and
every old entry with a smaller timestamp is kept. -/
structure LogStep (ts : Nat) (L L' : List MaxMinNode) (enew : MaxMinNode) : Prop where
  sorted' : L'.Pairwise fun a b => a.timestamp < b.timestamp
  last' : L'.getLast? = some enew
  ts_new : enew.timestamp = ts
  old_or_new : ∀ e, e ∈ L' → (e ∈ L ∧ e.timestamp < ts) ∨ e = enew
  keep : ∀ e, e ∈ L → e.timestamp < ts → e ∈ L'
  head' : L ≠ [] → L'.head?.map (fun e => e.timestamp) = L.head?.map (fun e => e.timestamp)

/-- How a `job` or `assign` command at time `ts` changes the registry: old jobs keep their
timestamp and either keep `qExit` or go from 0 to `ts`; new jobs arrive at `ts`. -/
structure JobsStep (ts : Nat) (jl jl' : List Job) : Prop where
  len : jl.length ≤ jl'.length
  old_ts : ∀ id, id < jl.length → (getJob jl' id).timestamp = (getJob jl id).timestamp
  old_qexit : ∀ id, id < jl.length →
    (getJob jl' id).qExit = (getJob jl id).qExit ∨
      ((getJob jl id).qExit = 0 ∧ (getJob jl' id).qExit = ts)
  new_job : ∀ id, jl.length ≤ id → id < jl'.length →
    (getJob jl' id).timestamp = ts ∧ (getJob jl' id).qExit = 0
  head : jl ≠ [] → jl'.head?.map (fun j => j.timestamp) = jl.head?.map (fun j => j.timestamp)

/-- What the assignment loop of an `assign` command at time `ts` does to the state, as far
as history is concerned: staging, buckets, log and clock are untouched, the registry keeps
its length and every field but `qExit`, and `qExit` either stays or goes from 0 to `ts`. -/
structure Assigned (ts : Nat) (s s' : State) : Prop where
  durationHeaps : s'.durationHeaps = s.durationHeaps
  durationHeapSize : s'.durationHeapSize = s.durationHeapSize
  qJobList : s'.qJobList = s.qJobList
  totalSize : s'.totalSize = s.totalSize
  prevTimestamp : s'.prevTimestamp = s.prevTimestamp
  MaxMins : s'.MaxMins = s.MaxMins
  len : s'.jobList.length = s.jobList.length
  same_ts : ∀ id, (getJob s'.jobList id).timestamp = (getJob s.jobList id).timestamp
  same_imp : ∀ id, (getJob s'.jobList id).importance = (getJob s.jobList id).importance
  same_origin : ∀ id, (getJob s'.jobList id).originSystem = (getJob s.jobList id).originSystem
  qexit : ∀ id, (getJob s'.jobList id).qExit = (getJob s.jobList id).qExit ∨
    ((getJob s.jobList id).qExit = 0 ∧ (getJob s'.jobList id).qExit = ts)

/-- The waiting set at time `T`: the IDs of the admitted jobs with `timestamp ≤ T` and
`qExit = 0` or `qExit > T`, in admission order. -/
def waitingAtIds (jobList : List Job) (T : Nat) : List Nat :=
  (List.range jobList.length).filter (waitingAtId jobList T)

/-- Scenario S5 of the specification without its `query` line, after `cpus 2`. -/
def scenarioS5Jobs : List Cmd :=
  [.job 1 1 "sysA" "x" 10 1, .job 1 2 "sysB" "y" 20 1, .job 1 3 "sysA" "z" 30 1]

/-- Scenario S4 of the specification without its `query` line, after `cpus 1`. -/
def scenarioS4Cmds : List Cmd :=
  [.job 1 1 "sysA" "x" 50 10, .job 2 2 "sysB" "y" 80 10, .assign 3 1]

/-- The timestamps recorded in the Timestamp-Summary Log, oldest first. -/
def loggedTimestamps (MaxMins : List MaxMinNode) : List Nat :=
  MaxMins.map fun e => e.timestamp

/-- Two jobs and an assign with gaps between the command timestamps, after `cpus 1`. -/
def scenarioGap : List Cmd :=
  [.job 1 1 "sysA" "x" 50 10, .job 5 2 "sysB" "y" 80 10, .assign 9 1]

/-- Two jobs of equal importance and timestamp with a query between them, followed by a
query for both, after `cpus 1`. -/
def scenarioFlushOrder : List Cmd :=
  [.job 5 1 "sysA" "x" 50 10, .queryTopK 5 1, .job 5 2 "sysA" "y" 50 3, .queryTopK 5 2]

/-- The timestamp of a `job` or `assign` command; a `query` does not advance time. -/
def Cmd.stamp : Cmd → Option Nat
  | .job timestamp _ _ _ _ _ => some timestamp
  | .assign timestamp _ => some timestamp
  | _ => none

/-- The command is a `job` command. -/
def Cmd.isJob : Cmd → Bool
  | .job _ _ _ _ _ _ => true
  | _ => false

/-- Two jobs of importance 50 arriving at times 1 and 2, after `cpus 1`: the first is
flushed to its bucket when the second arrives, the second stays staged. -/
def scenarioTwoArrivals : List Cmd :=
  [.job 1 1 "sysA" "x" 50 10, .job 2 2 "sysB" "y" 50 10]

/-- The lines printed by a run, in order: each printed job ID stands for the line that
`printDescription` writes for that job. -/
def printedLines (o : Outcome (State × List Nat)) :
    List (Nat × Nat × String × String × Nat × Nat) :=
  match o with
  | .ok r => r.2.map fun id => (getJob r.1.jobList id).printDescription
  | _ => []

/-- Scenario S4 of the specification, after its line `cpus 1`. -/
def scenarioS4 : List Cmd :=
  [.job 1 1 "sysA" "x" 50 10, .job 2 2 "sysB" "y" 80 10, .assign 3 1, .queryTopK 2 2]

/-- One job, after `cpus 1`. -/
def scenarioOneJob : List Cmd := [.job 5 1 "sysA" "x" 50 10]

/-- A job, an assign at the same timestamp that empties the queue, and a second job at
that timestamp, after `cpus 1`. -/
def scenarioSentinel : List Cmd :=
  [.job 5 1 "sysA" "x" 50 10, .assign 5 1, .job 5 2 "sysA" "y" 50 3]

/-- The AVL shape: at every node the `height` field is one more than the larger height of
the two children and the heights of the children differ by at most one. -/
def CPUNode.AVL : CPUNode → Prop
  | .nil => True
  | .node _ _ _ height left right =>
    height = max (getHeight left) (getHeight right) + 1 ∧
      getHeight left ≤ getHeight right + 1 ∧ getHeight right ≤ getHeight left + 1 ∧
      left.AVL ∧ right.AVL

/-- The number of nodes on the longest path from the root to a leaf. -/
def CPUNode.depth : CPUNode → Nat
  | .nil => 0
  | .node _ _ _ _ left right => max left.depth right.depth + 1

/-- The in-order sequence of the `freeAfter` keys is strictly increasing. -/
def CPUNode.StrictlyOrdered (t : CPUNode) : Prop := t.keys.Pairwise (· < ·)

/-- What is known of a subtree that has just grown by the insertion of `value`: it is the
new leaf, or its root leans to the side on which `value` went. -/
def CPUNode.LeansTo : CPUNode → Nat → Prop
  | .nil, _ => False
  | .node freeAfter _ _ _ left right, value =>
    (freeAfter = value ∧ getHeight left = 0 ∧ getHeight right = 0) ∨
      (value < freeAfter ∧ getHeight left = getHeight right + 1) ∨
      (freeAfter < value ∧ getHeight right = getHeight left + 1)

/-- Three jobs of importance 50 arriving at times 1, 5 and 9. -/
def threeJobs : List Job :=
  [Job.create 0 1 1 "a" "x" 50 1, Job.create 1 2 5 "a" "x" 50 1, Job.create 2 3 9 "a" "x" 50 1]

/-- A job that is assigned before three later arrivals, one of them of another importance,
followed by a query, after `cpus 2`: the log entry of time 9 has `Min = 3` and bucket 50
holds the timestamps 1, 5, 9. -/
def scenarioStartPoint : List Cmd :=
  [.job 1 1 "sysA" "a" 50 1, .assign 2 1, .job 3 2 "sysA" "b" 40 1,
    .job 5 3 "sysA" "c" 50 1, .job 9 4 "sysA" "d" 50 1, .queryTopK 9 5]

/-- Arrivals at times 1, 2, 3, 3 and an assign that takes the job of time 2 (the one of
highest importance), after `cpus 1`. -/
def scenarioSuccessor : List Cmd :=
  [.job 1 1 "sysA" "a" 10 1, .job 2 2 "sysA" "b" 90 1, .job 3 3 "sysA" "c" 10 1,
    .job 3 4 "sysA" "d" 10 1, .assign 4 1]

/-- The example of the claim on the `qExit` sentinel, after `cpus 1`. -/
def scenarioAssignAtZero : List Cmd :=
  [.job 0 1 "sysA" "x" 10 1, .job 0 2 "sysA" "y" 5 1, .assign 0 1, .queryTopK 0 5]

/-! # Properties -/


/-! ### Rotations and refresh keep the in-order lists -/

@[simp] theorem keys_refresh (t : CPUNode) : (refresh t).keys = t.keys := by
  cases t <;> rfl

@[simp] theorem values_refresh (t : CPUNode) : (refresh t).values = t.values := by
  cases t <;> rfl

@[simp] theorem keys_rightRotate (t : CPUNode) : (rightRotate t).keys = t.keys := by
  unfold rightRotate
  split <;> simp [CPUNode.keys]

@[simp] theorem keys_leftRotate (t : CPUNode) : (leftRotate t).keys = t.keys := by
  unfold leftRotate
  split <;> simp [CPUNode.keys]

@[simp] theorem values_rightRotate (t : CPUNode) : (rightRotate t).values = t.values := by
  unfold rightRotate
  split <;> simp [CPUNode.values]

@[simp] theorem values_leftRotate (t : CPUNode) : (leftRotate t).values = t.values := by
  unfold leftRotate
  split <;> simp [CPUNode.values]

theorem keys_setLeft (t l : CPUNode) (h : l.keys = (leftOf t).keys) :
    (setLeft t l).keys = t.keys := by
  cases t <;> simp_all [setLeft, leftOf, CPUNode.keys]

theorem keys_setRight (t r : CPUNode) (h : r.keys = (rightOf t).keys) :
    (setRight t r).keys = t.keys := by
  cases t <;> simp_all [setRight, rightOf, CPUNode.keys]

theorem values_setLeft (t l : CPUNode) (h : l.values = (leftOf t).values) :
    (setLeft t l).values = t.values := by
  cases t <;> simp_all [setLeft, leftOf, CPUNode.values]

theorem values_setRight (t r : CPUNode) (h : r.values = (rightOf t).values) :
    (setRight t r).values = t.values := by
  cases t <;> simp_all [setRight, rightOf, CPUNode.values]

@[simp] theorem keys_rebalanceDelete (t : CPUNode) : (rebalanceDelete t).keys = t.keys := by
  unfold rebalanceDelete
  simp only
  split_ifs <;> simp [keys_setLeft, keys_setRight]

@[simp] theorem values_rebalanceDelete (t : CPUNode) :
    (rebalanceDelete t).values = t.values := by
  unfold rebalanceDelete
  simp only
  split_ifs <;> simp [values_setLeft, values_setRight]

@[simp] theorem keys_rebalanceInsert (t : CPUNode) (v : Nat) :
    (rebalanceInsert t v).keys = t.keys := by
  unfold rebalanceInsert
  simp only
  split_ifs <;> simp [keys_setLeft, keys_setRight]

@[simp] theorem values_rebalanceInsert (t : CPUNode) (v : Nat) :
    (rebalanceInsert t v).values = t.values := by
  unfold rebalanceInsert
  simp only
  split_ifs <;> simp [values_setLeft, values_setRight]

/-! ### Sizes, frequencies -/

theorem getSubtreeSize_eq_sumFreq {t : CPUNode} (h : t.SizeOK) : getSubtreeSize t = t.sumFreq := by
  induction t with
  | nil => rfl
  | node k sz f ht l r ihl ihr =>
    obtain ⟨h1, h2, h3⟩ := h
    show sz = l.sumFreq + f + r.sumFreq
    rw [h1, ihl h2, ihr h3]

theorem sumFreq_eq_length_values (t : CPUNode) : t.sumFreq = t.values.length := by
  induction t with
  | nil => rfl
  | node k sz f ht l r ihl ihr =>
    simp [CPUNode.sumFreq, CPUNode.values, ihl, ihr]; omega

theorem sumFreqLE_eq_countP (t : CPUNode) (T : Nat) :
    t.sumFreqLE T = t.values.countP (fun x => decide (x ≤ T)) := by
  induction t with
  | nil => rfl
  | node k sz f ht l r ihl ihr =>
    simp only [CPUNode.sumFreqLE, CPUNode.values, List.countP_append, ihl, ihr]
    by_cases hk : k ≤ T
    · simp [hk, List.countP_replicate]; omega
    · simp [hk, List.countP_replicate]

theorem sizeOK_refresh {t : CPUNode} (hl : (leftOf t).SizeOK) (hr : (rightOf t).SizeOK) :
    (refresh t).SizeOK := by
  cases t with
  | nil => trivial
  | node k sz f ht l r => exact ⟨rfl, hl, hr⟩

theorem sizeOK_rightRotate {t : CPUNode} (h : t.SizeOK) : (rightRotate t).SizeOK := by
  unfold rightRotate
  split
  · obtain ⟨_, ⟨_, hxl, hT2⟩, hyr⟩ := h
    exact ⟨rfl, hxl, rfl, hT2, hyr⟩
  · exact h

theorem sizeOK_leftRotate {t : CPUNode} (h : t.SizeOK) : (leftRotate t).SizeOK := by
  unfold leftRotate
  split
  · obtain ⟨_, hxl, _, hT2, hyr⟩ := h
    exact ⟨rfl, ⟨rfl, hxl, hT2⟩, hyr⟩
  · exact h

theorem sumFreq_of_values_eq {s t : CPUNode} (h : s.values = t.values) :
    s.sumFreq = t.sumFreq := by
  rw [sumFreq_eq_length_values, sumFreq_eq_length_values, h]

theorem sizeOK_setLeft {t l : CPUNode} (h : t.SizeOK) (hl : l.SizeOK)
    (hv : l.sumFreq = (leftOf t).sumFreq) : (setLeft t l).SizeOK := by
  cases t with
  | nil => trivial
  | node k sz f ht l0 r =>
    obtain ⟨h1, h2, h3⟩ := h
    refine ⟨?_, hl, h3⟩
    rw [h1, getSubtreeSize_eq_sumFreq hl, getSubtreeSize_eq_sumFreq h2, hv]; rfl

theorem sizeOK_setRight {t r : CPUNode} (h : t.SizeOK) (hr : r.SizeOK)
    (hv : r.sumFreq = (rightOf t).sumFreq) : (setRight t r).SizeOK := by
  cases t with
  | nil => trivial
  | node k sz f ht l r0 =>
    obtain ⟨h1, h2, h3⟩ := h
    refine ⟨?_, h2, hr⟩
    rw [h1, getSubtreeSize_eq_sumFreq hr, getSubtreeSize_eq_sumFreq h3, hv]; rfl

theorem sizeOK_leftOf {t : CPUNode} (h : t.SizeOK) : (leftOf t).SizeOK := by
  cases t with
  | nil => trivial
  | node k sz f ht l r => exact h.2.1

theorem sizeOK_rightOf {t : CPUNode} (h : t.SizeOK) : (rightOf t).SizeOK := by
  cases t with
  | nil => trivial
  | node k sz f ht l r => exact h.2.2

theorem sizeOK_rebalanceDelete {t : CPUNode} (hl : (leftOf t).SizeOK)
    (hr : (rightOf t).SizeOK) : (rebalanceDelete t).SizeOK := by
  have h0 := sizeOK_refresh hl hr
  unfold rebalanceDelete
  simp only
  split_ifs
  · exact h0
  · exact sizeOK_rightRotate h0
  · exact sizeOK_rightRotate (sizeOK_setLeft h0 (sizeOK_leftRotate (sizeOK_leftOf h0))
      (sumFreq_of_values_eq (values_leftRotate _)))
  · exact sizeOK_leftRotate h0
  · exact sizeOK_leftRotate (sizeOK_setRight h0 (sizeOK_rightRotate (sizeOK_rightOf h0))
      (sumFreq_of_values_eq (values_rightRotate _)))
  · exact h0

theorem sizeOK_rebalanceInsert {t : CPUNode} (v : Nat) (hl : (leftOf t).SizeOK)
    (hr : (rightOf t).SizeOK) : (rebalanceInsert t v).SizeOK := by
  have h0 := sizeOK_refresh hl hr
  unfold rebalanceInsert
  simp only
  split_ifs
  · exact h0
  · exact sizeOK_rightRotate h0
  · exact sizeOK_leftRotate h0
  · exact sizeOK_rightRotate (sizeOK_setLeft h0 (sizeOK_leftRotate (sizeOK_leftOf h0))
      (sumFreq_of_values_eq (values_leftRotate _)))
  · exact sizeOK_leftRotate (sizeOK_setRight h0 (sizeOK_rightRotate (sizeOK_rightOf h0))
      (sumFreq_of_values_eq (values_rightRotate _)))
  · exact h0

/-! ### Positive frequencies -/

theorem freqPos_refresh {t : CPUNode} (h : t.FreqPos) : (refresh t).FreqPos := by
  cases t with
  | nil => trivial
  | node k sz f ht l r => exact h

theorem freqPos_rightRotate {t : CPUNode} (h : t.FreqPos) : (rightRotate t).FreqPos := by
  unfold rightRotate
  split
  · obtain ⟨hy, ⟨hx, hxl, hT2⟩, hyr⟩ := h
    exact ⟨hx, hxl, hy, hT2, hyr⟩
  · exact h

theorem freqPos_leftRotate {t : CPUNode} (h : t.FreqPos) : (leftRotate t).FreqPos := by
  unfold leftRotate
  split
  · obtain ⟨hx, hxl, hy, hT2, hyr⟩ := h
    exact ⟨hy, ⟨hx, hxl, hT2⟩, hyr⟩
  · exact h

theorem freqPos_leftOf {t : CPUNode} (h : t.FreqPos) : (leftOf t).FreqPos := by
  cases t with
  | nil => trivial
  | node k sz f ht l r => exact h.2.1

theorem freqPos_rightOf {t : CPUNode} (h : t.FreqPos) : (rightOf t).FreqPos := by
  cases t with
  | nil => trivial
  | node k sz f ht l r => exact h.2.2

theorem freqPos_setLeft {t l : CPUNode} (h : t.FreqPos) (hl : l.FreqPos) :
    (setLeft t l).FreqPos := by
  cases t with
  | nil => trivial
  | node k sz f ht l0 r => exact ⟨h.1, hl, h.2.2⟩

theorem freqPos_setRight {t r : CPUNode} (h : t.FreqPos) (hr : r.FreqPos) :
    (setRight t r).FreqPos := by
  cases t with
  | nil => trivial
  | node k sz f ht l r0 => exact ⟨h.1, h.2.1, hr⟩

theorem freqPos_rebalanceDelete {t : CPUNode} (h : t.FreqPos) : (rebalanceDelete t).FreqPos := by
  have h0 := freqPos_refresh h
  unfold rebalanceDelete
  simp only
  split_ifs
  · exact h0
  · exact freqPos_rightRotate h0
  · exact freqPos_rightRotate (freqPos_setLeft h0 (freqPos_leftRotate (freqPos_leftOf h0)))
  · exact freqPos_leftRotate h0
  · exact freqPos_leftRotate (freqPos_setRight h0 (freqPos_rightRotate (freqPos_rightOf h0)))
  · exact h0

theorem freqPos_rebalanceInsert {t : CPUNode} (v : Nat) (h : t.FreqPos) :
    (rebalanceInsert t v).FreqPos := by
  have h0 := freqPos_refresh h
  unfold rebalanceInsert
  simp only
  split_ifs
  · exact h0
  · exact freqPos_rightRotate h0
  · exact freqPos_leftRotate h0
  · exact freqPos_rightRotate (freqPos_setLeft h0 (freqPos_leftRotate (freqPos_leftOf h0)))
  · exact freqPos_leftRotate (freqPos_setRight h0 (freqPos_rightRotate (freqPos_rightOf h0)))
  · exact h0

theorem mem_values_iff_mem_keys {t : CPUNode} (h : t.FreqPos) (x : Nat) :
    x ∈ t.values ↔ x ∈ t.keys := by
  induction t with
  | nil => simp [CPUNode.values, CPUNode.keys]
  | node k sz f ht l r ihl ihr =>
    obtain ⟨h1, h2, h3⟩ := h
    simp only [CPUNode.values, CPUNode.keys, List.mem_append, List.mem_cons, ihl h2, ihr h3,
      List.mem_replicate]
    constructor
    · rintro (h | ⟨-, h⟩ | h) <;> simp [h]
    · rintro (h | h | h)
      · exact Or.inl h
      · exact Or.inr (Or.inl ⟨by omega, h⟩)
      · exact Or.inr (Or.inr h)

/-! ### Search-tree order -/

theorem ordered_node_iff (k sz f ht : Nat) (l r : CPUNode) :
    (CPUNode.node k sz f ht l r).Ordered ↔
      l.Ordered ∧ r.Ordered ∧ (∀ a ∈ l.keys, a ≤ k) ∧ (∀ b ∈ r.keys, k ≤ b) := by
  unfold CPUNode.Ordered
  simp only [CPUNode.keys, List.pairwise_append, List.pairwise_cons, List.mem_cons]
  constructor
  · rintro ⟨h1, ⟨h2, h3⟩, h4⟩
    exact ⟨h1, h3, fun a ha => h4 a ha k (Or.inl rfl), h2⟩
  · rintro ⟨h1, h2, h3, h4⟩
    refine ⟨h1, ⟨h4, h2⟩, ?_⟩
    rintro a ha b (rfl | hb)
    · exact h3 a ha
    · exact le_trans (h3 a ha) (h4 b hb)

theorem ordered_of_keys_eq {s t : CPUNode} (h : s.keys = t.keys) (ht : t.Ordered) :
    s.Ordered := by
  unfold CPUNode.Ordered at *
  rw [h]; exact ht

/-! ### `insertCPUNode` -/

theorem mem_keys_insertCPUNode (t : CPUNode) (v x : Nat) :
    x ∈ (insertCPUNode t v).keys ↔ x = v ∨ x ∈ t.keys := by
  induction t with
  | nil => simp [insertCPUNode, CPUNode.keys]
  | node k sz f ht l r ihl ihr =>
    unfold insertCPUNode
    split_ifs with h1 h2
    · subst h1
      simp [CPUNode.keys]
      tauto
    · simp only [keys_rebalanceInsert, CPUNode.keys, List.mem_append, List.mem_cons, ihr]
      tauto
    · simp only [keys_rebalanceInsert, CPUNode.keys, List.mem_append, List.mem_cons, ihl]
      tauto

theorem ordered_insertCPUNode {t : CPUNode} (v : Nat) (h : t.Ordered) :
    (insertCPUNode t v).Ordered := by
  induction t with
  | nil => simp [insertCPUNode, CPUNode.Ordered, CPUNode.keys]
  | node k sz f ht l r ihl ihr =>
    obtain ⟨h1, h2, h3, h4⟩ := (ordered_node_iff _ _ _ _ _ _).1 h
    unfold insertCPUNode
    split_ifs with e1 e2
    · exact (ordered_node_iff _ _ _ _ _ _).2 ⟨h1, h2, h3, h4⟩
    · apply ordered_of_keys_eq (keys_rebalanceInsert _ _)
      refine (ordered_node_iff _ _ _ _ _ _).2 ⟨h1, ihr h2, h3, ?_⟩
      intro b hb
      rcases (mem_keys_insertCPUNode _ _ _).1 hb with rfl | hb
      · omega
      · exact h4 b hb
    · apply ordered_of_keys_eq (keys_rebalanceInsert _ _)
      refine (ordered_node_iff _ _ _ _ _ _).2 ⟨ihl h1, h2, ?_, h4⟩
      intro a ha
      rcases (mem_keys_insertCPUNode _ _ _).1 ha with rfl | ha
      · omega
      · exact h3 a ha

theorem values_insertCPUNode (t : CPUNode) (v : Nat) :
    (insertCPUNode t v).values.Perm (v :: t.values) := by
  induction t with
  | nil => simp [insertCPUNode, CPUNode.values]
  | node k sz f ht l r ihl ihr =>
    unfold insertCPUNode
    split_ifs with e1 e2
    · subst e1
      simp only [CPUNode.values, List.replicate_succ, List.cons_append]
      exact List.perm_middle
    · simp only [values_rebalanceInsert, CPUNode.values]
      calc l.values ++ (List.replicate f k ++ (insertCPUNode r v).values)
          = (l.values ++ List.replicate f k) ++ (insertCPUNode r v).values := by simp
        _ |>.Perm ((l.values ++ List.replicate f k) ++ v :: r.values) := List.Perm.append_left _ ihr
        _ |>.Perm (v :: ((l.values ++ List.replicate f k) ++ r.values)) := List.perm_middle
        _ = v :: (l.values ++ (List.replicate f k ++ r.values)) := by simp
    · simp only [values_rebalanceInsert, CPUNode.values]
      exact (List.Perm.append_right _ ihl)

theorem sumFreq_insertCPUNode (t : CPUNode) (v : Nat) :
    (insertCPUNode t v).sumFreq = t.sumFreq + 1 := by
  rw [sumFreq_eq_length_values, sumFreq_eq_length_values, (values_insertCPUNode t v).length_eq]
  rfl

theorem sizeOK_insertCPUNode {t : CPUNode} (v : Nat) (h : t.SizeOK) :
    (insertCPUNode t v).SizeOK := by
  induction t with
  | nil => exact ⟨rfl, trivial, trivial⟩
  | node k sz f ht l r ihl ihr =>
    obtain ⟨h1, h2, h3⟩ := h
    unfold insertCPUNode
    split_ifs with e1 e2
    · exact ⟨by omega, h2, h3⟩
    · exact sizeOK_rebalanceInsert _ h2 (ihr h3)
    · exact sizeOK_rebalanceInsert _ (ihl h2) h3

theorem freqPos_insertCPUNode {t : CPUNode} (v : Nat) (h : t.FreqPos) :
    (insertCPUNode t v).FreqPos := by
  induction t with
  | nil => exact ⟨le_refl _, trivial, trivial⟩
  | node k sz f ht l r ihl ihr =>
    obtain ⟨h1, h2, h3⟩ := h
    unfold insertCPUNode
    split_ifs with e1 e2
    · exact ⟨by omega, h2, h3⟩
    · exact freqPos_rebalanceInsert _ ⟨h1, h2, ihr h3⟩
    · exact freqPos_rebalanceInsert _ ⟨h1, ihl h2, h3⟩

theorem inv_insertCPUNode {t : CPUNode} (v : Nat) (h : t.Inv) : (insertCPUNode t v).Inv :=
  ⟨ordered_insertCPUNode v h.ordered, sizeOK_insertCPUNode v h.sizeOK,
    freqPos_insertCPUNode v h.freqPos⟩

/-! ### `deleteCPUNode` -/

theorem values_ne_nil_of_node {k sz f ht : Nat} {l r : CPUNode}
    (h : (CPUNode.node k sz f ht l r).FreqPos) : (CPUNode.node k sz f ht l r).values ≠ [] := by
  obtain ⟨h1, -, -⟩ := h
  obtain ⟨f', rfl⟩ : ∃ f', f = f' + 1 := ⟨f - 1, by omega⟩
  simp [CPUNode.values, List.replicate_succ]

theorem dropFirstIfLE_append {T : Nat} {xs : List Nat} (ys : List Nat) (h : xs ≠ []) :
    dropFirstIfLE T (xs ++ ys) = dropFirstIfLE T xs ++ ys := by
  cases xs with
  | nil => exact absurd rfl h
  | cons a rest =>
    simp only [List.cons_append, dropFirstIfLE]
    split_ifs <;> simp

theorem values_deleteCPUNode {t : CPUNode} (T : Nat) (h : t.FreqPos) :
    (deleteCPUNode t T).values = dropFirstIfLE T t.values := by
  induction t with
  | nil => rfl
  | node k sz f ht l r ihl ihr =>
    obtain ⟨h1, h2, h3⟩ := h
    cases l with
    | nil =>
      obtain ⟨f', rfl⟩ : ∃ f', f = f' + 1 := ⟨f - 1, by omega⟩
      unfold deleteCPUNode
      by_cases hk : k > T
      · have : ¬ k ≤ T := by omega
        simp [hk, deleteCPUNode, CPUNode.values, List.replicate_succ, dropFirstIfLE, this]
      · have hk' : k ≤ T := by omega
        simp only [hk, if_false, ne_eq, not_true_eq_false]
        by_cases hf : f' + 1 > 1
        · simp only [hf, if_true]
          obtain ⟨f'', rfl⟩ : ∃ f'', f' = f'' + 1 := ⟨f' - 1, by omega⟩
          simp [CPUNode.values, List.replicate_succ, dropFirstIfLE, hk']
        · have hf0 : f' = 0 := by omega
          subst hf0
          simp only [hf, if_false]
          cases r with
          | nil => simp [CPUNode.values, dropFirstIfLE, hk']
          | node k2 s2 f2 h2 l2 r2 =>
            simp [CPUNode.values, dropFirstIfLE, hk']
    | node kl sl fl hl ll rl =>
      have hne := values_ne_nil_of_node h2
      have key : (rebalanceDelete (CPUNode.node k sz f ht
          (deleteCPUNode (CPUNode.node kl sl fl hl ll rl) T) r)).values
          = dropFirstIfLE T (CPUNode.node k sz f ht (CPUNode.node kl sl fl hl ll rl) r).values := by
        rw [values_rebalanceDelete]
        show (deleteCPUNode (CPUNode.node kl sl fl hl ll rl) T).values ++ _ = _
        rw [ihl h2]
        show _ = dropFirstIfLE T ((CPUNode.node kl sl fl hl ll rl).values ++ _)
        rw [dropFirstIfLE_append _ hne]
      unfold deleteCPUNode
      split_ifs with e1 e2
      · exact key
      · exact key
      · simp at e2
      · simp at e2

theorem keys_deleteCPUNode_sublist (t : CPUNode) (T : Nat) :
    (deleteCPUNode t T).keys.Sublist t.keys := by
  induction t with
  | nil => exact List.Sublist.refl _
  | node k sz f ht l r ihl ihr =>
    have key : (rebalanceDelete (CPUNode.node k sz f ht (deleteCPUNode l T) r)).keys.Sublist
        (CPUNode.node k sz f ht l r).keys := by
      rw [keys_rebalanceDelete]
      exact List.Sublist.append ihl (List.Sublist.refl _)
    unfold deleteCPUNode
    split_ifs with e1 e2 e3
    · exact key
    · exact key
    · exact List.Sublist.refl _
    · cases r with
      | nil => exact List.nil_sublist _
      | node k2 s2 f2 h2 l2 r2 =>
        simp only [keys_rebalanceDelete]
        show (CPUNode.node k2 s2 f2 h2 l2 r2).keys.Sublist
          (l.keys ++ k :: (CPUNode.node k2 s2 f2 h2 l2 r2).keys)
        exact (List.sublist_cons_self _ _).trans (List.sublist_append_right _ _)

theorem ordered_deleteCPUNode {t : CPUNode} (T : Nat) (h : t.Ordered) :
    (deleteCPUNode t T).Ordered :=
  List.Pairwise.sublist (keys_deleteCPUNode_sublist t T) h

theorem sizeOK_deleteCPUNode {t : CPUNode} (T : Nat) (h : t.SizeOK) :
    (deleteCPUNode t T).SizeOK := by
  induction t with
  | nil => trivial
  | node k sz f ht l r ihl ihr =>
    obtain ⟨h1, h2, h3⟩ := h
    unfold deleteCPUNode
    split_ifs with e1 e2 e3
    · exact sizeOK_rebalanceDelete (ihl h2) h3
    · exact sizeOK_rebalanceDelete (ihl h2) h3
    · exact ⟨by omega, h2, h3⟩
    · cases r with
      | nil => trivial
      | node k2 s2 f2 h2 l2 r2 => exact sizeOK_rebalanceDelete h3.2.1 h3.2.2

theorem freqPos_deleteCPUNode {t : CPUNode} (T : Nat) (h : t.FreqPos) :
    (deleteCPUNode t T).FreqPos := by
  induction t with
  | nil => trivial
  | node k sz f ht l r ihl ihr =>
    obtain ⟨h1, h2, h3⟩ := h
    unfold deleteCPUNode
    split_ifs with e1 e2 e3
    · exact freqPos_rebalanceDelete ⟨h1, ihl h2, h3⟩
    · exact freqPos_rebalanceDelete ⟨h1, ihl h2, h3⟩
    · exact ⟨by omega, h2, h3⟩
    · cases r with
      | nil => trivial
      | node k2 s2 f2 h2 l2 r2 => exact freqPos_rebalanceDelete h3

theorem inv_deleteCPUNode {t : CPUNode} (T : Nat) (h : t.Inv) : (deleteCPUNode t T).Inv :=
  ⟨ordered_deleteCPUNode T h.ordered, sizeOK_deleteCPUNode T h.sizeOK,
    freqPos_deleteCPUNode T h.freqPos⟩

theorem inv_createBST (M : Nat) : (createBST M).Inv := by
  unfold createBST
  split_ifs with h
  · exact ⟨List.Pairwise.nil, trivial, trivial⟩
  · exact ⟨by simp [CPUNode.Ordered, CPUNode.keys], ⟨by simp [getSubtreeSize], trivial, trivial⟩,
      ⟨by omega, trivial, trivial⟩⟩

/-! ### `getValuesLessThanEqualTo` -/

theorem sumFreqLE_eq_sumFreq_of_forall_le {t : CPUNode} {T : Nat}
    (h : ∀ a ∈ t.keys, a ≤ T) : t.sumFreqLE T = t.sumFreq := by
  induction t with
  | nil => rfl
  | node k sz f ht l r ihl ihr =>
    simp only [CPUNode.keys, List.mem_append, List.mem_cons] at h
    have hk : k ≤ T := h k (Or.inr (Or.inl rfl))
    simp only [CPUNode.sumFreqLE, CPUNode.sumFreq, hk, if_true]
    rw [ihl (fun a ha => h a (Or.inl ha)), ihr (fun a ha => h a (Or.inr (Or.inr ha)))]

theorem sumFreqLE_eq_zero_of_forall_gt {t : CPUNode} {T : Nat}
    (h : ∀ a ∈ t.keys, T < a) : t.sumFreqLE T = 0 := by
  induction t with
  | nil => rfl
  | node k sz f ht l r ihl ihr =>
    simp only [CPUNode.keys, List.mem_append, List.mem_cons] at h
    have hk : ¬ k ≤ T := not_le.2 (h k (Or.inr (Or.inl rfl)))
    simp only [CPUNode.sumFreqLE, hk, if_false]
    rw [ihl (fun a ha => h a (Or.inl ha)), ihr (fun a ha => h a (Or.inr (Or.inr ha)))]

theorem getValuesLessThanEqualTo_eq {t : CPUNode} (T : Nat) (ho : t.Ordered) (hs : t.SizeOK) :
    getValuesLessThanEqualTo t T = t.sumFreqLE T := by
  induction t with
  | nil => rfl
  | node k sz f ht l r ihl ihr =>
    obtain ⟨o1, o2, o3, o4⟩ := (ordered_node_iff _ _ _ _ _ _).1 ho
    obtain ⟨s1, s2, s3⟩ := hs
    unfold getValuesLessThanEqualTo
    split_ifs with hk
    · rw [ihr o2 s3, getSubtreeSize_eq_sumFreq s2]
      simp only [CPUNode.sumFreqLE, hk, if_true]
      rw [sumFreqLE_eq_sumFreq_of_forall_le (fun a ha => le_trans (o3 a ha) hk)]
    · rw [ihl o1 s2]
      simp only [CPUNode.sumFreqLE, hk, if_false]
      rw [sumFreqLE_eq_zero_of_forall_gt (fun a ha => lt_of_lt_of_le (not_le.1 hk) (o4 a ha))]
      omega

theorem inv_applyCpuOps {t : CPUNode} (ops : List CpuOp) (h : t.Inv) :
    (applyCpuOps t ops).Inv := by
  induction ops generalizing t with
  | nil => exact h
  | cons op ops ih =>
    cases op with
    | insert v => exact ih (inv_insertCPUNode v h)
    | delete v => exact ih (inv_deleteCPUNode v h)

/-! ### `getMinimum`, `getMaximum` -/

theorem getMinimum_mem_keys (k sz f ht : Nat) (l r : CPUNode) :
    getMinimum (.node k sz f ht l r) ∈ (CPUNode.node k sz f ht l r).keys := by
  induction l generalizing k sz f ht r with
  | nil => simp [getMinimum, CPUNode.keys]
  | node k2 s2 f2 h2 l2 r2 ihl _ =>
    have := ihl k2 s2 f2 h2 r2
    simp only [getMinimum, CPUNode.keys, List.mem_append, List.mem_cons] at this ⊢
    tauto

theorem getMinimum_le {t : CPUNode} (h : t.Ordered) : ∀ x ∈ t.keys, getMinimum t ≤ x := by
  induction t with
  | nil => intro x hx; simp [CPUNode.keys] at hx
  | node k sz f ht l r ihl _ =>
    obtain ⟨o1, o2, o3, o4⟩ := (ordered_node_iff _ _ _ _ _ _).1 h
    cases l with
    | nil =>
      intro x hx
      simp only [CPUNode.keys, List.nil_append, List.mem_cons] at hx
      rcases hx with rfl | hx
      · exact le_refl _
      · exact o4 x hx
    | node k2 s2 f2 h2 l2 r2 =>
      have hm : getMinimum (.node k2 s2 f2 h2 l2 r2) ∈ (CPUNode.node k2 s2 f2 h2 l2 r2).keys :=
        getMinimum_mem_keys _ _ _ _ _ _
      have hmk : getMinimum (.node k2 s2 f2 h2 l2 r2) ≤ k := o3 _ hm
      intro x hx
      show getMinimum (.node k2 s2 f2 h2 l2 r2) ≤ x
      simp only [CPUNode.keys, List.mem_append, List.mem_cons] at hx
      rcases hx with hx | rfl | hx
      · exact ihl o1 x (by simpa [CPUNode.keys] using hx)
      · exact hmk
      · exact le_trans hmk (o4 x hx)

theorem getMaximum_mem_keys (k sz f ht : Nat) (l r : CPUNode) :
    getMaximum (.node k sz f ht l r) ∈ (CPUNode.node k sz f ht l r).keys := by
  induction r generalizing k sz f ht l with
  | nil => simp [getMaximum, CPUNode.keys]
  | node k2 s2 f2 h2 l2 r2 _ ihr =>
    have := ihr k2 s2 f2 h2 l2
    simp only [getMaximum, CPUNode.keys, List.mem_append, List.mem_cons] at this ⊢
    tauto

theorem le_getMaximum {t : CPUNode} (h : t.Ordered) : ∀ x ∈ t.keys, x ≤ getMaximum t := by
  induction t with
  | nil => intro x hx; simp [CPUNode.keys] at hx
  | node k sz f ht l r _ ihr =>
    obtain ⟨o1, o2, o3, o4⟩ := (ordered_node_iff _ _ _ _ _ _).1 h
    cases r with
    | nil =>
      intro x hx
      simp only [CPUNode.keys, List.mem_append, List.mem_cons, List.not_mem_nil, or_false] at hx
      rcases hx with hx | rfl
      · exact o3 x hx
      · exact le_refl _
    | node k2 s2 f2 h2 l2 r2 =>
      have hm : getMaximum (.node k2 s2 f2 h2 l2 r2) ∈ (CPUNode.node k2 s2 f2 h2 l2 r2).keys :=
        getMaximum_mem_keys _ _ _ _ _ _
      have hmk : k ≤ getMaximum (.node k2 s2 f2 h2 l2 r2) := o4 _ hm
      intro x hx
      show x ≤ getMaximum (.node k2 s2 f2 h2 l2 r2)
      simp only [CPUNode.keys, List.mem_append, List.mem_cons] at hx
      rcases hx with hx | rfl | hx
      · exact le_trans (o3 x hx) hmk
      · exact hmk
      · exact ihr o2 x (by simpa [CPUNode.keys] using hx)

/-! ### `deleteCustom` -/

theorem mem_keys_node (x k sz f ht : Nat) (l r : CPUNode) :
    x ∈ (CPUNode.node k sz f ht l r).keys ↔ x ∈ l.keys ∨ x = k ∨ x ∈ r.keys := by
  simp [CPUNode.keys]

theorem mem_keys_deleteCustom (t : CPUNode) (v : Nat) :
    ∀ x ∈ (deleteCustom t v).keys, x ∈ t.keys := by
  induction t generalizing v with
  | nil => intro x hx; exact hx
  | node k sz f ht l r ihl ihr =>
    intro x
    unfold deleteCustom
    split_ifs with e1 e2 e3
    · simp only [keys_rebalanceDelete, CPUNode.keys, List.mem_append, List.mem_cons]
      rintro (h | h | h)
      · exact Or.inl (ihl v x h)
      · exact Or.inr (Or.inl h)
      · exact Or.inr (Or.inr h)
    · simp only [keys_rebalanceDelete, CPUNode.keys, List.mem_append, List.mem_cons]
      rintro (h | h | h)
      · exact Or.inl h
      · exact Or.inr (Or.inl h)
      · exact Or.inr (Or.inr (ihr v x h))
    · exact fun h => h
    · split
      · intro h; simp [CPUNode.keys] at h
      · simp only [keys_rebalanceDelete, CPUNode.keys, List.mem_append, List.mem_cons]
        intro h; simp only [List.not_mem_nil, or_false]; tauto
      · simp only [keys_rebalanceDelete, CPUNode.keys, List.mem_append, List.mem_cons]
        intro h; tauto
      · rename_i lf ls lq lh ll lr rf rs rq rh rl rr
        rw [keys_rebalanceDelete, mem_keys_node]
        intro h
        refine (mem_keys_node x k sz f ht _ _).2 ?_
        rcases h with h | h | h
        · exact Or.inl h
        · exact Or.inr (Or.inr (h ▸ getMinimum_mem_keys _ _ _ _ _ _))
        · exact Or.inr (Or.inr (ihr _ x h))

theorem ordered_deleteCustom {t : CPUNode} (v : Nat) (h : t.Ordered) :
    (deleteCustom t v).Ordered := by
  induction t generalizing v with
  | nil => exact h
  | node k sz f ht l r ihl ihr =>
    obtain ⟨o1, o2, o3, o4⟩ := (ordered_node_iff _ _ _ _ _ _).1 h
    unfold deleteCustom
    split_ifs with e1 e2 e3
    · apply ordered_of_keys_eq (keys_rebalanceDelete _)
      exact (ordered_node_iff _ _ _ _ _ _).2
        ⟨ihl v o1, o2, fun a ha => o3 a (mem_keys_deleteCustom _ _ a ha), o4⟩
    · apply ordered_of_keys_eq (keys_rebalanceDelete _)
      exact (ordered_node_iff _ _ _ _ _ _).2
        ⟨o1, ihr v o2, o3, fun a ha => o4 a (mem_keys_deleteCustom _ _ a ha)⟩
    · exact (ordered_node_iff _ _ _ _ _ _).2 ⟨o1, o2, o3, o4⟩
    · split
      · exact List.Pairwise.nil
      · exact ordered_of_keys_eq (keys_rebalanceDelete _) o1
      · exact ordered_of_keys_eq (keys_rebalanceDelete _) o2
      · rename_i lf ls lq lh ll lr rf rs rq rh rl rr
        apply ordered_of_keys_eq (keys_rebalanceDelete _)
        have hm := getMinimum_mem_keys rf rs rq rh rl rr
        refine (ordered_node_iff _ _ _ _ _ _).2 ⟨o1, ihr _ o2, ?_, ?_⟩
        · intro a ha
          exact le_trans (o3 a ha) (o4 _ hm)
        · intro b hb
          exact getMinimum_le o2 b (mem_keys_deleteCustom _ _ b hb)

theorem freqPos_deleteCustom {t : CPUNode} (v : Nat) (h : t.FreqPos) :
    (deleteCustom t v).FreqPos := by
  induction t generalizing v with
  | nil => trivial
  | node k sz f ht l r ihl ihr =>
    obtain ⟨h1, h2, h3⟩ := h
    unfold deleteCustom
    split_ifs with e1 e2 e3
    · exact freqPos_rebalanceDelete ⟨h1, ihl v h2, h3⟩
    · exact freqPos_rebalanceDelete ⟨h1, h2, ihr v h3⟩
    · exact ⟨by omega, h2, h3⟩
    · split
      · trivial
      · exact freqPos_rebalanceDelete h2
      · exact freqPos_rebalanceDelete h3
      · exact freqPos_rebalanceDelete ⟨h1, h2, ihr _ h3⟩

theorem sizeOK_deleteCustom {t : CPUNode} (v : Nat) (h : t.SizeOK) :
    (deleteCustom t v).SizeOK := by
  induction t generalizing v with
  | nil => trivial
  | node k sz f ht l r ihl ihr =>
    obtain ⟨h1, h2, h3⟩ := h
    unfold deleteCustom
    split_ifs with e1 e2 e3
    · exact sizeOK_rebalanceDelete (ihl v h2) h3
    · exact sizeOK_rebalanceDelete h2 (ihr v h3)
    · exact ⟨by omega, h2, h3⟩
    · split
      · trivial
      · exact sizeOK_rebalanceDelete h2.2.1 h2.2.2
      · exact sizeOK_rebalanceDelete h3.2.1 h3.2.2
      · exact sizeOK_rebalanceDelete h2 (ihr _ h3)

theorem inv_deleteCustom {t : CPUNode} (v : Nat) (h : t.Inv) : (deleteCustom t v).Inv :=
  ⟨ordered_deleteCustom v h.ordered, sizeOK_deleteCustom v h.sizeOK,
    freqPos_deleteCustom v h.freqPos⟩

theorem values_deleteCustom {t : CPUNode} (v : Nat) (ho : t.Ordered) (hf : t.FreqPos)
    (hv : v ∈ t.values) : (v :: (deleteCustom t v).values).Perm t.values := by
  induction t generalizing v with
  | nil => simp [CPUNode.values] at hv
  | node k sz f ht l r ihl ihr =>
    obtain ⟨o1, o2, o3, o4⟩ := (ordered_node_iff _ _ _ _ _ _).1 ho
    obtain ⟨f1, f2, f3⟩ := hf
    have hv' : v ∈ l.values ∨ v = k ∨ v ∈ r.values := by
      simp only [CPUNode.values, List.mem_append, List.mem_replicate] at hv
      tauto
    unfold deleteCustom
    split_ifs with e1 e2 e3
    · have hvl : v ∈ l.values := by
        rcases hv' with h | h | h
        · exact h
        · omega
        · have := o4 v ((mem_values_iff_mem_keys f3 v).1 h); omega
      simp only [values_rebalanceDelete, CPUNode.values]
      exact (List.Perm.append_right _ (ihl v o1 f2 hvl))
    · have hvr : v ∈ r.values := by
        rcases hv' with h | h | h
        · have := o3 v ((mem_values_iff_mem_keys f2 v).1 h); omega
        · omega
        · exact h
      simp only [values_rebalanceDelete, CPUNode.values]
      have := ihr v o2 f3 hvr
      calc v :: (l.values ++ (List.replicate f k ++ (deleteCustom r v).values))
          |>.Perm ((l.values ++ List.replicate f k) ++ v :: (deleteCustom r v).values) := by
            rw [← List.append_assoc]; exact List.perm_middle.symm
        _ |>.Perm ((l.values ++ List.replicate f k) ++ r.values) := List.Perm.append_left _ this
        _ = l.values ++ (List.replicate f k ++ r.values) := by simp
    · have hk : k = v := by omega
      subst hk
      obtain ⟨f', rfl⟩ : ∃ f', f = f' + 1 := ⟨f - 1, by omega⟩
      simp only [CPUNode.values, Nat.add_sub_cancel, List.replicate_succ, List.cons_append]
      exact List.perm_middle.symm
    · have hk : k = v := by omega
      subst hk
      have hf1 : f = 1 := by omega
      subst hf1
      split
      · simp [CPUNode.values]
      · simp only [values_rebalanceDelete]
        show (k :: _).Perm (_ ++ (List.replicate 1 k ++ []))
        simp only [List.replicate_one, List.append_nil]
        exact (List.perm_append_singleton _ _).symm
      · simp [CPUNode.values]
      · rename_i lf ls lq lh ll lr rf rs rq rh rl rr
        have hm := getMinimum_mem_keys rf rs rq rh rl rr
        have hmv := (mem_values_iff_mem_keys f3 _).2 hm
        have := ihr _ o2 f3 hmv
        simp only [values_rebalanceDelete]
        show (k :: ((CPUNode.node lf ls lq lh ll lr).values ++
          (List.replicate 1 (getMinimum (.node rf rs rq rh rl rr)) ++
            (deleteCustom (.node rf rs rq rh rl rr)
              (getMinimum (.node rf rs rq rh rl rr))).values))).Perm
          ((CPUNode.node lf ls lq lh ll lr).values ++
            (List.replicate 1 k ++ (CPUNode.node rf rs rq rh rl rr).values))
        simp only [List.replicate_one, List.singleton_append]
        exact (List.Perm.cons k (List.Perm.append_left _ this)).trans List.perm_middle.symm

/-! ### Lists as vectors -/

theorem getD_set_self {l : List Nat} {i : Nat} (a d : Nat) (h : i < l.length) :
    (l.set i a).getD i d = a := by
  simp [List.getD_eq_getElem?_getD, List.getElem?_set, h]

theorem getD_set_of_ne {l : List Nat} {i j : Nat} (a d : Nat) (h : i ≠ j) :
    (l.set i a).getD j d = l.getD j d := by
  simp [List.getD_eq_getElem?_getD, List.getElem?_set, h]

theorem getD_take {l : List Nat} {i n : Nat} (d : Nat) (h : i < n) :
    (l.take n).getD i d = l.getD i d := by
  simp [List.getD_eq_getElem?_getD, List.getElem?_take, h]

theorem length_swapAt (l : List Nat) (i j : Nat) : (swapAt l i j).length = l.length := by
  simp [swapAt]

theorem getD_swapAt {l : List Nat} {i j : Nat} (k : Nat) (hi : i < l.length)
    (hj : j < l.length) :
    (swapAt l i j).getD k 0 =
      if k = j then l.getD i 0 else if k = i then l.getD j 0 else l.getD k 0 := by
  unfold swapAt
  by_cases h1 : k = j
  · subst h1
    rw [getD_set_self _ _ (by simpa using hj)]
    simp
  · rw [getD_set_of_ne _ _ (Ne.symm h1)]
    by_cases h2 : k = i
    · subst h2
      rw [getD_set_self _ _ hi]
      simp [h1]
    · rw [getD_set_of_ne _ _ (Ne.symm h2)]
      simp [h1, h2]

theorem swapAt_perm {l : List Nat} {i j : Nat} (hi : i < l.length) (hj : j < l.length) :
    (swapAt l i j).Perm l := by
  rw [List.perm_iff_count]
  intro a
  unfold swapAt
  have e1 : l.getD j 0 = l[j] := List.getD_eq_getElem _ _ hj
  have e2 : l.getD i 0 = l[i] := List.getD_eq_getElem _ _ hi
  have c1 : (if (l[i] == a) = true then 1 else 0) ≤ l.count a := by
    split_ifs with h
    · exact List.count_pos_iff.2 (by rw [← (beq_iff_eq).1 h]; exact List.getElem_mem _)
    · exact Nat.zero_le _
  have c2 : (if (l[j] == a) = true then 1 else 0) ≤ l.count a := by
    split_ifs with h
    · exact List.count_pos_iff.2 (by rw [← (beq_iff_eq).1 h]; exact List.getElem_mem _)
    · exact Nat.zero_le _
  rw [List.count_set _ _ _ _ (by simpa using hj), List.count_set _ _ _ _ hi]
  have hj' : j < (l.set i (l.getD j 0)).length := by simpa using hj
  have e3 : (l.set i (l.getD j 0))[j] = l[j] := by
    rw [List.getElem_set]
    split_ifs with h
    · exact e1
    · rfl
  rw [e3, e1, e2]
  split_ifs at c1 c2 ⊢ <;> omega

theorem take_swapAt {l : List Nat} {i j n : Nat} (hi : i < n) (hj : j < n) :
    (swapAt l i j).take n = swapAt (l.take n) i j := by
  unfold swapAt
  rw [List.set_take, List.set_take, getD_take _ hi, getD_take _ hj]

theorem take_swapAt_perm {l : List Nat} {i j n : Nat} (hi : i < n) (hj : j < n)
    (hn : n ≤ l.length) : ((swapAt l i j).take n).Perm (l.take n) := by
  rw [take_swapAt hi hj]
  exact swapAt_perm (by simp; omega) (by simp; omega)

/-! ### Sift-down -/

theorem StrictWeak.irrefl {hi : Nat → Nat → Bool} (sw : StrictWeak hi) (a : Nat) :
    hi a a = false := by
  cases h : hi a a with
  | false => rfl
  | true => have := sw.asymm a a h; simp [h] at this

theorem StrictWeak.hi_trans {hi : Nat → Nat → Bool} (sw : StrictWeak hi) {a b c : Nat}
    (h1 : hi a b = true) (h2 : hi b c = true) : hi a c = true := by
  cases h : hi a c with
  | true => rfl
  | false =>
    -- from `¬ hi c b` (asymmetry) and `¬ hi a c` we would get `¬ hi a b`
    have := sw.negTrans a c b h (sw.asymm b c h2)
    simp [h1] at this

theorem maxPosOf_cases (hi : Nat → Nat → Bool) (heap : List Nat) (pos n : Nat) :
    maxPosOf hi heap pos n = pos ∨
      (maxPosOf hi heap pos n = getLeft pos ∧ getLeft pos < n) ∨
      (maxPosOf hi heap pos n = getRight pos ∧ getRight pos < n) := by
  unfold maxPosOf
  simp only
  split_ifs <;> simp_all

theorem maxPosOf_hi {hi : Nat → Nat → Bool} (sw : StrictWeak hi) (heap : List Nat)
    (pos n : Nat) (h : maxPosOf hi heap pos n ≠ pos) :
    hi (heap.getD (maxPosOf hi heap pos n) 0) (heap.getD pos 0) = true := by
  unfold maxPosOf at h ⊢
  simp only at h ⊢
  split_ifs at h ⊢ with h1 h2 h3
  · exact sw.hi_trans h2.2 h1.2
  · exact h1.2
  · exact h3.2
  · exact absurd rfl h

theorem maxPosOf_max {hi : Nat → Nat → Bool} (sw : StrictWeak hi) (heap : List Nat)
    (pos n c : Nat) (hc : c < n) (hp : getParent c = pos) (h0 : 0 < c) :
    hi (heap.getD c 0) (heap.getD (maxPosOf hi heap pos n) 0) = false := by
  have hc' : c = getLeft pos ∨ c = getRight pos := by
    unfold getParent at hp; unfold getLeft getRight; omega
  have hlr : getRight pos = getLeft pos + 1 := by unfold getLeft getRight; omega
  unfold maxPosOf
  simp only
  rcases hc' with rfl | rfl
  · split_ifs with h1 h2 h3
    · exact sw.asymm _ _ h2.2
    · exact sw.irrefl _
    · -- maxPos = right, chosen against pos; left does not outrank pos
      have hl : hi (heap.getD (getLeft pos) 0) (heap.getD pos 0) = false := by
        simpa [hc] using h1
      exact sw.negTrans _ _ _ hl (sw.asymm _ _ h3.2)
    · simpa [hc] using h1
  · have hl : getLeft pos < n := by omega
    split_ifs with h1 h2 h3
    · exact sw.irrefl _
    · simpa [hc] using h2
    · exact sw.irrefl _
    · simpa [hc] using h3

theorem length_heapifyBy (hi : Nat → Nat → Bool) (fuel : Nat) (heap : List Nat) (pos n : Nat) :
    (heapifyBy hi fuel heap pos n).length = heap.length := by
  induction fuel generalizing heap pos with
  | zero => rfl
  | succ fuel ih =>
    unfold heapifyBy
    simp only
    split_ifs
    · rw [ih, length_swapAt]
    · rfl

theorem take_heapifyBy_perm (hi : Nat → Nat → Bool) (fuel : Nat) (heap : List Nat)
    (pos n : Nat) (hpos : pos < n) (hn : n ≤ heap.length) :
    ((heapifyBy hi fuel heap pos n).take n).Perm (heap.take n) := by
  induction fuel generalizing heap pos with
  | zero => exact List.Perm.refl _
  | succ fuel ih =>
    unfold heapifyBy
    simp only
    split_ifs with h
    · have hm : maxPosOf hi heap pos n < n := by
        rcases maxPosOf_cases hi heap pos n with e | ⟨e, h'⟩ | ⟨e, h'⟩
        · exact absurd e h
        · rw [e]; exact h'
        · rw [e]; exact h'
      exact (ih _ _ hm (by rw [length_swapAt]; exact hn)).trans (take_swapAt_perm hm hpos hn)
    · exact List.Perm.refl _

/-- The heap order holds everywhere except possibly between `pos` and its children. -/
theorem heapOrdered_heapifyBy {hi : Nat → Nat → Bool} (sw : StrictWeak hi) (fuel : Nat)
    (heap : List Nat) (pos n : Nat) (hfuel : n ≤ pos + fuel) (hn : n ≤ heap.length)
    (ha : ∀ i, 0 < i → i < n → getParent i ≠ pos →
      hi (heap.getD i 0) (heap.getD (getParent i) 0) = false)
    (hb : ∀ i, 0 < i → i < n → getParent i = pos → 0 < pos →
      hi (heap.getD i 0) (heap.getD (getParent pos) 0) = false) :
    HeapOrdered hi (heapifyBy hi fuel heap pos n) n := by
  induction fuel generalizing heap pos with
  | zero =>
    intro i h0 hi'
    apply ha i h0 hi'
    unfold getParent; omega
  | succ fuel ih =>
    unfold heapifyBy
    simp only
    split_ifs with h
    · -- the root of the defect moves to `m`
      have hmhi := maxPosOf_hi sw heap pos n h
      have hmax := maxPosOf_max sw heap pos n
      have hm : maxPosOf hi heap pos n < n ∧ getParent (maxPosOf hi heap pos n) = pos ∧
          pos < maxPosOf hi heap pos n := by
        rcases maxPosOf_cases hi heap pos n with e | ⟨e, h'⟩ | ⟨e, h'⟩
        · exact absurd e h
        · rw [e]; exact ⟨h', by unfold getParent getLeft; omega, by unfold getLeft; omega⟩
        · rw [e]; exact ⟨h', by unfold getParent getRight; omega, by unfold getRight; omega⟩
      generalize maxPosOf hi heap pos n = m at h hmhi hmax hm
      obtain ⟨hmn, hmp, hpm⟩ := hm
      have hml : m < heap.length := by omega
      have hpl : pos < heap.length := by omega
      apply ih
      · omega
      · rw [length_swapAt]; exact hn
      · intro i h0 hin hpi
        rw [getD_swapAt _ hml hpl, getD_swapAt _ hml hpl]
        by_cases e1 : i = pos
        · -- slot `pos` now holds the old `m`; its parent is untouched
          subst e1
          have hp0 : getParent i ≠ i := by unfold getParent; omega
          have hpm' : getParent i ≠ m := by unfold getParent at *; omega
          simp only [if_true, hp0, hpm', if_false]
          exact hb m (by omega) hmn hmp h0
        · by_cases e2 : i = m
          · subst e2
            simp only [e1, if_false, if_true, hmp]
            exact sw.asymm _ _ hmhi
          · simp only [e1, e2, if_false, hpi]
            by_cases e3 : getParent i = pos
            · simp only [e3, if_true]
              exact hmax i hin e3 h0
            · simp only [e3, if_false]
              exact ha i h0 hin e3
      · intro i h0 hin hpi _
        rw [getD_swapAt _ hml hpl, getD_swapAt _ hml hpl]
        have e1 : i ≠ pos := by unfold getParent at *; omega
        have e2 : i ≠ m := by unfold getParent at *; omega
        simp only [e1, e2, if_false, hmp, if_true]
        have := ha i h0 hin (by rw [hpi]; exact h)
        rw [hpi] at this
        exact this
    · have hmax := maxPosOf_max sw heap pos n
      rw [not_not.1 h] at hmax
      intro i h0 hin
      by_cases e : getParent i = pos
      · rw [e]; exact hmax i hin e h0
      · exact ha i h0 hin e

theorem heapOrdered_root_max {hi : Nat → Nat → Bool} (sw : StrictWeak hi) {heap : List Nat}
    {n : Nat} (h : HeapOrdered hi heap n) :
    ∀ i, i < n → hi (heap.getD i 0) (heap.getD 0 0) = false := by
  intro i
  induction i using Nat.strong_induction_on with
  | _ i ih =>
    intro hin
    rcases Nat.eq_zero_or_pos i with rfl | h0
    · exact sw.irrefl _
    · have hp : getParent i < i := by unfold getParent; omega
      exact sw.negTrans _ _ _ (h i h0 hin) (ih _ hp (by omega))

/-! ### Sift-up -/

theorem length_siftUpBy (hi : Nat → Nat → Bool) (jobID fuel : Nat) (heap : List Nat)
    (pos : Nat) : (siftUpBy hi jobID fuel heap pos).length = heap.length := by
  induction fuel generalizing heap pos with
  | zero => rfl
  | succ fuel ih =>
    unfold siftUpBy
    simp only
    split_ifs
    · rfl
    · rw [ih]; simp
    · rfl

theorem siftUpBy_invariant {hi : Nat → Nat → Bool} (sw : StrictWeak hi) (jobID fuel : Nat)
    (heap : List Nat) (pos n : Nat) (hfuel : pos < fuel) (hpos : pos < n)
    (hn : n ≤ heap.length) (hid : heap.getD pos 0 = jobID)
    (ha : ∀ i, 0 < i → i < n → i ≠ pos →
      hi (heap.getD i 0) (heap.getD (getParent i) 0) = false)
    (hb : ∀ i, 0 < i → i < n → getParent i = pos → 0 < pos →
      hi (heap.getD i 0) (heap.getD (getParent pos) 0) = false) :
    HeapOrdered hi (siftUpBy hi jobID fuel heap pos) n ∧
      ((siftUpBy hi jobID fuel heap pos).take n).Perm (heap.take n) := by
  induction fuel generalizing heap pos with
  | zero => omega
  | succ fuel ih =>
    unfold siftUpBy
    simp only
    split_ifs with h0 h1
    · subst h0
      refine ⟨?_, List.Perm.refl _⟩
      intro i hi0 hin
      exact ha i hi0 hin (by omega)
    · have hp : getParent pos < pos := by unfold getParent; omega
      have hpl : pos < heap.length := by omega
      have hql : getParent pos < heap.length := by omega
      have hsw : (heap.set pos (heap.getD (getParent pos) 0)).set (getParent pos) jobID
          = swapAt heap pos (getParent pos) := by
        unfold swapAt; rw [hid]
      rw [hsw]
      have hgq : (swapAt heap pos (getParent pos)).getD (getParent pos) 0 = heap.getD pos 0 := by
        rw [getD_swapAt _ hpl hql, if_pos rfl]
      have hgp : (swapAt heap pos (getParent pos)).getD pos 0
          = heap.getD (getParent pos) 0 := by
        rw [getD_swapAt _ hpl hql, if_neg (by omega), if_pos rfl]
      have hgo : ∀ k, k ≠ pos → k ≠ getParent pos →
          (swapAt heap pos (getParent pos)).getD k 0 = heap.getD k 0 := by
        intro k h1 h2
        rw [getD_swapAt _ hpl hql, if_neg h2, if_neg h1]
      have := ih (swapAt heap pos (getParent pos)) (getParent pos) (by omega) (by omega)
        (by rw [length_swapAt]; exact hn) (by rw [hgq]; exact hid) ?_ ?_
      · exact ⟨this.1, this.2.trans (take_swapAt_perm hpos (by omega) hn)⟩
      · intro i hi0 hin hne
        by_cases e1 : i = pos
        · subst e1
          rw [hgp, hgq]
          exact sw.asymm _ _ h1
        · rw [hgo i e1 hne]
          by_cases e2 : getParent i = getParent pos
          · rw [e2, hgq]
            have h2 := ha i hi0 hin e1
            rw [e2] at h2
            exact sw.negTrans _ _ _ h2 (sw.asymm _ _ h1)
          · by_cases e3 : getParent i = pos
            · rw [e3, hgp]
              exact hb i hi0 hin e3 (by omega)
            · rw [hgo _ e3 e2]
              exact ha i hi0 hin e1
      · intro i hi0 hin hpi hpp
        have hgp1 : getParent (getParent pos) ≠ getParent pos := by unfold getParent at *; omega
        have hgp2 : getParent (getParent pos) ≠ pos := by unfold getParent at *; omega
        have hine : i ≠ getParent pos := by unfold getParent at *; omega
        rw [hgo _ hgp2 hgp1]
        have hpar := ha (getParent pos) hpp (by omega) (by omega)
        by_cases e1 : i = pos
        · rw [e1, hgp]
          exact hpar
        · rw [hgo i e1 hine]
          have h2 := ha i hi0 hin e1
          rw [hpi] at h2
          exact sw.negTrans _ _ _ h2 hpar
    · refine ⟨?_, List.Perm.refl _⟩
      intro i hi0 hin
      by_cases e : i = pos
      · subst e
        simpa using h1
      · exact ha i hi0 hin e

/-! ### Insertion and extraction -/

theorem insertBy_size (hi : Nat → Nat → Bool) (jobID : Nat) (heap : List Nat) (n : Nat) :
    (insertBy hi jobID heap n).2 = n + 1 := rfl

theorem insertBy_length (hi : Nat → Nat → Bool) (jobID : Nat) (heap : List Nat) (n : Nat)
    (hn : n ≤ heap.length) : n + 1 ≤ (insertBy hi jobID heap n).1.length := by
  unfold insertBy
  simp only [length_siftUpBy]
  split_ifs with h
  · simp; omega
  · simp; omega

theorem take_placed (jobID : Nat) (heap : List Nat) (n : Nat) (hn : n ≤ heap.length) :
    ((if n + 1 > heap.length then heap ++ [jobID] else heap.set n jobID).take (n + 1))
      = heap.take n ++ [jobID] := by
  split_ifs with h
  · have : heap.length = n := by omega
    subst this
    simp
  · have hl : n < heap.length := by omega
    rw [List.take_succ, List.set_take, List.set_eq_of_length_le (by simp)]
    simp [hl]

theorem insertBy_spec {hi : Nat → Nat → Bool} (sw : StrictWeak hi) (jobID : Nat)
    (heap : List Nat) (n : Nat) (hn : n ≤ heap.length) (ho : HeapOrdered hi heap n) :
    HeapOrdered hi (insertBy hi jobID heap n).1 (n + 1) ∧
      ((insertBy hi jobID heap n).1.take (n + 1)).Perm (jobID :: heap.take n) := by
  unfold insertBy
  simp only
  have hlen : n + 1 ≤ (if n + 1 > heap.length then heap ++ [jobID]
      else heap.set n jobID).length := by
    split_ifs <;> simp <;> omega
  have hget : ∀ k, k < n → (if n + 1 > heap.length then heap ++ [jobID]
      else heap.set n jobID).getD k 0 = heap.getD k 0 := by
    intro k hk
    split_ifs with h
    · simp [List.getD_eq_getElem?_getD, List.getElem?_append_left (show k < heap.length by omega)]
    · exact getD_set_of_ne _ _ (by omega)
  have hnew : (if n + 1 > heap.length then heap ++ [jobID]
      else heap.set n jobID).getD n 0 = jobID := by
    split_ifs with h
    · have : heap.length = n := by omega
      subst this
      simp [List.getD_eq_getElem?_getD]
    · exact getD_set_self _ _ (by omega)
  have := siftUpBy_invariant sw jobID (n + 1) _ n (n + 1) (by omega) (by omega) hlen hnew ?_ ?_
  · refine ⟨this.1, this.2.trans ?_⟩
    rw [take_placed _ _ _ hn]
    exact List.perm_append_singleton _ _
  · intro i hi0 hin hne
    have hi' : i < n := by omega
    have hp : getParent i < n := by unfold getParent; omega
    rw [hget i hi', hget _ hp]
    exact ho i hi0 hi'
  · intro i _ hin hpi _
    unfold getParent at hpi; omega

theorem extractBy_id (hi : Nat → Nat → Bool) (heap : List Nat) (n : Nat) :
    (extractBy hi heap n).1 = heap.getD 0 0 := by
  unfold extractBy; simp only; split_ifs <;> rfl

theorem extractBy_size (hi : Nat → Nat → Bool) (heap : List Nat) (n : Nat) (hn : 1 ≤ n) :
    (extractBy hi heap n).2.2 = n - 1 := by
  unfold extractBy; simp only; split_ifs with h
  · subst h; rfl
  · rfl

theorem extractBy_length (hi : Nat → Nat → Bool) (heap : List Nat) (n : Nat) :
    (extractBy hi heap n).2.1.length = heap.length := by
  unfold extractBy; simp only; split_ifs with h
  · rfl
  · simp [length_heapifyBy]

theorem extractBy_perm (hi : Nat → Nat → Bool) (heap : List Nat) (n : Nat) (h1 : 1 ≤ n)
    (hn : n ≤ heap.length) :
    ((extractBy hi heap n).1 :: (extractBy hi heap n).2.1.take (n - 1)).Perm (heap.take n) := by
  unfold extractBy
  simp only
  split_ifs with h
  · subst h
    cases heap with
    | nil => simp at hn
    | cons a t => simp
  · obtain ⟨m, rfl⟩ : ∃ m, n = m + 2 := ⟨n - 2, by omega⟩
    cases heap with
    | nil => simp at hn
    | cons a t =>
      have hm : m < t.length := by simp at hn; omega
      have hperm := take_heapifyBy_perm hi (m + 1) ((a :: t).set 0 ((a :: t).getD (m + 1) 0)) 0
        (m + 1) (by omega) (by simp; omega)
      simp only [Nat.add_sub_cancel, show m + 2 - 1 = m + 1 by omega]
      refine (List.Perm.cons _ hperm).trans ?_
      simp only [List.set_cons_zero, List.take_succ_cons, List.getD_cons_zero, List.getD_cons_succ]
      refine List.Perm.cons _ ?_
      have ht : t.take (m + 1) = t.take m ++ [t.getD m 0] := by
        rw [List.take_succ, List.getD_eq_getElem _ _ hm, List.getElem?_eq_getElem hm]
        rfl
      rw [ht]
      exact (List.perm_append_singleton _ _).symm

theorem extractBy_heapOrdered {hi : Nat → Nat → Bool} (sw : StrictWeak hi) (heap : List Nat)
    (n : Nat) (h1 : 1 ≤ n) (hn : n ≤ heap.length) (ho : HeapOrdered hi heap n) :
    HeapOrdered hi (extractBy hi heap n).2.1 (n - 1) := by
  unfold extractBy
  simp only
  split_ifs with h
  · subst h
    intro i hi0 hin; omega
  · apply heapOrdered_heapifyBy sw
    · omega
    · simp; omega
    · intro i hi0 hin hp
      have hp0 : 0 < getParent i := Nat.pos_of_ne_zero hp
      rw [getD_set_of_ne _ _ (by omega), getD_set_of_ne _ _ (by omega)]
      exact ho i hi0 (by omega)
    · intro i _ _ _ h00; omega

theorem extractBy_max {hi : Nat → Nat → Bool} (sw : StrictWeak hi) (heap : List Nat)
    (n : Nat) (hn : n ≤ heap.length) (ho : HeapOrdered hi heap n) :
    ∀ x ∈ heap.take n, hi x (extractBy hi heap n).1 = false := by
  intro x hx
  rw [extractBy_id]
  obtain ⟨i, hi', rfl⟩ := List.getElem_of_mem hx
  have hin : i < n := by simp at hi'; omega
  have := heapOrdered_root_max sw ho i hin
  rw [List.getElem_take]
  rwa [List.getD_eq_getElem _ _ (by omega)] at this

/-! ### The priority order -/

theorem Job.higher_iff (a b : Job) :
    a.higher b = true ↔
      b.importance < a.importance ∨ (a.importance = b.importance ∧
        (a.timestamp < b.timestamp ∨ (a.timestamp = b.timestamp ∧ a.duration < b.duration))) := by
  unfold Job.higher
  split_ifs <;> simp <;> omega

theorem Job.higher_eq_false_iff (a b : Job) :
    a.higher b = false ↔
      a.importance < b.importance ∨ (a.importance = b.importance ∧
        (b.timestamp < a.timestamp ∨ (a.timestamp = b.timestamp ∧ b.duration ≤ a.duration))) := by
  rw [← Bool.not_eq_true, Job.higher_iff]
  omega

theorem strictWeak_hasHigherPriority (jobList : List Job) :
    StrictWeak (hasHigherPriority jobList) := by
  constructor
  · intro a b h
    unfold hasHigherPriority at *
    rw [Job.higher_iff] at h
    rw [Job.higher_eq_false_iff]
    omega
  · intro a b c h1 h2
    unfold hasHigherPriority at *
    rw [Job.higher_eq_false_iff] at *
    omega

theorem strictWeak_hasShorterDuration (jobList : List Job) :
    StrictWeak (hasShorterDuration jobList) := by
  constructor
  · intro a b h
    unfold hasShorterDuration at *
    simp only [decide_eq_true_eq, decide_eq_false_iff_not] at *
    omega
  · intro a b c h1 h2
    unfold hasShorterDuration at *
    simp only [decide_eq_true_eq, decide_eq_false_iff_not] at *
    omega

/-! ### The job registry -/

theorem getJob_append_left {jobList : List Job} (job : Job) {id : Nat}
    (h : id < jobList.length) : getJob (jobList ++ [job]) id = getJob jobList id := by
  unfold getJob
  simp [List.getD_eq_getElem?_getD, List.getElem?_append_left h]

theorem getJob_append_new (jobList : List Job) (job : Job) :
    getJob (jobList ++ [job]) jobList.length = job := by
  unfold getJob
  simp [List.getD_eq_getElem?_getD]

theorem length_setQExit (jobList : List Job) (id ts : Nat) :
    (setQExit jobList id ts).length = jobList.length := by
  simp [setQExit]

theorem getJob_setQExit_self {jobList : List Job} {id : Nat} (ts : Nat)
    (h : id < jobList.length) :
    getJob (setQExit jobList id ts) id = { getJob jobList id with qExit := ts } := by
  unfold setQExit getJob
  simp [List.getD_eq_getElem?_getD, List.getElem?_set, h]

theorem getJob_setQExit_of_ne (jobList : List Job) {id k : Nat} (ts : Nat) (h : id ≠ k) :
    getJob (setQExit jobList id ts) k = getJob jobList k := by
  unfold setQExit getJob
  simp [List.getD_eq_getElem?_getD, List.getElem?_set, h]

theorem getJob_of_length_le {jobList : List Job} {id : Nat} (h : jobList.length ≤ id) :
    getJob jobList id = default := by
  unfold getJob
  simp [List.getD_eq_getElem?_getD, List.getElem?_eq_none h]

theorem setQExit_of_length_le {jobList : List Job} {id : Nat} (ts : Nat)
    (h : jobList.length ≤ id) : setQExit jobList id ts = jobList := by
  unfold setQExit
  exact List.set_eq_of_length_le h

theorem timestamp_setQExit (jobList : List Job) (id ts k : Nat) :
    (getJob (setQExit jobList id ts) k).timestamp = (getJob jobList k).timestamp := by
  by_cases h : id < jobList.length
  · by_cases e : id = k
    · subst e; rw [getJob_setQExit_self ts h]
    · rw [getJob_setQExit_of_ne _ ts e]
  · rw [setQExit_of_length_le ts (by omega)]

theorem importance_setQExit (jobList : List Job) (id ts k : Nat) :
    (getJob (setQExit jobList id ts) k).importance = (getJob jobList k).importance := by
  by_cases h : id < jobList.length
  · by_cases e : id = k
    · subst e; rw [getJob_setQExit_self ts h]
    · rw [getJob_setQExit_of_ne _ ts e]
  · rw [setQExit_of_length_le ts (by omega)]

theorem duration_setQExit (jobList : List Job) (id ts k : Nat) :
    (getJob (setQExit jobList id ts) k).duration = (getJob jobList k).duration := by
  by_cases h : id < jobList.length
  · by_cases e : id = k
    · subst e; rw [getJob_setQExit_self ts h]
    · rw [getJob_setQExit_of_ne _ ts e]
  · rw [setQExit_of_length_le ts (by omega)]

theorem originSystem_setQExit (jobList : List Job) (id ts k : Nat) :
    (getJob (setQExit jobList id ts) k).originSystem = (getJob jobList k).originSystem := by
  by_cases h : id < jobList.length
  · by_cases e : id = k
    · subst e; rw [getJob_setQExit_self ts h]
    · rw [getJob_setQExit_of_ne _ ts e]
  · rw [setQExit_of_length_le ts (by omega)]

theorem hasHigherPriority_setQExit (jobList : List Job) (id ts : Nat) :
    hasHigherPriority (setQExit jobList id ts) = hasHigherPriority jobList := by
  funext a b
  unfold hasHigherPriority Job.higher
  simp only [timestamp_setQExit, importance_setQExit, duration_setQExit]

theorem hasHigherPriority_append {jobList : List Job} (job : Job) {a b : Nat}
    (ha : a < jobList.length) (hb : b < jobList.length) :
    hasHigherPriority (jobList ++ [job]) a b = hasHigherPriority jobList a b := by
  unfold hasHigherPriority
  rw [getJob_append_left job ha, getJob_append_left job hb]

/-! ### Lists of waiting jobs -/

theorem nodup_waitingOf (jobList : List Job) (i : Nat) : (waitingOf jobList i).Nodup :=
  List.Nodup.filter _ (List.nodup_range _)

theorem nodup_waitingIds (jobList : List Job) : (waitingIds jobList).Nodup :=
  List.Nodup.filter _ (List.nodup_range _)

theorem mem_waitingOf {jobList : List Job} {i id : Nat} :
    id ∈ waitingOf jobList i ↔ id < jobList.length ∧ (getJob jobList id).importance = i ∧
      (getJob jobList id).qExit = 0 := by
  simp [waitingOf]

theorem mem_waitingIds {jobList : List Job} {id : Nat} :
    id ∈ waitingIds jobList ↔ id < jobList.length ∧ (getJob jobList id).qExit = 0 := by
  simp [waitingIds]

theorem waitingOf_append (jobList : List Job) (job : Job) (i : Nat) (hq : job.qExit = 0) :
    waitingOf (jobList ++ [job]) i =
      waitingOf jobList i ++ (if job.importance = i then [jobList.length] else []) := by
  unfold waitingOf
  rw [List.length_append, List.length_singleton, List.range_succ, List.filter_append]
  congr 1
  · apply List.filter_congr
    intro id hid
    rw [getJob_append_left job (List.mem_range.1 hid)]
  · simp [List.filter_cons, getJob_append_new, hq]

theorem waitingIds_append (jobList : List Job) (job : Job) (hq : job.qExit = 0) :
    waitingIds (jobList ++ [job]) = waitingIds jobList ++ [jobList.length] := by
  unfold waitingIds
  rw [List.length_append, List.length_singleton, List.range_succ, List.filter_append]
  congr 1
  · apply List.filter_congr
    intro id hid
    rw [getJob_append_left job (List.mem_range.1 hid)]
  · simp [List.filter_cons, getJob_append_new, hq]

theorem waitingOf_setQExit {jobList : List Job} {id ts : Nat} (i : Nat)
    (hid : id < jobList.length) (hts : ts ≠ 0) :
    waitingOf (setQExit jobList id ts) i =
      (waitingOf jobList i).filter fun k => decide (k ≠ id) := by
  unfold waitingOf
  rw [length_setQExit, List.filter_filter]
  apply List.filter_congr
  intro k _
  by_cases e : k = id
  · subst e
    simp [getJob_setQExit_self ts hid, hts]
  · rw [getJob_setQExit_of_ne _ ts (Ne.symm e)]
    simp [e]

theorem waitingIds_setQExit {jobList : List Job} {id ts : Nat}
    (hid : id < jobList.length) (hts : ts ≠ 0) :
    waitingIds (setQExit jobList id ts) =
      (waitingIds jobList).filter fun k => decide (k ≠ id) := by
  unfold waitingIds
  rw [length_setQExit, List.filter_filter]
  apply List.filter_congr
  intro k _
  by_cases e : k = id
  · subst e
    simp [getJob_setQExit_self ts hid, hts]
  · rw [getJob_setQExit_of_ne _ ts (Ne.symm e)]
    simp [e]

theorem perm_cons_filter_ne {l : List Nat} {a : Nat} (hn : l.Nodup) (ha : a ∈ l) :
    l.Perm (a :: l.filter fun k => decide (k ≠ a)) := by
  have := List.perm_cons_erase ha
  rw [hn.erase_eq_filter] at this
  have e : (l.filter fun x => x != a) = l.filter fun k => decide (k ≠ a) := by
    apply List.filter_congr
    intro x _
    by_cases h : x = a <;> simp [h]
  rwa [e] at this

theorem filter_ne_eq_self {l : List Nat} {a : Nat} (ha : a ∉ l) :
    (l.filter fun k => decide (k ≠ a)) = l := by
  rw [List.filter_eq_self]
  intro k hk
  simp only [decide_eq_true_eq]
  rintro rfl
  exact ha hk

/-! ### Free CPUs -/

theorem values_sorted {t : CPUNode} (ho : t.Ordered) (hf : t.FreqPos) :
    t.values.Pairwise (· ≤ ·) := by
  induction t with
  | nil => exact List.Pairwise.nil
  | node k sz f ht l r ihl ihr =>
    obtain ⟨o1, o2, o3, o4⟩ := (ordered_node_iff _ _ _ _ _ _).1 ho
    obtain ⟨f1, f2, f3⟩ := hf
    simp only [CPUNode.values, List.pairwise_append, List.mem_append, List.mem_replicate]
    refine ⟨ihl o1 f2, ⟨?_, ihr o2 f3, ?_⟩, ?_⟩
    · exact List.pairwise_replicate.2 (Or.inr (le_refl _))
    · rintro a ⟨-, rfl⟩ b hb
      exact o4 b ((mem_values_iff_mem_keys f3 b).1 hb)
    · rintro a ha b (⟨-, rfl⟩ | hb)
      · exact o3 a ((mem_values_iff_mem_keys f2 a).1 ha)
      · exact le_trans (o3 a ((mem_values_iff_mem_keys f2 a).1 ha))
          (o4 b ((mem_values_iff_mem_keys f3 b).1 hb))

theorem deleteCPUNode_available {t : CPUNode} {T : Nat} (h : t.Inv)
    (hav : 0 < t.sumFreqLE T) :
    (deleteCPUNode t T).sumFreq + 1 = t.sumFreq ∧
      (deleteCPUNode t T).sumFreqLE T + 1 = t.sumFreqLE T := by
  have hs := values_sorted h.ordered h.freqPos
  have hv := values_deleteCPUNode T h.freqPos
  rw [sumFreq_eq_length_values, sumFreq_eq_length_values, sumFreqLE_eq_countP,
    sumFreqLE_eq_countP, hv]
  rw [sumFreqLE_eq_countP] at hav
  cases hvals : t.values with
  | nil => rw [hvals] at hav; simp at hav
  | cons a rest =>
    rw [hvals] at hav hs
    have ha : a ≤ T := by
      obtain ⟨x, hx, hxT⟩ := List.countP_pos_iff.1 hav
      have hxT' : x ≤ T := by simpa using hxT
      rcases List.mem_cons.1 hx with rfl | hx'
      · exact hxT'
      · exact le_trans (List.rel_of_pairwise_cons hs hx') hxT'
    simp [dropFirstIfLE, ha, List.countP_cons]

theorem sumFreqLE_insertCPUNode_ge (t : CPUNode) (v T : Nat) :
    t.sumFreqLE T ≤ (insertCPUNode t v).sumFreqLE T := by
  rw [sumFreqLE_eq_countP, sumFreqLE_eq_countP, (values_insertCPUNode t v).countP_eq,
    List.countP_cons]
  omega

/-! ### One assignment -/

theorem assignOne_jobList (s : State) (ts i : Nat) :
    (assignOne s ts i).1.jobList = setQExit s.jobList (assignOne s ts i).2 ts := rfl

theorem assignOne_id (s : State) (ts i : Nat) :
    (assignOne s ts i).2 = (s.jobHeap i).getD 0 0 := by
  unfold assignOne extractNextJob
  simp only [extractBy_id]

theorem assignOne_jobHeapSize (s : State) (ts i : Nat) (h : 1 ≤ s.jobHeapSize i) (j : Nat) :
    (assignOne s ts i).1.jobHeapSize j =
      if j = i then s.jobHeapSize i - 1 else s.jobHeapSize j := by
  unfold assignOne extractNextJob
  simp only [setSlot]
  split_ifs
  · exact extractBy_size _ _ _ h
  · rfl

theorem assignOne_id_mem {M : Nat} {s : State} (ts : Nat) {i : Nat} (h : CoreInv M s)
    (hsz : 1 ≤ s.jobHeapSize i) : (assignOne s ts i).2 ∈ s.live i := by
  rw [assignOne_id]
  have hl := h.heap_len i
  unfold State.live
  rw [List.mem_iff_getElem]
  refine ⟨0, by simp; omega, ?_⟩
  rw [List.getElem_take, List.getD_eq_getElem _ _ (by omega)]

theorem assignOne_coreInv {M : Nat} {s : State} {ts i : Nat} (h : CoreInv M s)
    (hsz : 1 ≤ s.jobHeapSize i) (hts : 0 < ts) (hav : 0 < s.cpuTreeRoot.sumFreqLE ts) :
    CoreInv M (assignOne s ts i).1 ∧
      s.cpuTreeRoot.sumFreqLE ts ≤ (assignOne s ts i).1.cpuTreeRoot.sumFreqLE ts + 1 := by
  have hmem := assignOne_id_mem ts h hsz
  have hmemW := (h.heap_perm i).mem_iff.1 hmem
  obtain ⟨hidlt, himp, hq⟩ := mem_waitingOf.1 hmemW
  have hid := assignOne_id s ts i
  have hdel := deleteCPUNode_available h.cpu_inv hav
  have hlen := h.heap_len i
  generalize hidv : (assignOne s ts i).2 = id at *
  have hJL : (assignOne s ts i).1.jobList = setQExit s.jobList id ts := by
    rw [assignOne_jobList, hidv]
  refine ⟨⟨?_, ?_, ?_, ?_, ?_, ?_, ?_, ?_, ?_⟩, ?_⟩
  · rw [hJL, length_setQExit]; exact h.id_eq
  · intro k hk
    rw [hJL, length_setQExit] at hk
    rw [hJL, importance_setQExit]
    exact h.imp_range k hk
  · intro j
    show (setSlot s.jobHeapSize i _) j ≤ ((setSlot s.jobHeap i _) j).length
    unfold setSlot
    split_ifs
    · unfold extractNextJob
      rw [extractBy_length, extractBy_size _ _ _ hsz]; omega
    · exact h.heap_len j
  · intro j
    rw [hJL, hasHigherPriority_setQExit]
    show HeapOrdered _ ((setSlot s.jobHeap i _) j) ((setSlot s.jobHeapSize i _) j)
    unfold setSlot
    split_ifs
    · unfold extractNextJob
      rw [extractBy_size _ _ _ hsz]
      exact extractBy_heapOrdered (strictWeak_hasHigherPriority _) _ _ hsz hlen (h.heap_ord i)
    · exact h.heap_ord j
  · intro j
    rw [hJL, waitingOf_setQExit j hidlt (by omega)]
    show (((setSlot s.jobHeap i _) j).take ((setSlot s.jobHeapSize i _) j)).Perm _
    unfold setSlot
    split_ifs with e
    · subst e
      unfold extractNextJob
      rw [extractBy_size _ _ _ hsz]
      have hp := extractBy_perm (hasHigherPriority s.jobList) (s.jobHeap j) (s.jobHeapSize j)
        hsz hlen
      rw [extractBy_id, ← hid] at hp
      have hp2 := hp.trans ((h.heap_perm j).trans
        (perm_cons_filter_ne (nodup_waitingOf _ _) hmemW))
      exact List.Perm.cons_inv hp2
    · have hnot : id ∉ waitingOf s.jobList j := by
        intro hc
        exact e ((mem_waitingOf.1 hc).2.1.symm.trans himp)
      rw [filter_ne_eq_self hnot]
      exact h.heap_perm j
  · exact inv_insertCPUNode _ (inv_deleteCPUNode _ h.cpu_inv)
  · show (insertCPUNode (deleteCPUNode s.cpuTreeRoot ts) _).sumFreq = M
    rw [sumFreq_insertCPUNode, hdel.1, h.cpu_total]
  · exact inv_deleteCustom _ h.start_inv
  · rw [hJL, waitingIds_setQExit hidlt (by omega)]
    show (deleteCustom s.startTimeRoot (getJob (setQExit s.jobList _ ts) _).timestamp).values.Perm _
    have hidv' : (extractNextJob s.jobList (s.jobHeap i) (s.jobHeapSize i)).1 = id := by
      unfold extractNextJob; rw [extractBy_id]; exact hid.symm
    rw [hidv', timestamp_setQExit]
    have hW : id ∈ waitingIds s.jobList := mem_waitingIds.2 ⟨hidlt, hq⟩
    have hv : (getJob s.jobList id).timestamp ∈ s.startTimeRoot.values :=
      h.start_perm.mem_iff.2 (List.mem_map.2 ⟨id, hW, rfl⟩)
    have h1 := values_deleteCustom _ h.start_inv.ordered h.start_inv.freqPos hv
    have h2 := (perm_cons_filter_ne (nodup_waitingIds _) hW).map
      (fun id => (getJob s.jobList id).timestamp)
    have h3 := (h1.trans h.start_perm).trans h2
    rw [List.map_cons] at h3
    refine (List.Perm.cons_inv h3).trans ?_
    apply List.Perm.of_eq
    apply List.map_congr_left
    intro k _
    rw [timestamp_setQExit]
  · show s.cpuTreeRoot.sumFreqLE ts ≤ (insertCPUNode (deleteCPUNode s.cpuTreeRoot ts) _).sumFreqLE ts + 1
    have := sumFreqLE_insertCPUNode_ge (deleteCPUNode s.cpuTreeRoot ts)
      ((ts + (getJob s.jobList (extractNextJob s.jobList (s.jobHeap i) (s.jobHeapSize i)).1).duration) % llMod) ts
    omega

/-! ### The assignment loops: sizes and number of printed lines -/

theorem assignBatch_jobHeapSize (ts i : Nat) (n : Nat) (s : State) (out : List Nat)
    (h : n ≤ s.jobHeapSize i) (j : Nat) :
    (assignBatch ts i n s out).1.jobHeapSize j =
      if j = i then s.jobHeapSize i - n else s.jobHeapSize j := by
  induction n generalizing s out with
  | zero => simp only [assignBatch, Nat.sub_zero]; split_ifs with e <;> simp [e]
  | succ n ih =>
    unfold assignBatch
    simp only
    have h1 := assignOne_jobHeapSize s ts i (by omega)
    rw [ih _ _ (by rw [h1 i, if_pos rfl]; omega), h1 i, h1 j]
    split_ifs <;> omega

theorem assignBatch_length (ts i : Nat) (n : Nat) (s : State) (out : List Nat) :
    (assignBatch ts i n s out).2.length = out.length + n := by
  induction n generalizing s out with
  | zero => simp [assignBatch]
  | succ n ih =>
    unfold assignBatch
    simp only
    rw [ih]; simp; omega

theorem heapSizeUpTo_congr {f g : Nat → Nat} (m : Nat) (h : ∀ j, j ≤ m → f j = g j) :
    heapSizeUpTo f m = heapSizeUpTo g m := by
  induction m with
  | zero => rfl
  | succ m ih =>
    unfold heapSizeUpTo
    rw [ih (fun j hj => h j (by omega)), h (m + 1) (le_refl _)]

theorem assignLoop_succ (ts K m sel : Nat) (s : State) (out : List Nat) :
    assignLoop ts K (m + 1) sel s out =
      if sel < K then
        if min (K - sel) (s.jobHeapSize (m + 1)) = 0 then assignLoop ts K m sel s out
        else assignLoop ts K m (sel + min (K - sel) (s.jobHeapSize (m + 1)))
          (assignBatch ts (m + 1) (min (K - sel) (s.jobHeapSize (m + 1))) s out).1
          (assignBatch ts (m + 1) (min (K - sel) (s.jobHeapSize (m + 1))) s out).2
      else (s, out) := rfl

theorem assignLoop_length (ts K : Nat) (m sel : Nat) (s : State) (out : List Nat) :
    (assignLoop ts K m sel s out).2.length =
      out.length + min (K - sel) (heapSizeUpTo s.jobHeapSize m) := by
  induction m generalizing sel s out with
  | zero => simp [assignLoop, heapSizeUpTo]
  | succ m ih =>
    rw [assignLoop_succ]
    split_ifs with h1 h2
    · rw [ih]
      have : s.jobHeapSize (m + 1) = 0 := by
        rcases Nat.min_eq_zero_iff.1 h2 with h | h
        · omega
        · exact h
      simp [heapSizeUpTo, this]
    · rw [ih, assignBatch_length]
      have hsz := assignBatch_jobHeapSize ts (m + 1) (min (K - sel) (s.jobHeapSize (m + 1))) s out
        (Nat.min_le_right _ _)
      rw [heapSizeUpTo_congr (g := s.jobHeapSize) m
        (fun j hj => by rw [hsz j, if_neg (by omega)])]
      simp only [heapSizeUpTo]
      omega
    · have : K - sel = 0 := by omega
      simp [this]

theorem assignBatch_coreInv {M : Nat} {ts i : Nat} (n : Nat) {s : State} (out : List Nat)
    (h : CoreInv M s) (hsz : n ≤ s.jobHeapSize i) (hts : 0 < ts)
    (hav : n ≤ s.cpuTreeRoot.sumFreqLE ts) :
    CoreInv M (assignBatch ts i n s out).1 ∧
      s.cpuTreeRoot.sumFreqLE ts ≤ (assignBatch ts i n s out).1.cpuTreeRoot.sumFreqLE ts + n := by
  induction n generalizing s out with
  | zero => exact ⟨h, le_refl _⟩
  | succ n ih =>
    unfold assignBatch
    simp only
    obtain ⟨h1, h2⟩ := assignOne_coreInv h (show 1 ≤ s.jobHeapSize i by omega) hts
      (show 0 < s.cpuTreeRoot.sumFreqLE ts by omega)
    have hs := assignOne_jobHeapSize s ts i (by omega) i
    rw [if_pos rfl] at hs
    obtain ⟨h3, h4⟩ := ih (out ++ [(assignOne s ts i).2]) h1 (by omega) (by omega)
    exact ⟨h3, by omega⟩

theorem assignLoop_coreInv {M : Nat} {ts K : Nat} (m sel : Nat) {s : State} (out : List Nat)
    (h : CoreInv M s) (hts : 0 < ts) (hav : K - sel ≤ s.cpuTreeRoot.sumFreqLE ts) :
    CoreInv M (assignLoop ts K m sel s out).1 := by
  induction m generalizing sel s out with
  | zero => exact h
  | succ m ih =>
    rw [assignLoop_succ]
    split_ifs with h1 h2
    · exact ih sel out h hav
    · obtain ⟨h3, h4⟩ := assignBatch_coreInv (min (K - sel) (s.jobHeapSize (m + 1))) out h
        (Nat.min_le_right _ _) hts (le_trans (Nat.min_le_left _ _) hav)
      apply ih _ _ h3
      have := Nat.min_le_left (K - sel) (s.jobHeapSize (m + 1))
      omega
    · exact h

/-! ### Staging leaves the rest of the state alone -/

theorem StagingOnly.refl (s : State) : StagingOnly s s :=
  ⟨rfl, rfl, rfl, rfl, rfl, rfl, rfl, rfl⟩

theorem StagingOnly.chain {a b c : State} (h1 : StagingOnly a b) (h2 : StagingOnly b c) :
    StagingOnly a c :=
  ⟨h2.jobList.trans h1.jobList, h2.MaxMins.trans h1.MaxMins, h2.jobHeap.trans h1.jobHeap,
    h2.jobHeapSize.trans h1.jobHeapSize, h2.cpuTreeRoot.trans h1.cpuTreeRoot,
    h2.startTimeRoot.trans h1.startTimeRoot, h2.ID.trans h1.ID,
    h2.prevTimestamp.trans h1.prevTimestamp⟩

theorem stagingOnly_popDurationHeap (s : State) (i : Nat) :
    StagingOnly s (popDurationHeap s i) :=
  ⟨rfl, rfl, rfl, rfl, rfl, rfl, rfl, rfl⟩

theorem stagingOnly_drainDurationHeap (i fuel : Nat) (s : State) :
    StagingOnly s (drainDurationHeap i fuel s) := by
  induction fuel generalizing s with
  | zero => exact StagingOnly.refl s
  | succ fuel ih =>
    unfold drainDurationHeap
    split_ifs
    · exact StagingOnly.refl s
    · exact (stagingOnly_popDurationHeap s i).chain (ih _)

theorem stagingOnly_emptyOutDurationHeap (s : State) (i : Nat) :
    StagingOnly s (emptyOutDurationHeap s i) := by
  unfold emptyOutDurationHeap
  split_ifs
  · exact StagingOnly.refl s
  · exact stagingOnly_drainDurationHeap _ _ _

theorem stagingOnly_foldl (l : List Nat) (s : State) :
    StagingOnly s (l.foldl emptyOutDurationHeap s) := by
  induction l generalizing s with
  | nil => exact StagingOnly.refl s
  | cons a l ih => exact (stagingOnly_emptyOutDurationHeap s a).chain (ih _)

theorem stagingOnly_emptyOutAllDurationHeaps (s : State) :
    StagingOnly s (emptyOutAllDurationHeaps s) :=
  stagingOnly_foldl _ s

theorem stagingOnly_queryFlush (s : State) (ts : Nat) : StagingOnly s (queryFlush s ts) := by
  unfold queryFlush
  split_ifs
  · exact stagingOnly_emptyOutAllDurationHeaps s
  · exact StagingOnly.refl s

theorem stagingOnly_stageJob (s : State) (id ts i : Nat) :
    StagingOnly s (stageJob s id ts i) := by
  unfold stageJob
  simp only
  split_ifs
  · exact ⟨rfl, rfl, rfl, rfl, rfl, rfl, rfl, rfl⟩
  · exact ⟨rfl, rfl, rfl, rfl, rfl, rfl, rfl, rfl⟩
  · have := stagingOnly_emptyOutDurationHeap
      { s with prevTimestamps := setSlot s.prevTimestamps i ts } i
    exact ⟨this.jobList, this.MaxMins, this.jobHeap, this.jobHeapSize, this.cpuTreeRoot,
      this.startTimeRoot, this.ID, this.prevTimestamp⟩

theorem StagingOnly.live_eq {s s' : State} (h : StagingOnly s s') (i : Nat) :
    s'.live i = s.live i := by
  unfold State.live; rw [h.jobHeap, h.jobHeapSize]

theorem StagingOnly.coreInv {M : Nat} {s s' : State} (h : StagingOnly s s')
    (hc : CoreInv M s) : CoreInv M s' := by
  constructor
  · rw [h.ID, h.jobList]; exact hc.id_eq
  · rw [h.jobList]; exact hc.imp_range
  · rw [h.jobHeap, h.jobHeapSize]; exact hc.heap_len
  · rw [h.jobHeap, h.jobHeapSize, h.jobList]; exact hc.heap_ord
  · intro i; rw [h.live_eq, h.jobList]; exact hc.heap_perm i
  · rw [h.cpuTreeRoot]; exact hc.cpu_inv
  · rw [h.cpuTreeRoot]; exact hc.cpu_total
  · rw [h.startTimeRoot]; exact hc.start_inv
  · rw [h.startTimeRoot, h.jobList]; exact hc.start_perm

/-! ### The `job` branch -/

theorem stagingOnly_jobFlush (s : State) (ts : Nat) : StagingOnly s (jobFlush s ts) := by
  unfold jobFlush
  split_ifs
  · exact stagingOnly_emptyOutAllDurationHeaps s
  · exact StagingOnly.refl s

theorem doJob_jobList (s : State) (ts pid : Nat) (o ins : String) (imp dur : Nat) :
    (doJob s ts pid o ins imp dur).jobList =
      s.jobList ++ [Job.create s.ID pid ts o ins imp dur] := by
  unfold doJob jobAdmitted
  simp only [(stagingOnly_stageJob _ _ _ _).jobList, (stagingOnly_jobFlush s ts).jobList,
    (stagingOnly_jobFlush s ts).ID]

theorem doJob_ID (s : State) (ts pid : Nat) (o ins : String) (imp dur : Nat) :
    (doJob s ts pid o ins imp dur).ID = s.ID + 1 := by
  unfold doJob jobAdmitted
  simp only [(stagingOnly_stageJob _ _ _ _).ID, (stagingOnly_jobFlush s ts).ID]

theorem doJob_prevTimestamp (s : State) (ts pid : Nat) (o ins : String) (imp dur : Nat) :
    (doJob s ts pid o ins imp dur).prevTimestamp = ts := by
  unfold doJob jobAdmitted
  simp only [(stagingOnly_stageJob _ _ _ _).prevTimestamp]

theorem doJob_cpuTreeRoot (s : State) (ts pid : Nat) (o ins : String) (imp dur : Nat) :
    (doJob s ts pid o ins imp dur).cpuTreeRoot = s.cpuTreeRoot := by
  unfold doJob jobAdmitted
  simp only [(stagingOnly_stageJob _ _ _ _).cpuTreeRoot, (stagingOnly_jobFlush s ts).cpuTreeRoot]

theorem doJob_startTimeRoot (s : State) (ts pid : Nat) (o ins : String) (imp dur : Nat) :
    (doJob s ts pid o ins imp dur).startTimeRoot = insertCPUNode s.startTimeRoot ts := by
  unfold doJob jobAdmitted
  simp only [(stagingOnly_stageJob _ _ _ _).startTimeRoot,
    (stagingOnly_jobFlush s ts).startTimeRoot]

theorem doJob_jobHeap (s : State) (ts pid : Nat) (o ins : String) (imp dur : Nat) :
    (doJob s ts pid o ins imp dur).jobHeap = setSlot s.jobHeap imp
      (insertJobIntoHeap (s.jobList ++ [Job.create s.ID pid ts o ins imp dur]) s.ID
        (s.jobHeap imp) (s.jobHeapSize imp)).1 := by
  unfold doJob jobAdmitted
  simp only [(stagingOnly_stageJob _ _ _ _).jobHeap, (stagingOnly_jobFlush s ts).jobHeap,
    (stagingOnly_jobFlush s ts).jobList, (stagingOnly_jobFlush s ts).ID,
    (stagingOnly_jobFlush s ts).jobHeapSize]

theorem doJob_jobHeapSize (s : State) (ts pid : Nat) (o ins : String) (imp dur : Nat) :
    (doJob s ts pid o ins imp dur).jobHeapSize = setSlot s.jobHeapSize imp
      (s.jobHeapSize imp + 1) := by
  unfold doJob jobAdmitted
  simp only [(stagingOnly_stageJob _ _ _ _).jobHeapSize, (stagingOnly_jobFlush s ts).jobHeap,
    (stagingOnly_jobFlush s ts).jobList, (stagingOnly_jobFlush s ts).ID,
    (stagingOnly_jobFlush s ts).jobHeapSize]
  rfl

theorem doJob_MaxMins (s : State) (ts pid : Nat) (o ins : String) (imp dur : Nat) :
    (doJob s ts pid o ins imp dur).MaxMins =
      logJob s.MaxMins (insertCPUNode s.startTimeRoot ts) ts := by
  unfold doJob jobAdmitted
  simp only [(stagingOnly_stageJob _ _ _ _).startTimeRoot,
    (stagingOnly_jobFlush s ts).startTimeRoot, (stagingOnly_stageJob _ _ _ _).MaxMins,
    (stagingOnly_jobFlush s ts).MaxMins]

theorem heapOrdered_append {jobList : List Job} (job : Job) {heap : List Nat} {n : Nat}
    (hn : n ≤ heap.length) (hlt : ∀ x ∈ heap.take n, x < jobList.length)
    (h : HeapOrdered (hasHigherPriority jobList) heap n) :
    HeapOrdered (hasHigherPriority (jobList ++ [job])) heap n := by
  have hget : ∀ i, i < n → heap.getD i 0 < jobList.length := by
    intro i hi
    apply hlt
    rw [List.mem_iff_getElem]
    refine ⟨i, by simp; omega, ?_⟩
    rw [List.getElem_take, List.getD_eq_getElem _ _ (by omega)]
  intro i h0 hin
  have hp : getParent i < n := by unfold getParent; omega
  rw [hasHigherPriority_append job (hget i hin) (hget _ hp)]
  exact h i h0 hin

theorem doJob_coreInv {M : Nat} {s : State} (ts pid : Nat) (o ins : String) {imp : Nat}
    (dur : Nat) (h : CoreInv M s) (h1 : 1 ≤ imp) (h100 : imp ≤ 100) :
    CoreInv M (doJob s ts pid o ins imp dur) := by
  have hlt : ∀ j, ∀ x ∈ (s.jobHeap j).take (s.jobHeapSize j), x < s.jobList.length := by
    intro j x hx
    exact (mem_waitingOf.1 ((h.heap_perm j).mem_iff.1 hx)).1
  constructor
  · rw [doJob_ID, doJob_jobList, h.id_eq]; simp
  · intro k hk
    rw [doJob_jobList] at hk ⊢
    simp only [List.length_append, List.length_singleton] at hk
    by_cases e : k < s.jobList.length
    · rw [getJob_append_left _ e]; exact h.imp_range k e
    · have : k = s.jobList.length := by omega
      subst this
      rw [getJob_append_new]
      exact ⟨h1, h100⟩
  · intro j
    rw [doJob_jobHeap, doJob_jobHeapSize]
    unfold setSlot
    split_ifs
    · exact insertBy_length _ _ _ _ (h.heap_len imp)
    · exact h.heap_len j
  · intro j
    rw [doJob_jobHeap, doJob_jobHeapSize, doJob_jobList]
    unfold setSlot
    split_ifs
    · exact (insertBy_spec (strictWeak_hasHigherPriority _) _ _ _ (h.heap_len imp)
        (heapOrdered_append _ (h.heap_len imp) (hlt imp) (h.heap_ord imp))).1
    · exact heapOrdered_append _ (h.heap_len j) (hlt j) (h.heap_ord j)
  · intro j
    unfold State.live
    rw [doJob_jobHeap, doJob_jobHeapSize, doJob_jobList, waitingOf_append _ _ _ rfl]
    unfold setSlot
    split_ifs with e1 e2 e2
    · subst e1
      have := (insertBy_spec (strictWeak_hasHigherPriority
        (s.jobList ++ [Job.create s.ID pid ts o ins j dur])) s.ID _ _ (h.heap_len j)
        (heapOrdered_append _ (h.heap_len j) (hlt j) (h.heap_ord j))).2
      refine this.trans ?_
      rw [h.id_eq]
      exact ((h.heap_perm j).cons _).trans (List.perm_append_singleton _ _).symm
    · exact absurd (e1 ▸ rfl : (Job.create s.ID pid ts o ins imp dur).importance = j) e2
    · exact absurd (e2.symm : j = imp) e1
    · rw [List.append_nil]; exact h.heap_perm j
  · rw [doJob_cpuTreeRoot]; exact h.cpu_inv
  · rw [doJob_cpuTreeRoot]; exact h.cpu_total
  · rw [doJob_startTimeRoot]; exact inv_insertCPUNode _ h.start_inv
  · rw [doJob_startTimeRoot, doJob_jobList, waitingIds_append _ _ rfl, List.map_append]
    refine (values_insertCPUNode _ _).trans ?_
    refine ((h.start_perm.cons ts).trans (List.perm_append_singleton _ _).symm).trans ?_
    apply List.Perm.of_eq
    congr 1
    · apply List.map_congr_left
      intro k hk
      rw [getJob_append_left _ (mem_waitingIds.1 hk).1]
    · simp [getJob_append_new, Job.create]

/-! ### The `assign` branch and whole runs -/

theorem coreInv_congr {M : Nat} {s s' : State} (hc : CoreInv M s)
    (h1 : s'.jobList = s.jobList) (h2 : s'.jobHeap = s.jobHeap)
    (h3 : s'.jobHeapSize = s.jobHeapSize) (h4 : s'.cpuTreeRoot = s.cpuTreeRoot)
    (h5 : s'.startTimeRoot = s.startTimeRoot) (h6 : s'.ID = s.ID) : CoreInv M s' := by
  constructor
  · rw [h6, h1]; exact hc.id_eq
  · rw [h1]; exact hc.imp_range
  · rw [h2, h3]; exact hc.heap_len
  · rw [h2, h3, h1]; exact hc.heap_ord
  · intro i; unfold State.live; rw [h2, h3, h1]; exact hc.heap_perm i
  · rw [h4]; exact hc.cpu_inv
  · rw [h4]; exact hc.cpu_total
  · rw [h5]; exact hc.start_inv
  · rw [h5, h1]; exact hc.start_perm

/-- The state in which the assignment loop starts. -/
theorem assignJobs_eq (s : State) (ts K : Nat) :
    assignJobs s ts K =
      assignLoop ts
        (min (getValuesLessThanEqualTo
          (if s.totalSize > 0 then emptyOutAllDurationHeaps s else s).cpuTreeRoot ts) K)
        100 0
        { (if s.totalSize > 0 then emptyOutAllDurationHeaps s else s) with
          prevTimestamp := ts } [] := rfl

theorem stagingOnly_assignFlush (s : State) :
    StagingOnly s (if s.totalSize > 0 then emptyOutAllDurationHeaps s else s) := by
  split_ifs
  · exact stagingOnly_emptyOutAllDurationHeaps s
  · exact StagingOnly.refl s

theorem assignJobs_coreInv {M : Nat} {s : State} {ts : Nat} (K : Nat) (h : CoreInv M s)
    (hts : 0 < ts) : CoreInv M (assignJobs s ts K).1 := by
  rw [assignJobs_eq]
  have hf := stagingOnly_assignFlush s
  have h0 := hf.coreInv h
  have h1 : CoreInv M { (if s.totalSize > 0 then emptyOutAllDurationHeaps s else s) with
      prevTimestamp := ts } := coreInv_congr h0 rfl rfl rfl rfl rfl rfl
  apply assignLoop_coreInv 100 0 [] h1 hts
  show _ ≤ CPUNode.sumFreqLE (if s.totalSize > 0 then emptyOutAllDurationHeaps s else s).cpuTreeRoot ts
  rw [getValuesLessThanEqualTo_eq ts h0.cpu_inv.ordered h0.cpu_inv.sizeOK]
  have := Nat.min_le_left (CPUNode.sumFreqLE
    (if s.totalSize > 0 then emptyOutAllDurationHeaps s else s).cpuTreeRoot ts) K
  omega

theorem step_coreInv {M : Nat} {s : State} {c : Cmd} {r : State × List Nat}
    (h : CoreInv M s) (hc : c.sane) (hr : step s c = .ok r) : CoreInv M r.1 := by
  cases c with
  | job ts pid o ins imp dur =>
    simp only [step, Outcome.ok.injEq] at hr
    subst hr
    exact doJob_coreInv ts pid o ins dur h hc.1 hc.2
  | assign ts K =>
    simp only [step, doAssign] at hr
    cases hl : logAssign (assignJobs s ts K).1.MaxMins (assignJobs s ts K).1.startTimeRoot ts with
    | ok log =>
      rw [hl] at hr
      simp only [Outcome.bind, Outcome.ok.injEq] at hr
      subst hr
      exact coreInv_congr (assignJobs_coreInv K h hc) rfl rfl rfl rfl rfl rfl
    | oob => rw [hl] at hr; simp [Outcome.bind] at hr
    | fuel => rw [hl] at hr; simp [Outcome.bind] at hr
  | queryTopK ts K =>
    simp only [step] at hr
    cases hl : printHistory_TOPK (queryFlush s ts) ts K with
    | ok out =>
      rw [hl] at hr
      simp only [Outcome.bind, Outcome.ok.injEq] at hr
      subst hr
      exact (stagingOnly_queryFlush s ts).coreInv h
    | oob => rw [hl] at hr; simp [Outcome.bind] at hr
    | fuel => rw [hl] at hr; simp [Outcome.bind] at hr
  | queryOrigin ts origin =>
    simp only [step] at hr
    cases hl : printHistory_Origin (queryFlush s ts) ts origin with
    | ok out =>
      rw [hl] at hr
      simp only [Outcome.bind, Outcome.ok.injEq] at hr
      subst hr
      exact (stagingOnly_queryFlush s ts).coreInv h
    | oob => rw [hl] at hr; simp [Outcome.bind] at hr
    | fuel => rw [hl] at hr; simp [Outcome.bind] at hr

theorem sane_of_wellFormedFrom {prev : Nat} {c : Cmd} {cs : List Cmd}
    (h : wellFormedFrom prev (c :: cs) = true) :
    c.sane ∧ ∃ prev', wellFormedFrom prev' cs = true := by
  cases c with
  | job ts pid o ins imp dur =>
    simp only [wellFormedFrom, Bool.and_eq_true, decide_eq_true_eq] at h
    exact ⟨⟨h.1.1.2, h.1.2⟩, ts, h.2⟩
  | assign ts K =>
    simp only [wellFormedFrom, Bool.and_eq_true, decide_eq_true_eq] at h
    exact ⟨h.1.2, ts, h.2⟩
  | queryTopK ts K => exact ⟨trivial, prev, h⟩
  | queryOrigin ts origin => exact ⟨trivial, prev, h⟩

theorem runFrom_coreInv {M : Nat} {cmds : List Cmd} {prev : Nat} {s : State}
    {out : List Nat} {r : State × List Nat} (h : CoreInv M s)
    (hw : wellFormedFrom prev cmds = true) (hr : runFrom s out cmds = .ok r) :
    CoreInv M r.1 := by
  induction cmds generalizing prev s out with
  | nil =>
    simp only [runFrom, Outcome.ok.injEq] at hr
    subst hr; exact h
  | cons c cs ih =>
    obtain ⟨hs, prev', hw'⟩ := sane_of_wellFormedFrom hw
    simp only [runFrom] at hr
    cases hst : step s c with
    | ok r1 =>
      rw [hst] at hr
      exact ih (step_coreInv h hs hst) hw' hr
    | oob => rw [hst] at hr; simp [Outcome.bind] at hr
    | fuel => rw [hst] at hr; simp [Outcome.bind] at hr

theorem coreInv_initState (M p0 : Nat) : CoreInv M (initState M p0) := by
  constructor
  · rfl
  · intro id hid; simp [initState] at hid
  · intro i; simp [initState]
  · intro i j h0 hj; simp [initState] at hj
  · intro i; simp [State.live, initState, waitingOf]
  · exact inv_createBST M
  · show (createBST M).sumFreq = M
    unfold createBST
    split_ifs with h
    · simp [CPUNode.sumFreq]; omega
    · simp [CPUNode.sumFreq]
  · exact ⟨List.Pairwise.nil, trivial, trivial⟩
  · simp [initState, waitingIds, CPUNode.values]

theorem run_coreInv {M p0 : Nat} {cmds : List Cmd} {r : State × List Nat}
    (hw : WellFormed cmds) (hr : run M p0 cmds = .ok r) : CoreInv M r.1 :=
  runFrom_coreInv (coreInv_initState M p0) hw hr

theorem doAssign_ok {s : State} {ts K : Nat} {r : State × List Nat}
    (hr : doAssign s ts K = .ok r) :
    ∃ log, logAssign (assignJobs s ts K).1.MaxMins (assignJobs s ts K).1.startTimeRoot ts
        = .ok log ∧
      r = ({ (assignJobs s ts K).1 with MaxMins := log }, (assignJobs s ts K).2) := by
  simp only [doAssign] at hr
  cases hl : logAssign (assignJobs s ts K).1.MaxMins (assignJobs s ts K).1.startTimeRoot ts with
  | ok log =>
    rw [hl] at hr
    simp only [Outcome.bind, Outcome.ok.injEq] at hr
    exact ⟨log, rfl, hr.symm⟩
  | oob => rw [hl] at hr; simp [Outcome.bind] at hr
  | fuel => rw [hl] at hr; simp [Outcome.bind] at hr

/-! ## Claims -/

/-- C6: an `assign ts K` prints exactly `min(K, free CPUs, waiting jobs)` job lines, where
the number of free CPUs is `getValuesLessThanEqualTo(cpuTreeRoot, ts)` and the number of
waiting jobs is the total size of the 100 priority heaps, both taken just before the
command; the lines of the command are those of its assignment loop. -/
theorem assign_emits_min_of_K_free_waiting (s : State) (ts K : Nat) :
    (assignJobs s ts K).2.length =
        min K (min (getValuesLessThanEqualTo s.cpuTreeRoot ts) (totalHeapSize s)) ∧
      ∀ r, doAssign s ts K = .ok r → r.2 = (assignJobs s ts K).2 := by
  constructor
  · rw [assignJobs_eq, assignLoop_length]
    have hf := stagingOnly_assignFlush s
    show [].length + min _ (heapSizeUpTo
      (if s.totalSize > 0 then emptyOutAllDurationHeaps s else s).jobHeapSize 100) = _
    rw [hf.cpuTreeRoot, hf.jobHeapSize]
    simp only [List.length_nil, totalHeapSize]
    omega
  · intro r hr
    obtain ⟨log, -, rfl⟩ := doAssign_ok hr
    rfl

/-- C7: after `cpus M` and any well-formed sequence of commands the sum of the
frequencies of the CPU tree and the root's `subtreeSize` field both equal `M`; and a
`deleteCPUNode` call at a time `T` at which a CPU is free removes one CPU, which the
following `insertCPUNode` adds back. -/
theorem cpu_pool_size_invariant (M p0 : Nat) (cmds : List Cmd) (r : State × List Nat)
    (hw : WellFormed cmds) (hr : run M p0 cmds = .ok r) :
    r.1.cpuTreeRoot.sumFreq = M ∧ getSubtreeSize r.1.cpuTreeRoot = M ∧
      ∀ T v, 0 < getValuesLessThanEqualTo r.1.cpuTreeRoot T →
        (deleteCPUNode r.1.cpuTreeRoot T).sumFreq + 1 = M ∧
          (insertCPUNode (deleteCPUNode r.1.cpuTreeRoot T) v).sumFreq = M := by
  have h := run_coreInv hw hr
  refine ⟨h.cpu_total, ?_, ?_⟩
  · rw [getSubtreeSize_eq_sumFreq h.cpu_inv.sizeOK, h.cpu_total]
  · intro T v hT
    rw [getValuesLessThanEqualTo_eq T h.cpu_inv.ordered h.cpu_inv.sizeOK] at hT
    have hd := (deleteCPUNode_available h.cpu_inv hT).1
    rw [h.cpu_total] at hd
    exact ⟨hd, by rw [sumFreq_insertCPUNode, hd]⟩

set_option maxRecDepth 100000 in
/-- Witness of C7: scenario S1 on two CPUs. -/
theorem cpu_pool_size_invariant_witness :
    (resultOf (run 2 0 scenarioS1)).1.cpuTreeRoot.sumFreq = 2 ∧
      getSubtreeSize (resultOf (run 2 0 scenarioS1)).1.cpuTreeRoot = 2 :=
  have h := cpu_pool_size_invariant 2 0 scenarioS1 (resultOf (run 2 0 scenarioS1))
    (by rfl) (by rfl)
  ⟨h.1, h.2.1⟩

/-- C8: on every tree obtained from `createBST(M)` by calls of `insertCPUNode` and
`deleteCPUNode`, `getValuesLessThanEqualTo(root, T)` is the sum of `freq` over the nodes
whose `freeAfter` is at most `T`. -/
theorem getValuesLessThanEqualTo_counts_free (M : Nat) (ops : List CpuOp) (T : Nat) :
    getValuesLessThanEqualTo (applyCpuOps (createBST M) ops) T =
      (applyCpuOps (createBST M) ops).sumFreqLE T := by
  have h := inv_applyCpuOps ops (inv_createBST M)
  exact getValuesLessThanEqualTo_eq T h.ordered h.sizeOK

/-- C9: after every command of a well-formed sequence the multiset of the values held in
`startTimeRoot` is the multiset of the timestamps of the jobs with `qExit == 0`; on that
tree `insertCPUNode` adds one occurrence of its value and `deleteCustom` removes one
occurrence of a value that is present. -/
theorem start_tree_tracks_waiting (M p0 : Nat) (cmds : List Cmd) (r : State × List Nat)
    (hw : WellFormed cmds) (hr : run M p0 cmds = .ok r) :
    (r.1.startTimeRoot.values : Multiset Nat) =
        ((waitingIds r.1.jobList).map fun id => (getJob r.1.jobList id).timestamp) ∧
      (∀ v, ((insertCPUNode r.1.startTimeRoot v).values : Multiset Nat) =
        v ::ₘ (r.1.startTimeRoot.values : Multiset Nat)) ∧
      ∀ v, v ∈ r.1.startTimeRoot.values →
        v ::ₘ ((deleteCustom r.1.startTimeRoot v).values : Multiset Nat) =
          (r.1.startTimeRoot.values : Multiset Nat) := by
  have h := run_coreInv hw hr
  refine ⟨Multiset.coe_eq_coe.2 h.start_perm, ?_, ?_⟩
  · intro v
    rw [Multiset.cons_coe]
    exact Multiset.coe_eq_coe.2 (values_insertCPUNode _ v)
  · intro v hv
    rw [Multiset.cons_coe]
    exact Multiset.coe_eq_coe.2
      (values_deleteCustom v h.start_inv.ordered h.start_inv.freqPos hv)

set_option maxRecDepth 100000 in
/-- Witness of C9: scenario S3, after which one job is still waiting. -/
theorem start_tree_tracks_waiting_witness :
    ((resultOf (run 2 0 scenarioS3)).1.startTimeRoot.values : Multiset Nat) =
      ((waitingIds (resultOf (run 2 0 scenarioS3)).1.jobList).map fun id =>
        (getJob (resultOf (run 2 0 scenarioS3)).1.jobList id).timestamp) :=
  (start_tree_tracks_waiting 2 0 scenarioS3 (resultOf (run 2 0 scenarioS3))
    (by rfl) (by rfl)).1

/-- C10: after every command of a well-formed sequence the live prefix of each priority
heap holds no ID twice and holds exactly the IDs of the jobs of that importance with
`qExit == 0`; as every importance lies in `[1, 100]`, the 100 heaps together hold exactly
the unassigned jobs, each once and in the heap of its importance. -/
theorem heaps_hold_unassigned (M p0 : Nat) (cmds : List Cmd) (r : State × List Nat)
    (hw : WellFormed cmds) (hr : run M p0 cmds = .ok r) :
    (∀ i, (r.1.live i).Nodup) ∧
      (∀ i id, id ∈ r.1.live i ↔
        id < r.1.jobList.length ∧ (getJob r.1.jobList id).importance = i ∧
          (getJob r.1.jobList id).qExit = 0) ∧
      ∀ id, id < r.1.jobList.length →
        1 ≤ (getJob r.1.jobList id).importance ∧ (getJob r.1.jobList id).importance ≤ 100 := by
  have h := run_coreInv hw hr
  refine ⟨?_, ?_, h.imp_range⟩
  · intro i
    exact (h.heap_perm i).nodup_iff.2 (nodup_waitingOf _ _)
  · intro i id
    rw [(h.heap_perm i).mem_iff, mem_waitingOf]

set_option maxRecDepth 100000 in
/-- Witness of C10: scenario S3; job 0 is the one left in the heap of importance 10. -/
theorem heaps_hold_unassigned_witness :
    (resultOf (run 2 0 scenarioS3)).1.live 10 = [0] ∧
      (0 ∈ (resultOf (run 2 0 scenarioS3)).1.live 10 ↔
        0 < (resultOf (run 2 0 scenarioS3)).1.jobList.length ∧
          (getJob (resultOf (run 2 0 scenarioS3)).1.jobList 0).importance = 10 ∧
          (getJob (resultOf (run 2 0 scenarioS3)).1.jobList 0).qExit = 0) :=
  ⟨by rfl, (heaps_hold_unassigned 2 0 scenarioS3 (resultOf (run 2 0 scenarioS3))
    (by rfl) (by rfl)).2.1 10 0⟩

/-! ### The order of the assigned jobs -/

theorem mem_waitingIds_iff_exists {jobList : List Job} {w : Nat} :
    w ∈ waitingIds jobList ↔ w ∈ waitingOf jobList (getJob jobList w).importance := by
  rw [mem_waitingIds, mem_waitingOf]
  tauto

theorem assignOne_order {M : Nat} {s : State} {ts i : Nat} {hi : Nat → Nat → Bool}
    {out : List Nat} (h : CoreInv M s) (hsz : 1 ≤ s.jobHeapSize i) (hts : 0 < ts)
    (hhi : hasHigherPriority s.jobList = hi) (ho : OutOrdered hi s.jobList out)
    (he : ∀ j, i < j → waitingOf s.jobList j = []) :
    hasHigherPriority (assignOne s ts i).1.jobList = hi ∧
      OutOrdered hi (assignOne s ts i).1.jobList (out ++ [(assignOne s ts i).2]) ∧
      ∀ j, i < j → waitingOf (assignOne s ts i).1.jobList j = [] := by
  have hmem := assignOne_id_mem ts h hsz
  have hmemW := (h.heap_perm i).mem_iff.1 hmem
  obtain ⟨hidlt, himp, hq⟩ := mem_waitingOf.1 hmemW
  have hmax := extractBy_max (strictWeak_hasHigherPriority s.jobList) (s.jobHeap i)
    (s.jobHeapSize i) (h.heap_len i) (h.heap_ord i)
  have hid : (extractBy (hasHigherPriority s.jobList) (s.jobHeap i) (s.jobHeapSize i)).1
      = (assignOne s ts i).2 := rfl
  rw [hid, hhi] at hmax
  generalize hidv : (assignOne s ts i).2 = id at *
  have hJL : (assignOne s ts i).1.jobList = setQExit s.jobList id ts := by
    rw [assignOne_jobList, hidv]
  have hsub : ∀ w, w ∈ waitingIds (setQExit s.jobList id ts) → w ∈ waitingIds s.jobList := by
    intro w hw
    rw [waitingIds_setQExit hidlt (by omega)] at hw
    exact (List.mem_filter.1 hw).1
  have hidW : id ∈ waitingIds s.jobList := mem_waitingIds.2 ⟨hidlt, hq⟩
  refine ⟨?_, ⟨?_, ?_⟩, ?_⟩
  · rw [hJL, hasHigherPriority_setQExit, hhi]
  · rw [List.pairwise_append]
    refine ⟨ho.sorted, List.pairwise_singleton _ _, ?_⟩
    intro a ha b hb
    rw [List.mem_singleton.1 hb]
    exact ho.bound id hidW a ha
  · intro w hw e he'
    rw [hJL] at hw
    have hw' := hsub w hw
    rcases List.mem_append.1 he' with h1 | h1
    · exact ho.bound w hw' e h1
    · rw [List.mem_singleton.1 h1]
      have hwW := mem_waitingIds_iff_exists.1 hw'
      rcases Nat.lt_trichotomy (getJob s.jobList w).importance i with hlt | heq | hgt
      · rw [← hhi]
        unfold hasHigherPriority
        rw [Job.higher_eq_false_iff]
        left; omega
      · rw [heq] at hwW
        exact hmax w ((h.heap_perm i).mem_iff.2 hwW)
      · rw [he _ hgt] at hwW
        simp at hwW
  · intro j hj
    rw [hJL, waitingOf_setQExit j hidlt (by omega), he j hj]
    rfl

theorem assignBatch_order {M : Nat} {ts i : Nat} {hi : Nat → Nat → Bool} (n : Nat)
    {s : State} (out : List Nat) (h : CoreInv M s) (hsz : n ≤ s.jobHeapSize i) (hts : 0 < ts)
    (hav : n ≤ s.cpuTreeRoot.sumFreqLE ts)
    (hhi : hasHigherPriority s.jobList = hi) (ho : OutOrdered hi s.jobList out)
    (he : ∀ j, i < j → waitingOf s.jobList j = []) :
    hasHigherPriority (assignBatch ts i n s out).1.jobList = hi ∧
      OutOrdered hi (assignBatch ts i n s out).1.jobList (assignBatch ts i n s out).2 ∧
      ∀ j, i < j → waitingOf (assignBatch ts i n s out).1.jobList j = [] := by
  induction n generalizing s out with
  | zero => exact ⟨hhi, ho, he⟩
  | succ n ih =>
    unfold assignBatch
    simp only
    obtain ⟨h1, h2⟩ := assignOne_coreInv h (show 1 ≤ s.jobHeapSize i by omega) hts
      (show 0 < s.cpuTreeRoot.sumFreqLE ts by omega)
    obtain ⟨h3, h4, h5⟩ := assignOne_order h (show 1 ≤ s.jobHeapSize i by omega) hts hhi ho he
    have hs := assignOne_jobHeapSize s ts i (by omega) i
    rw [if_pos rfl] at hs
    exact ih _ h1 (by omega) (by omega) h3 h4 h5

theorem waitingOf_eq_nil_of_size_zero {M : Nat} {s : State} (h : CoreInv M s) {i : Nat}
    (hz : s.jobHeapSize i = 0) : waitingOf s.jobList i = [] := by
  have := h.heap_perm i
  unfold State.live at this
  rw [hz, List.take_zero] at this
  exact List.Perm.eq_nil this.symm

theorem assignLoop_order {M : Nat} {ts K : Nat} {hi : Nat → Nat → Bool} (m sel : Nat)
    {s : State} {out : List Nat} (h : CoreInv M s) (hts : 0 < ts)
    (hav : K - sel ≤ s.cpuTreeRoot.sumFreqLE ts)
    (hhi : hasHigherPriority s.jobList = hi) (ho : OutOrdered hi s.jobList out)
    (he : sel < K → ∀ j, m < j → waitingOf s.jobList j = []) :
    OutOrdered hi (assignLoop ts K m sel s out).1.jobList (assignLoop ts K m sel s out).2 := by
  induction m generalizing sel s out with
  | zero => exact ho
  | succ m ih =>
    rw [assignLoop_succ]
    split_ifs with h1 h2
    · apply ih sel h hav hhi ho
      intro _ j hj
      have hz : s.jobHeapSize (m + 1) = 0 := by
        rcases Nat.min_eq_zero_iff.1 h2 with h | h
        · omega
        · exact h
      rcases Nat.lt_or_ge (m + 1) j with hlt | hge
      · exact he h1 j hlt
      · have : j = m + 1 := by omega
        subst this
        exact waitingOf_eq_nil_of_size_zero h hz
    · have hn1 := Nat.min_le_left (K - sel) (s.jobHeapSize (m + 1))
      have hn2 := Nat.min_le_right (K - sel) (s.jobHeapSize (m + 1))
      obtain ⟨c1, c2⟩ := assignBatch_coreInv (min (K - sel) (s.jobHeapSize (m + 1))) out h
        hn2 hts (le_trans hn1 hav)
      obtain ⟨o1, o2, o3⟩ := assignBatch_order (min (K - sel) (s.jobHeapSize (m + 1)))
        out h hn2 hts (le_trans hn1 hav) hhi ho (he h1)
      apply ih _ c1 (by omega) o1 o2
      intro hlt j hj
      rcases Nat.lt_or_ge (m + 1) j with hlt' | hge
      · exact o3 j hlt'
      · have : j = m + 1 := by omega
        subst this
        apply waitingOf_eq_nil_of_size_zero c1
        rw [assignBatch_jobHeapSize _ _ _ _ _ hn2, if_pos rfl]
        omega
    · exact ho

theorem assignJobs_order {M : Nat} {s : State} {ts : Nat} (K : Nat) (h : CoreInv M s)
    (hts : 0 < ts) :
    OutOrdered (hasHigherPriority s.jobList) (assignJobs s ts K).1.jobList
      (assignJobs s ts K).2 := by
  rw [assignJobs_eq]
  have hf := stagingOnly_assignFlush s
  have h0 := hf.coreInv h
  have h1 : CoreInv M { (if s.totalSize > 0 then emptyOutAllDurationHeaps s else s) with
      prevTimestamp := ts } := coreInv_congr h0 rfl rfl rfl rfl rfl rfl
  apply assignLoop_order 100 0 h1 hts
  · show _ ≤ CPUNode.sumFreqLE (if s.totalSize > 0 then emptyOutAllDurationHeaps s else s).cpuTreeRoot ts
    rw [getValuesLessThanEqualTo_eq ts h0.cpu_inv.ordered h0.cpu_inv.sizeOK]
    have := Nat.min_le_left (CPUNode.sumFreqLE
      (if s.totalSize > 0 then emptyOutAllDurationHeaps s else s).cpuTreeRoot ts) K
    omega
  · show hasHigherPriority (if s.totalSize > 0 then emptyOutAllDurationHeaps s else s).jobList = _
    rw [hf.jobList]
  · exact ⟨List.Pairwise.nil, fun _ _ _ he => by simp at he⟩
  · intro _ j hj
    show waitingOf (if s.totalSize > 0 then emptyOutAllDurationHeaps s else s).jobList j = []
    rw [hf.jobList]
    rw [List.eq_nil_iff_forall_not_mem]
    intro w hw
    obtain ⟨hw1, hw2, -⟩ := mem_waitingOf.1 hw
    have := (h.imp_range w hw1).2
    omega

theorem wellFormedFrom_append {prev : Nat} {cmds : List Cmd} {c : Cmd}
    (h : wellFormedFrom prev (cmds ++ [c]) = true) :
    wellFormedFrom prev cmds = true ∧ c.sane := by
  induction cmds generalizing prev with
  | nil => exact ⟨rfl, (sane_of_wellFormedFrom h).1⟩
  | cons d ds ih =>
    cases d with
    | job ts pid o ins imp dur =>
      simp only [List.cons_append, wellFormedFrom, Bool.and_eq_true, decide_eq_true_eq] at h ⊢
      exact ⟨⟨h.1, (ih h.2).1⟩, (ih h.2).2⟩
    | assign ts K =>
      simp only [List.cons_append, wellFormedFrom, Bool.and_eq_true, decide_eq_true_eq] at h ⊢
      exact ⟨⟨h.1, (ih h.2).1⟩, (ih h.2).2⟩
    | queryTopK ts K => exact ih h
    | queryOrigin ts origin => exact ih h

/-- C5: when a well-formed sequence continues with `assign ts K`, the jobs it prints come
in priority order (no printed job is outranked under `hasHigherPriority` by one printed
after it) and no job still waiting after the assign outranks a printed job; in particular
printed jobs of equal importance come in ascending arrival timestamp and, at equal
timestamps, in ascending duration. -/
theorem assign_emits_highest_priority_in_order (M p0 : Nat) (cmds : List Cmd) (ts K : Nat)
    (r : State × List Nat) (hw : WellFormed (cmds ++ [.assign ts K]))
    (hr : run M p0 cmds = .ok r) :
    ((assignJobs r.1 ts K).2.Pairwise fun ei ej =>
        hasHigherPriority r.1.jobList ej ei = false) ∧
      (∀ w, w < (assignJobs r.1 ts K).1.jobList.length →
        (getJob (assignJobs r.1 ts K).1.jobList w).qExit = 0 →
        ∀ e, e ∈ (assignJobs r.1 ts K).2 → hasHigherPriority r.1.jobList w e = false) ∧
      ((assignJobs r.1 ts K).2.Pairwise fun ei ej =>
        (getJob r.1.jobList ei).importance = (getJob r.1.jobList ej).importance →
          (getJob r.1.jobList ei).timestamp ≤ (getJob r.1.jobList ej).timestamp ∧
          ((getJob r.1.jobList ei).timestamp = (getJob r.1.jobList ej).timestamp →
            (getJob r.1.jobList ei).duration ≤ (getJob r.1.jobList ej).duration)) := by
  obtain ⟨hw1, hts⟩ := wellFormedFrom_append hw
  have h := run_coreInv hw1 hr
  have ho := assignJobs_order K h (show 0 < ts from hts)
  refine ⟨ho.sorted, ?_, ?_⟩
  · intro w hw2 hq e he
    exact ho.bound w (mem_waitingIds.2 ⟨hw2, hq⟩) e he
  · refine ho.sorted.imp ?_
    intro a b hab himp
    unfold hasHigherPriority at hab
    rw [Job.higher_eq_false_iff] at hab
    omega

set_option maxRecDepth 100000 in
/-- Witness of C5: scenario S3, where the two shortest jobs are printed, shorter first. -/
theorem assign_emits_highest_priority_in_order_witness :
    (assignJobs (resultOf (run 2 0 scenarioS3Jobs)).1 6 2).2 = [1, 2] ∧
      ((assignJobs (resultOf (run 2 0 scenarioS3Jobs)).1 6 2).2.Pairwise fun ei ej =>
        hasHigherPriority (resultOf (run 2 0 scenarioS3Jobs)).1.jobList ej ei = false) :=
  ⟨by rfl, (assign_emits_highest_priority_in_order 2 0 scenarioS3Jobs 6 2
    (resultOf (run 2 0 scenarioS3Jobs)) (by rfl) (by rfl)).1⟩

/-! ### Binary searches -/

theorem readAt_of_lt {α : Type} [Inhabited α] {v : List α} {i : Nat} (h : i < v.length) :
    readAt v i = .ok (v.getD i default) := by
  unfold readAt
  rw [List.getElem?_eq_getElem h, List.getD_eq_getElem _ _ h]

theorem readAt_nat_of_lt {v : List Nat} {i : Nat} (h : i < v.length) :
    readAt v i = .ok (v.getD i 0) := by
  unfold readAt
  rw [List.getElem?_eq_getElem h, List.getD_eq_getElem _ _ h]

theorem llPred_of_pos {i : Nat} (h : 0 < i) : llPred i = i - 1 := by
  unfold llPred
  rw [if_neg (by omega)]

/-- `getStartPoint` on a bucket sorted by arrival time: it returns an index of the range
before which every entry is earlier than `value`. -/
theorem getStartPoint_spec (jobList : List Job) (value : Nat) (v : List Nat)
    (hs : ∀ i j, i ≤ j → j < v.length → tsAt jobList v i ≤ tsAt jobList v j)
    (fuel left right : Nat) (hlr : left ≤ right) (hr : right < v.length)
    (hfuel : right - left < fuel)
    (hinv : ∀ i, i < left → tsAt jobList v i < value) :
    ∃ r, getStartPoint jobList value v fuel left right = .ok r ∧ left ≤ r ∧ r ≤ right ∧
      ∀ i, i < r → tsAt jobList v i < value := by
  induction fuel generalizing left right with
  | zero => omega
  | succ fuel ih =>
    unfold getStartPoint
    split_ifs with h0
    · exact ⟨left, rfl, le_refl _, hlr, hinv⟩
    · have hm1 : left ≤ (left + right) / 2 := by omega
      have hm2 : (left + right) / 2 < right := by omega
      simp only
      rw [readAt_nat_of_lt (show (left + right) / 2 < v.length by omega)]
      simp only [Outcome.bind]
      have htm : (getJob jobList (v.getD ((left + right) / 2) 0)).timestamp
          = tsAt jobList v ((left + right) / 2) := rfl
      rw [htm]
      split_ifs with h1 h2 h3
      · obtain ⟨r, e, a, b, c⟩ := ih left _ hm1 (by omega) (by omega) hinv
        exact ⟨r, e, a, by omega, c⟩
      · obtain ⟨r, e, a, b, c⟩ := ih ((left + right) / 2 + 1) right (by omega) hr (by omega)
          (fun i hi => lt_of_le_of_lt (hs i _ (by omega) (by omega)) h2)
        exact ⟨r, e, by omega, b, c⟩
      · rw [llPred_of_pos (by omega)]
        obtain ⟨r, e, a, b, c⟩ := ih left ((left + right) / 2 - 1) (by omega) (by omega)
          (by omega) hinv
        exact ⟨r, e, a, by omega, c⟩
      · exact ⟨left, rfl, le_refl _, hlr, hinv⟩

/-- `getEndPoint` on a bucket sorted by arrival time, started on a range whose first entry
is not later than `value`: it stays inside the range and returns the last index whose
entry is not later than `value`. -/
theorem getEndPoint_spec (jobList : List Job) (value : Nat) (v : List Nat)
    (hs : ∀ i j, i ≤ j → j < v.length → tsAt jobList v i ≤ tsAt jobList v j)
    (fuel left right : Nat) (hlr : left ≤ right) (hr : right < v.length)
    (hfuel : right - left < fuel)
    (hl : tsAt jobList v left ≤ value)
    (hinv : ∀ i, right < i → i < v.length → value < tsAt jobList v i) :
    ∃ r, getEndPoint jobList value v fuel left right = .ok r ∧ left ≤ r ∧ r ≤ right ∧
      tsAt jobList v r ≤ value ∧ ∀ i, r < i → i < v.length → value < tsAt jobList v i := by
  induction fuel generalizing left right with
  | zero => omega
  | succ fuel ih =>
    unfold getEndPoint
    split_ifs with h0
    · subst h0
      exact ⟨left, rfl, le_refl _, le_refl _, hl, hinv⟩
    · have hm1 : left ≤ (left + right) / 2 := by omega
      have hm2 : (left + right) / 2 < right := by omega
      simp only
      rw [readAt_nat_of_lt (show (left + right) / 2 < v.length by omega)]
      simp only [Outcome.bind]
      rw [readAt_nat_of_lt (show (left + right) / 2 + 1 < v.length by omega)]
      simp only [Outcome.bind]
      have htm : (getJob jobList (v.getD ((left + right) / 2) 0)).timestamp
          = tsAt jobList v ((left + right) / 2) := rfl
      have htm1 : (getJob jobList (v.getD ((left + right) / 2 + 1) 0)).timestamp
          = tsAt jobList v ((left + right) / 2 + 1) := rfl
      rw [htm, htm1]
      have hstep := hs ((left + right) / 2) ((left + right) / 2 + 1) (by omega) (by omega)
      split_ifs with h1 h2 h3 h4
      · obtain ⟨r, e, a, b, c, d⟩ := ih ((left + right) / 2 + 1) right (by omega) hr
          (by omega) (by omega) hinv
        exact ⟨r, e, by omega, b, c, d⟩
      · refine ⟨_, rfl, hm1, by omega, by omega, ?_⟩
        intro i hi hil
        have := hs ((left + right) / 2 + 1) i (by omega) hil
        omega
      · refine ⟨_, rfl, hm1, by omega, by omega, ?_⟩
        intro i hi hil
        have := hs ((left + right) / 2 + 1) i (by omega) hil
        omega
      · obtain ⟨r, e, a, b, c, d⟩ := ih ((left + right) / 2 + 1) right (by omega) hr
          (by omega) (by omega) hinv
        exact ⟨r, e, by omega, b, c, d⟩
      · have hml : left < (left + right) / 2 := by
          rcases Nat.eq_or_lt_of_le hm1 with e | e
          · rw [← e] at h1 h3; omega
          · exact e
        rw [llPred_of_pos (by omega)]
        obtain ⟨r, e, a, b, c, d⟩ := ih left ((left + right) / 2 - 1) (by omega) (by omega)
          (by omega) hl (by
            intro i hi hil
            have := hs ((left + right) / 2) i (by omega) hil
            omega)
        exact ⟨r, e, a, by omega, c, d⟩

/-- `doBinarySearchMaxMins` on a log with increasing timestamps, started on a range whose
first entry is not later than `timestamp`: it stays inside the range and returns the index
of the last entry that is not later than `timestamp`. -/
theorem doBinarySearchMaxMins_spec (MaxMins : List MaxMinNode) (timestamp : Nat)
    (hs : ∀ i j, i < j → j < MaxMins.length → logTsAt MaxMins i < logTsAt MaxMins j)
    (fuel left right : Nat) (hlr : left ≤ right) (hr : right < MaxMins.length)
    (hfuel : right - left < fuel)
    (hl : logTsAt MaxMins left ≤ timestamp)
    (hinv : ∀ i, right < i → i < MaxMins.length → timestamp < logTsAt MaxMins i) :
    ∃ r, doBinarySearchMaxMins MaxMins timestamp fuel left right = .ok r ∧ left ≤ r ∧
      r ≤ right ∧ logTsAt MaxMins r ≤ timestamp ∧
      ∀ i, r < i → i < MaxMins.length → timestamp < logTsAt MaxMins i := by
  induction fuel generalizing left right with
  | zero => omega
  | succ fuel ih =>
    unfold doBinarySearchMaxMins
    rw [readAt_of_lt hr]
    simp only [Outcome.bind]
    have htr : (MaxMins.getD right default).timestamp = logTsAt MaxMins right := rfl
    rw [htr]
    split_ifs with h0
    · exact ⟨right, rfl, hlr, le_refl _, h0, hinv⟩
    · have hne : left ≠ right := by rintro rfl; omega
      have hm1 : left ≤ (left + right) / 2 := by omega
      have hm2 : (left + right) / 2 < right := by omega
      rw [readAt_of_lt (show (left + right) / 2 < MaxMins.length by omega)]
      simp only [Outcome.bind]
      have htm : (MaxMins.getD ((left + right) / 2) default).timestamp
          = logTsAt MaxMins ((left + right) / 2) := rfl
      rw [htm]
      split_ifs with h1
      · rw [readAt_of_lt (show (left + right) / 2 + 1 < MaxMins.length by omega)]
        simp only [Outcome.bind]
        have htm1 : (MaxMins.getD ((left + right) / 2 + 1) default).timestamp
            = logTsAt MaxMins ((left + right) / 2 + 1) := rfl
        rw [htm1]
        split_ifs with h2
        · obtain ⟨r, e, a, b, c, d⟩ := ih ((left + right) / 2 + 1) right (by omega) hr
            (by omega) h2 hinv
          exact ⟨r, e, by omega, b, c, d⟩
        · refine ⟨_, rfl, hm1, by omega, h1, ?_⟩
          intro i hi hil
          rcases Nat.eq_or_lt_of_le (show (left + right) / 2 + 1 ≤ i by omega) with e | e
          · rw [← e]; omega
          · have := hs ((left + right) / 2 + 1) i e hil
            omega
      · have hml : left < (left + right) / 2 := by
          rcases Nat.eq_or_lt_of_le hm1 with e | e
          · rw [← e] at h1; omega
          · exact e
        rw [llPred_of_pos (by omega)]
        obtain ⟨r, e, a, b, c, d⟩ := ih left ((left + right) / 2 - 1) (by omega) (by omega)
          (by omega) hl (by
            intro i hi hil
            rcases Nat.eq_or_lt_of_le (show (left + right) / 2 ≤ i by omega) with e | e
            · rw [← e]; omega
            · have := hs ((left + right) / 2) i e hil
              omega)
        exact ⟨r, e, a, by omega, c, d⟩

/-! ### The scan of one bucket -/

theorem waitingAt_false_of_lt {job : Job} {T : Nat} (h : T < job.timestamp) :
    job.waitingAt T = false := by
  unfold Job.waitingAt
  simp only [decide_eq_false_iff_not]
  omega

theorem SortedByTs.index {jobList : List Job} {v : List Nat} (h : SortedByTs jobList v) :
    ∀ i j, i ≤ j → j < v.length → tsAt jobList v i ≤ tsAt jobList v j := by
  intro i j hij hj
  rcases Nat.eq_or_lt_of_le hij with rfl | hlt
  · exact le_refl _
  · have := (List.pairwise_iff_getElem.1 h) i j (by omega) hj hlt
    unfold tsAt
    rwa [List.getD_eq_getElem _ _ (show i < v.length by omega), List.getD_eq_getElem _ _ hj]

theorem filter_slice_eq_nil_of_late {jobList : List Job} {T : Nat} {v : List Nat}
    (q : Nat → Bool) (hq : ∀ id, q id = true → (getJob jobList id).waitingAt T = true)
    (hs : SortedByTs jobList v) {j : Nat}
    (hlate : T < (getJob jobList (v.getD j 0)).timestamp) (n : Nat) :
    ((v.drop (j + 1)).take n).filter q = [] := by
  rw [List.filter_eq_nil_iff]
  intro x hx hqx
  have hx' : x ∈ v.drop (j + 1) := List.mem_of_mem_take hx
  obtain ⟨i, hi, rfl⟩ := List.mem_drop_iff_getElem.1 hx'
  have := hs.index j (j + 1 + i) (by omega) (by omega)
  unfold tsAt at this
  rw [List.getD_eq_getElem _ _ (show j + 1 + i < v.length by omega)] at this
  have hw := @waitingAt_false_of_lt (getJob jobList v[j + 1 + i]) T (by omega)
  rw [hq _ hqx] at hw
  exact Bool.noConfusion hw

theorem slice_succ {v : List Nat} {j : Nat} (hj : j < v.length) (n : Nat) :
    (v.drop j).take (n + 1) = v.getD j 0 :: (v.drop (j + 1)).take n := by
  rw [List.drop_eq_getElem_cons hj, List.take_succ_cons, List.getD_eq_getElem _ _ hj]

theorem scanOrigin_eq {jobList : List Job} {T : Nat} (origin : String) {v : List Nat}
    (hs : SortedByTs jobList v) (n j : Nat) (out : List Nat) (hb : j + n ≤ v.length) :
    scanOrigin jobList T origin v n j out =
      .ok (out ++ ((v.drop j).take n).filter (waitingFromAt jobList T origin)) := by
  induction n generalizing j out with
  | zero => simp [scanOrigin]
  | succ n ih =>
    have hj : j < v.length := by omega
    unfold scanOrigin
    rw [readAt_nat_of_lt hj]
    simp only [Outcome.bind]
    rw [slice_succ hj, List.filter_cons]
    by_cases hlate : (getJob jobList (v.getD j 0)).timestamp > T
    · have hw := waitingAt_false_of_lt hlate
      have hwf : ¬ waitingFromAt jobList T origin (v.getD j 0) = true := by
        unfold waitingFromAt
        rw [hw]
        exact fun h => Bool.noConfusion h
      have hc : ¬ ((getJob jobList (v.getD j 0)).waitingAt T = true ∧
          (getJob jobList (v.getD j 0)).originSystem = origin) := by
        rw [hw]
        exact fun h => Bool.noConfusion h.1
      rw [filter_slice_eq_nil_of_late _ (fun id h => by
        simp only [waitingFromAt, Bool.and_eq_true] at h; exact h.1) hs hlate]
      rw [if_neg hc, if_pos hlate, if_neg hwf, List.append_nil]
    · by_cases hc : (getJob jobList (v.getD j 0)).waitingAt T = true ∧
          (getJob jobList (v.getD j 0)).originSystem = origin
      · have hwf : waitingFromAt jobList T origin (v.getD j 0) = true := by
          unfold waitingFromAt
          rw [hc.1, hc.2]
          simp
        rw [if_pos hc, if_neg hlate, if_pos hwf, ih (j + 1) _ (by omega)]
        simp
      · have hwf : ¬ waitingFromAt jobList T origin (v.getD j 0) = true := by
          simp only [waitingFromAt, Bool.and_eq_true, decide_eq_true_eq]
          exact hc
        rw [if_neg hc, if_neg hlate, if_neg hwf, ih (j + 1) _ (by omega)]

theorem scanTOPK_eq {jobList : List Job} {T K : Nat} {v : List Nat}
    (hs : SortedByTs jobList v) (n j sel : Nat) (out : List Nat) (hb : j + n ≤ v.length)
    (hsel : sel < K) :
    scanTOPK jobList T K v n j sel out =
      .ok (out ++ (((v.drop j).take n).filter (waitingAtId jobList T)).take (K - sel),
        sel + min (K - sel) (((v.drop j).take n).filter (waitingAtId jobList T)).length) := by
  induction n generalizing j sel out with
  | zero => simp [scanTOPK]
  | succ n ih =>
    have hj : j < v.length := by omega
    unfold scanTOPK
    rw [readAt_nat_of_lt hj]
    simp only [Outcome.bind]
    rw [slice_succ hj, List.filter_cons]
    have hw : waitingAtId jobList T (v.getD j 0) = (getJob jobList (v.getD j 0)).waitingAt T :=
      rfl
    rw [hw]
    by_cases h1 : (getJob jobList (v.getD j 0)).waitingAt T = true
    · rw [if_pos h1, if_pos h1, if_pos h1]
      obtain ⟨d, hd⟩ : ∃ d, K - sel = d + 1 := ⟨K - sel - 1, by omega⟩
      have hnl : ¬ (getJob jobList (v.getD j 0)).timestamp > T := by
        intro hl
        rw [waitingAt_false_of_lt hl] at h1
        exact Bool.noConfusion h1
      by_cases h2 : sel + 1 = K
      · rw [if_pos (Or.inr h2)]
        have : d = 0 := by omega
        subst this
        rw [hd]
        simp
      · rw [if_neg (by rintro (h | h); exact hnl h; exact h2 h)]
        have hlt : sel + 1 < K := by omega
        rw [ih (j + 1) (sel + 1) _ (by omega) hlt, hd]
        have : K - (sel + 1) = d := by omega
        rw [this]
        simp only [List.take_succ_cons, List.append_assoc, List.singleton_append,
          List.length_cons]
        congr 2
        omega
    · rw [if_neg h1, if_neg h1, if_neg h1]
      by_cases h2 : (getJob jobList (v.getD j 0)).timestamp > T
      · rw [if_pos (Or.inl h2),
          filter_slice_eq_nil_of_late (waitingAtId jobList T) (fun id h => h) hs h2]
        simp
      · rw [if_neg (by rintro (h | h); exact h2 h; omega), ih (j + 1) sel _ (by omega) hsel]

/-! ### The window of one bucket -/

theorem filter_eq_filter_slice {v : List Nat} (q : Nat → Bool) (l r : Nat)
    (h : ∀ i, i < v.length → q (v.getD i 0) = true → l ≤ i ∧ i ≤ r) :
    v.filter q = ((v.drop l).take (r + 1 - l)).filter q := by
  have e1 : v = v.take l ++ ((v.drop l).take (r + 1 - l) ++ (v.drop l).drop (r + 1 - l)) := by
    rw [List.take_append_drop, List.take_append_drop]
  have e2 : (v.take l).filter q = [] := by
    rw [List.filter_eq_nil_iff]
    intro x hx hqx
    obtain ⟨i, hi, rfl⟩ := List.mem_take_iff_getElem.1 hx
    have hil : i < v.length := by omega
    have := h i hil (by rw [List.getD_eq_getElem _ _ hil]; exact hqx)
    omega
  have e3 : ((v.drop l).drop (r + 1 - l)).filter q = [] := by
    rw [List.filter_eq_nil_iff]
    intro x hx hqx
    rw [List.drop_drop] at hx
    obtain ⟨i, hi, rfl⟩ := List.mem_drop_iff_getElem.1 hx
    have hil : l + (r + 1 - l) + i < v.length := by omega
    have := h _ hil (by rw [List.getD_eq_getElem _ _ hil]; exact hqx)
    omega
  conv_lhs => rw [e1]
  rw [List.filter_append, List.filter_append, e2, e3, List.nil_append, List.append_nil]

theorem bucketWindow_spec {jobList : List Job} {Min Max : Nat} {v : List Nat}
    (q : Nat → Bool) (hs : SortedByTs jobList v)
    (hq : ∀ id, id ∈ v → q id = true →
      Min ≤ (getJob jobList id).timestamp ∧ (getJob jobList id).timestamp ≤ Max) :
    (bucketWindow jobList Min Max v = .ok none ∧ v.filter q = []) ∨
      ∃ l r, bucketWindow jobList Min Max v = .ok (some (l, r)) ∧
        l + (r + 1 - l) ≤ v.length ∧
        v.filter q = ((v.drop l).take (r + 1 - l)).filter q := by
  have hidx := hs.index
  have hq' : ∀ i, i < v.length → q (v.getD i 0) = true →
      Min ≤ tsAt jobList v i ∧ tsAt jobList v i ≤ Max := by
    intro i hi hqi
    apply hq _ _ hqi
    rw [List.getD_eq_getElem _ _ hi]
    exact List.getElem_mem _
  have hnone : (∀ i, i < v.length → q (v.getD i 0) = true → False) → v.filter q = [] := by
    intro h
    rw [List.filter_eq_nil_iff]
    intro x hx hqx
    obtain ⟨i, hi, rfl⟩ := List.getElem_of_mem hx
    exact h i hi (by rw [List.getD_eq_getElem _ _ hi]; exact hqx)
  unfold bucketWindow
  split_ifs with h0 h1 h2
  · left
    refine ⟨rfl, ?_⟩
    rw [List.length_eq_zero.1 h0]; rfl
  · left
    refine ⟨rfl, hnone ?_⟩
    intro i hi hqi
    have a := (hq' i hi hqi).2
    have b := hidx 0 i (Nat.zero_le _) hi
    have c : tsAt jobList v 0 = (getJob jobList (v.getD 0 0)).timestamp := rfl
    omega
  · left
    refine ⟨rfl, hnone ?_⟩
    intro i hi hqi
    have a := (hq' i hi hqi).1
    have b := hidx i (v.length - 1) (by omega) (by omega)
    have c : tsAt jobList v (v.length - 1)
        = (getJob jobList (v.getD (v.length - 1) 0)).timestamp := rfl
    omega
  · right
    have hpos : 0 < v.length := Nat.pos_of_ne_zero h0
    obtain ⟨l, el, -, hl2, hl3⟩ := getStartPoint_spec jobList Min v hidx v.length 0
      (v.length - 1) (Nat.zero_le _) (by omega) (by omega) (by intro i hi; omega)
    obtain ⟨r, er, -, hr2, -, hr4⟩ := getEndPoint_spec jobList Max v hidx v.length 0
      (v.length - 1) (Nat.zero_le _) (by omega) (by omega)
      (by have c : tsAt jobList v 0 = (getJob jobList (v.getD 0 0)).timestamp := rfl
          omega)
      (by intro i hi hil; omega)
    refine ⟨l, r, ?_, by omega, ?_⟩
    · rw [el, er]; rfl
    · apply filter_eq_filter_slice
      intro i hi hqi
      have a := hq' i hi hqi
      constructor
      · by_contra hc
        have := hl3 i (by omega)
        omega
      · by_contra hc
        have := hr4 i (by omega) hi
        omega

/-! ### The loops over the buckets -/

theorem originLoop_eq {s : State} {T : Nat} (origin : String) {Min Max : Nat} (m : Nat)
    (out : List Nat)
    (hs : ∀ i, 1 ≤ i → i ≤ m → SortedByTs s.jobList (s.qJobList i))
    (hq : ∀ i, 1 ≤ i → i ≤ m → ∀ id, id ∈ s.qJobList i →
      waitingAtId s.jobList T id = true →
      Min ≤ (getJob s.jobList id).timestamp ∧ (getJob s.jobList id).timestamp ≤ Max) :
    originLoop s T origin Min Max m out =
      .ok (out ++ (bucketsFrom s.qJobList m).filter (waitingFromAt s.jobList T origin)) := by
  induction m generalizing out with
  | zero => simp [originLoop, bucketsFrom]
  | succ m ih =>
    have ih' := fun out => ih out (fun i h1 h2 => hs i h1 (by omega))
      (fun i h1 h2 => hq i h1 (by omega))
    have hsm := hs (m + 1) (by omega) (le_refl _)
    have hqm : ∀ id, id ∈ s.qJobList (m + 1) → waitingFromAt s.jobList T origin id = true →
        Min ≤ (getJob s.jobList id).timestamp ∧ (getJob s.jobList id).timestamp ≤ Max := by
      intro id hid hw
      apply hq (m + 1) (by omega) (le_refl _) id hid
      simp only [waitingFromAt, Bool.and_eq_true] at hw
      exact hw.1
    unfold originLoop
    simp only [bucketsFrom, List.filter_append]
    rcases bucketWindow_spec (waitingFromAt s.jobList T origin) hsm hqm with
      ⟨e, hnil⟩ | ⟨l, r, e, hb, hf⟩
    · rw [e]
      simp only [Outcome.bind]
      rw [ih', hnil, List.nil_append]
    · rw [e]
      simp only [Outcome.bind]
      rw [scanOrigin_eq origin hsm _ _ _ hb]
      simp only [Outcome.bind]
      rw [ih', hf, List.append_assoc]

theorem topKLoop_eq {s : State} {T K : Nat} {Min Max : Nat} (m sel : Nat)
    (out : List Nat)
    (hs : ∀ i, 1 ≤ i → i ≤ m → SortedByTs s.jobList (s.qJobList i))
    (hq : ∀ i, 1 ≤ i → i ≤ m → ∀ id, id ∈ s.qJobList i →
      waitingAtId s.jobList T id = true →
      Min ≤ (getJob s.jobList id).timestamp ∧ (getJob s.jobList id).timestamp ≤ Max) :
    topKLoop s T K Min Max m sel out =
      .ok (out ++ ((bucketsFrom s.qJobList m).filter (waitingAtId s.jobList T)).take
        (K - sel)) := by
  induction m generalizing sel out with
  | zero => simp [topKLoop, bucketsFrom]
  | succ m ih =>
    have ih' := fun sel out => ih sel out (fun i h1 h2 => hs i h1 (by omega))
      (fun i h1 h2 => hq i h1 (by omega))
    have hsm := hs (m + 1) (by omega) (le_refl _)
    have hqm := hq (m + 1) (by omega) (le_refl _)
    unfold topKLoop
    simp only [bucketsFrom, List.filter_append]
    split_ifs with hlt
    · rcases bucketWindow_spec (waitingAtId s.jobList T) hsm hqm with
        ⟨e, hnil⟩ | ⟨l, r, e, hb, hf⟩
      · rw [e]
        simp only [Outcome.bind]
        rw [ih', hnil, List.nil_append]
      · rw [e]
        simp only [Outcome.bind]
        rw [scanTOPK_eq hsm _ _ _ _ hb hlt]
        simp only [Outcome.bind]
        rw [ih', hf, List.append_assoc, List.take_append_eq_append_take]
        congr 3
        generalize (List.filter (waitingAtId s.jobList T)
          (List.take (r + 1 - l) (List.drop l (s.qJobList (m + 1))))).length = len
        congr 1
        omega
    · have : K - sel = 0 := by omega
      rw [this]
      simp

/-! ### Flushing one staging heap -/

theorem drainDurationHeap_spec (i : Nat) (fuel : Nat) (s : State)
    (hfuel : s.durationHeapSize i ≤ fuel)
    (hlen : s.durationHeapSize i ≤ (s.durationHeaps i).length) :
    Flushed i s (drainDurationHeap i fuel s) := by
  induction fuel generalizing s with
  | zero =>
    have hz : s.durationHeapSize i = 0 := by omega
    refine ⟨StagingOnly.refl s, hz, ⟨[], by simp [drainDurationHeap], ?_⟩,
      fun _ _ => rfl, fun _ _ => rfl, fun _ _ => rfl, by simp [drainDurationHeap, hz], rfl⟩
    simp [State.staged, hz]
  | succ fuel ih =>
    unfold drainDurationHeap
    split_ifs with hz
    · refine ⟨StagingOnly.refl s, hz, ⟨[], by simp, ?_⟩,
        fun _ _ => rfl, fun _ _ => rfl, fun _ _ => rfl, by simp [hz], rfl⟩
      simp [State.staged, hz]
    · have h1 : 1 ≤ s.durationHeapSize i := by omega
      have hsz : (popDurationHeap s i).durationHeapSize i = s.durationHeapSize i - 1 := by
        simp only [popDurationHeap, setSlot, if_true, extractNextID]
        exact extractBy_size _ _ _ h1
      have hhl : ((popDurationHeap s i).durationHeaps i).length = (s.durationHeaps i).length := by
        simp only [popDurationHeap, setSlot, if_true, extractNextID]
        exact extractBy_length _ _ _
      have hq : (popDurationHeap s i).qJobList i = s.qJobList i ++
          [(extractBy (hasShorterDuration s.jobList) (s.durationHeaps i)
            (s.durationHeapSize i)).1] := by
        simp only [popDurationHeap, setSlot, if_true, extractNextID]
      have hst : (popDurationHeap s i).staged i =
          (extractBy (hasShorterDuration s.jobList) (s.durationHeaps i)
            (s.durationHeapSize i)).2.1.take (s.durationHeapSize i - 1) := by
        unfold State.staged
        rw [hsz]
        simp only [popDurationHeap, setSlot, if_true, extractNextID]
      have hperm := extractBy_perm (hasShorterDuration s.jobList) (s.durationHeaps i)
        (s.durationHeapSize i) h1 hlen
      have hoth : ∀ j, j ≠ i → (popDurationHeap s i).durationHeapSize j = s.durationHeapSize j ∧
          (popDurationHeap s i).durationHeaps j = s.durationHeaps j ∧
          (popDurationHeap s i).qJobList j = s.qJobList j := by
        intro j hj
        simp only [popDurationHeap, setSlot, if_neg hj, and_self]
      have htot : (popDurationHeap s i).totalSize = s.totalSize - 1 := rfl
      have r := ih (popDurationHeap s i) (by omega) (by omega)
      obtain ⟨D, hD1, hD2⟩ := r.bucket_i
      refine ⟨(stagingOnly_popDurationHeap s i).chain r.frame, r.size_i,
        ⟨(extractBy (hasShorterDuration s.jobList) (s.durationHeaps i)
          (s.durationHeapSize i)).1 :: D, ?_, ?_⟩, ?_, ?_, ?_, ?_, ?_⟩
      · rw [hD1, hq, List.append_assoc, List.singleton_append]
      · unfold State.staged at hperm ⊢
        rw [hst] at hD2
        exact (List.Perm.cons _ hD2).trans hperm
      · intro j hj; rw [r.size_other j hj, (hoth j hj).1]
      · intro j hj; rw [r.heap_other j hj, (hoth j hj).2.1]
      · intro j hj; rw [r.bucket_other j hj, (hoth j hj).2.2]
      · rw [r.total, htot, hsz]; omega
      · rw [r.heap_len, hhl]

theorem emptyOutDurationHeap_spec (s : State) (i : Nat)
    (hlen : s.durationHeapSize i ≤ (s.durationHeaps i).length) :
    Flushed i s (emptyOutDurationHeap s i) := by
  unfold emptyOutDurationHeap
  split_ifs with hz
  · refine ⟨StagingOnly.refl s, hz, ⟨[], by simp, ?_⟩,
      fun _ _ => rfl, fun _ _ => rfl, fun _ _ => rfl, by simp [hz], rfl⟩
    simp [State.staged, hz]
  · exact drainDurationHeap_spec i _ s (le_refl _) hlen

/-! ### Flushing keeps the history invariant -/

theorem heapSizeUpTo_zero_slot {f g : Nat → Nat} {i : Nat} (m : Nat) (h1 : 1 ≤ i)
    (hm : i ≤ m) (hi : g i = 0) (ho : ∀ j, j ≠ i → g j = f j) :
    heapSizeUpTo g m + f i = heapSizeUpTo f m := by
  induction m with
  | zero => omega
  | succ m ih =>
    unfold heapSizeUpTo
    rcases Nat.eq_or_lt_of_le hm with e | e
    · subst e
      rw [hi, heapSizeUpTo_congr m (fun j hj => ho j (by omega))]
      omega
    · rw [ho (m + 1) (by omega)]
      have := ih (by omega)
      omega

theorem heapSizeUpTo_eq_zero_iff (f : Nat → Nat) (m : Nat) :
    heapSizeUpTo f m = 0 ↔ ∀ i, 1 ≤ i → i ≤ m → f i = 0 := by
  induction m with
  | zero => simp [heapSizeUpTo]; intro i h1 h2; omega
  | succ m ih =>
    unfold heapSizeUpTo
    constructor
    · intro h i h1 h2
      rcases Nat.eq_or_lt_of_le h2 with e | e
      · subst e; omega
      · exact ih.1 (by omega) i h1 (by omega)
    · intro h
      have a := ih.2 (fun i h1 h2 => h i h1 (by omega))
      have b := h (m + 1) (by omega) (le_refl _)
      omega

theorem mem_idsOf {jobList : List Job} {i id : Nat} :
    id ∈ idsOf jobList i ↔ id < jobList.length ∧ (getJob jobList id).importance = i := by
  simp [idsOf]

theorem HistInv.mem_bucket_lt {s : State} (h : HistInv s) {i id : Nat}
    (hid : id ∈ s.qJobList i) : id < s.jobList.length ∧ (getJob s.jobList id).importance = i :=
  mem_idsOf.1 ((h.bucket_perm i).mem_iff.1 (List.mem_append_left _ hid))

theorem HistInv.mem_staged_lt {s : State} (h : HistInv s) {i id : Nat}
    (hid : id ∈ s.staged i) : id < s.jobList.length ∧ (getJob s.jobList id).importance = i :=
  mem_idsOf.1 ((h.bucket_perm i).mem_iff.1 (List.mem_append_right _ hid))

theorem histInv_flushed {s s' : State} {i : Nat} (h : HistInv s) (hf : Flushed i s s')
    (h1 : 1 ≤ i) (h100 : i ≤ 100) : HistInv s' := by
  obtain ⟨D, hD1, hD2⟩ := hf.bucket_i
  have hst_i : s'.staged i = [] := by
    unfold State.staged; rw [hf.size_i]; rfl
  have hst_o : ∀ j, j ≠ i → s'.staged j = s.staged j := by
    intro j hj
    unfold State.staged
    rw [hf.size_other j hj, hf.heap_other j hj]
  constructor
  · intro j
    by_cases e : j = i
    · subst e; rw [hf.size_i]; exact Nat.zero_le _
    · rw [hf.size_other j e, hf.heap_other j e]; exact h.stage_len j
  · intro j
    rw [hf.frame.jobList]
    by_cases e : j = i
    · subst e
      rw [hst_i, List.append_nil, hD1]
      exact (List.Perm.append_left _ hD2).trans (h.bucket_perm j)
    · rw [hst_o j e, hf.bucket_other j e]; exact h.bucket_perm j
  · intro j id hid
    rw [hf.frame.jobList, hf.frame.prevTimestamp]
    by_cases e : j = i
    · subst e; rw [hst_i] at hid; simp at hid
    · rw [hst_o j e] at hid; exact h.staged_ts j id hid
  · rw [hf.total, h.total]
    have := heapSizeUpTo_zero_slot (f := s.durationHeapSize) (g := s'.durationHeapSize) 100
      h1 h100 hf.size_i hf.size_other
    omega
  · intro j
    rw [hf.frame.jobList]
    by_cases e : j = i
    · subst e
      rw [hD1]
      unfold SortedByTs
      rw [List.pairwise_append]
      refine ⟨h.bucket_sorted j, ?_, ?_⟩
      · rw [List.pairwise_iff_forall_sublist]
        intro a b hab
        have ha := hD2.mem_iff.1 (hab.subset (List.mem_cons_self _ _))
        have hb := hD2.mem_iff.1 (hab.subset (List.mem_cons_of_mem _ (List.mem_singleton_self _)))
        rw [h.staged_ts j a ha, h.staged_ts j b hb]
      · intro a ha b hb
        rw [h.staged_ts j b (hD2.mem_iff.1 hb)]
        exact h.ts_le a (h.mem_bucket_lt ha).1
    · rw [hf.bucket_other j e]; exact h.bucket_sorted j
  · rw [hf.frame.jobList, hf.frame.prevTimestamp]; exact h.ts_le
  · rw [hf.frame.jobList, hf.frame.prevTimestamp]; exact h.qexit_le
  · rw [hf.frame.MaxMins]; exact h.log_sorted
  · rw [hf.frame.MaxMins, hf.frame.prevTimestamp]; exact h.log_last
  · rw [hf.frame.MaxMins, hf.frame.jobList]; exact h.log_empty_iff
  · rw [hf.frame.MaxMins, hf.frame.jobList]; exact h.log_window
  · rw [hf.frame.MaxMins, hf.frame.jobList]; exact h.log_has_ts
  · rw [hf.frame.MaxMins, hf.frame.jobList]; exact h.log_has_qexit
  · rw [hf.frame.MaxMins, hf.frame.jobList]; exact h.log_first

theorem foldl_flush_spec (l : List Nat) (s : State) (h : HistInv s)
    (hl : ∀ i, i ∈ l → 1 ≤ i ∧ i ≤ 100) :
    HistInv (l.foldl emptyOutDurationHeap s) ∧
      ∀ i, (i ∈ l ∨ s.durationHeapSize i = 0) →
        (l.foldl emptyOutDurationHeap s).durationHeapSize i = 0 := by
  induction l generalizing s with
  | nil =>
    refine ⟨h, ?_⟩
    intro i hi
    rcases hi with hi | hi
    · simp at hi
    · exact hi
  | cons a l ih =>
    have hf := emptyOutDurationHeap_spec s a (h.stage_len a)
    have ha := hl a (List.mem_cons_self _ _)
    have h' := histInv_flushed h hf ha.1 ha.2
    obtain ⟨r1, r2⟩ := ih (emptyOutDurationHeap s a) h'
      (fun i hi => hl i (List.mem_cons_of_mem _ hi))
    refine ⟨r1, ?_⟩
    intro i hi
    apply r2
    by_cases e : i = a
    · subst e; exact Or.inr hf.size_i
    · rcases hi with hi | hi
      · rcases List.mem_cons.1 hi with hi | hi
        · exact absurd hi e
        · exact Or.inl hi
      · right; rw [hf.size_other i e]; exact hi

theorem emptyOutAllDurationHeaps_spec {s : State} (h : HistInv s) :
    HistInv (emptyOutAllDurationHeaps s) ∧ Unstaged (emptyOutAllDurationHeaps s) := by
  have := foldl_flush_spec (List.range' 1 100) s h (by
    intro i hi
    rw [List.mem_range'_1] at hi
    omega)
  refine ⟨this.1, ?_⟩
  intro i h1 h100
  apply this.2
  left
  rw [List.mem_range'_1]
  omega

theorem HistInv.unstaged_of_total {s : State} (h : HistInv s) (hz : ¬ s.totalSize > 0) :
    Unstaged s := by
  have : heapSizeUpTo s.durationHeapSize 100 = 0 := by rw [← h.total]; omega
  exact (heapSizeUpTo_eq_zero_iff _ _).1 this

theorem staged_eq_nil {M : Nat} {s : State} (hc : CoreInv M s) (h : HistInv s)
    (hu : Unstaged s) (i : Nat) : s.staged i = [] := by
  by_cases hi : 1 ≤ i ∧ i ≤ 100
  · unfold State.staged; rw [hu i hi.1 hi.2]; rfl
  · rw [List.eq_nil_iff_forall_not_mem]
    intro id hid
    have := h.mem_staged_lt hid
    have := hc.imp_range id this.1
    omega

/-! ### Staging a new job -/

theorem length_staged {s : State} {i : Nat}
    (h : s.durationHeapSize i ≤ (s.durationHeaps i).length) :
    (s.staged i).length = s.durationHeapSize i := by
  unfold State.staged
  rw [List.length_take]
  omega

theorem take_siftUpBy_perm (hi : Nat → Nat → Bool) (jobID fuel : Nat) (heap : List Nat)
    (pos n : Nat) (hpos : pos < n) (hn : n ≤ heap.length) (hid : heap.getD pos 0 = jobID) :
    ((siftUpBy hi jobID fuel heap pos).take n).Perm (heap.take n) := by
  induction fuel generalizing heap pos with
  | zero => exact List.Perm.refl _
  | succ fuel ih =>
    unfold siftUpBy
    simp only
    split_ifs with h0 h1
    · exact List.Perm.refl _
    · have hp : getParent pos < pos := by unfold getParent; omega
      have hpl : pos < heap.length := by omega
      have hql : getParent pos < heap.length := by omega
      have hsw : (heap.set pos (heap.getD (getParent pos) 0)).set (getParent pos) jobID
          = swapAt heap pos (getParent pos) := by
        unfold swapAt; rw [hid]
      rw [hsw]
      refine (ih _ _ (by omega) (by rw [length_swapAt]; exact hn) ?_).trans
        (take_swapAt_perm hpos (by omega) hn)
      rw [getD_swapAt _ hpl hql, if_pos rfl]
      exact hid
    · exact List.Perm.refl _

theorem getD_placed (jobID : Nat) (heap : List Nat) (n : Nat) (hn : n ≤ heap.length) :
    (if n + 1 > heap.length then heap ++ [jobID] else heap.set n jobID).getD n 0 = jobID := by
  split_ifs with h
  · have : heap.length = n := by omega
    subst this
    simp [List.getD_eq_getElem?_getD]
  · exact getD_set_self _ _ (by omega)

/-- Pushing `id` on the staging heap of importance `i`. -/
theorem pushStaged_spec (s : State) (id i : Nat)
    (hlen : s.durationHeapSize i ≤ (s.durationHeaps i).length) :
    StagedJob id i s
      { s with
        totalSize := s.totalSize + 1
        durationHeaps := setSlot s.durationHeaps i
          (insertIntoDurationHeap s.jobList id (s.durationHeaps i) (s.durationHeapSize i)).1
        durationHeapSize := setSlot s.durationHeapSize i
          (insertIntoDurationHeap s.jobList id (s.durationHeaps i) (s.durationHeapSize i)).2 } := by
  have hp := take_placed id (s.durationHeaps i) (s.durationHeapSize i) hlen
  refine ⟨⟨rfl, rfl, rfl, rfl, rfl, rfl, rfl, rfl⟩, ⟨[], s.staged i, by simp, by simp, ?_⟩,
    ?_, ?_, ?_, fun _ _ => rfl, ?_⟩
  · show (((setSlot s.durationHeaps i _) i).take ((setSlot s.durationHeapSize i _) i)).Perm _
    simp only [setSlot, if_true]
    unfold insertIntoDurationHeap insertBy
    simp only
    have hlen' : s.durationHeapSize i + 1 ≤
        (if s.durationHeapSize i + 1 > (s.durationHeaps i).length
          then s.durationHeaps i ++ [id]
          else (s.durationHeaps i).set (s.durationHeapSize i) id).length := by
      split_ifs <;> simp <;> omega
    refine (take_siftUpBy_perm (hasShorterDuration s.jobList) id _ _ _ _ (by omega)
      hlen' (getD_placed id _ _ hlen)).trans ?_
    rw [hp]
    exact (List.perm_append_singleton _ _).trans (by unfold State.staged; exact List.Perm.refl _)
  · show (setSlot s.durationHeapSize i _) i ≤ ((setSlot s.durationHeaps i _) i).length
    simp only [setSlot, if_true]
    exact insertBy_length _ _ _ _ hlen
  · intro j hj
    show (setSlot s.durationHeapSize i _) j = _
    simp only [setSlot, if_neg hj]
  · intro j hj
    show (setSlot s.durationHeaps i _) j = _
    simp only [setSlot, if_neg hj]
  · show s.totalSize + 1 + s.durationHeapSize i = s.totalSize + (setSlot s.durationHeapSize i _) i
    simp only [setSlot, if_true]
    show _ = s.totalSize + (s.durationHeapSize i + 1)
    omega

theorem stageJob_spec (s : State) (id ts i : Nat)
    (hlen : s.durationHeapSize i ≤ (s.durationHeaps i).length)
    (htot : s.durationHeapSize i ≤ s.totalSize) :
    StagedJob id i s (stageJob s id ts i) := by
  unfold stageJob
  simp only
  split_ifs with h0 h1
  · obtain ⟨⟨a1, a2, a3, a4, a5, a6, a7, a8⟩, b, c, d, e, f, g⟩ := pushStaged_spec s id i hlen
    exact ⟨⟨a1, a2, a3, a4, a5, a6, a7, a8⟩, b, c, d, e, f, g⟩
  · exact pushStaged_spec s id i hlen
  · have hf := emptyOutDurationHeap_spec
      { s with prevTimestamps := setSlot s.prevTimestamps i ts } i hlen
    generalize emptyOutDurationHeap
      { s with prevTimestamps := setSlot s.prevTimestamps i ts } i = sb at hf ⊢
    have hp := pushStaged_spec sb id i (by rw [hf.size_i]; exact Nat.zero_le _)
    obtain ⟨D, hD1, hD2⟩ := hf.bucket_i
    obtain ⟨D', R', hq', hperm', hst'⟩ := hp.parts
    have hsb : sb.staged i = [] := by unfold State.staged; rw [hf.size_i]; rfl
    rw [hsb] at hperm'
    have hD'nil : D' = [] := by
      have := List.Perm.eq_nil hperm'
      exact (List.append_eq_nil.1 this).1
    have hR'nil : R' = [] := by
      have := List.Perm.eq_nil hperm'
      exact (List.append_eq_nil.1 this).2
    subst hD'nil hR'nil
    refine ⟨?_, ⟨D, [], ?_, ?_, hst'⟩, hp.size_le, ?_, ?_, ?_, ?_⟩
    · have f1 := hf.frame
      have f2 := hp.frame
      exact ⟨f2.jobList.trans f1.jobList, f2.MaxMins.trans f1.MaxMins,
        f2.jobHeap.trans f1.jobHeap, f2.jobHeapSize.trans f1.jobHeapSize,
        f2.cpuTreeRoot.trans f1.cpuTreeRoot, f2.startTimeRoot.trans f1.startTimeRoot,
        f2.ID.trans f1.ID, f2.prevTimestamp.trans f1.prevTimestamp⟩
    · rw [hq', List.append_nil, hD1]
    · rw [List.append_nil]; exact hD2
    · intro j hj; rw [hp.size_other j hj, hf.size_other j hj]
    · intro j hj; rw [hp.heap_other j hj, hf.heap_other j hj]
    · intro j hj; rw [hp.bucket_other j hj, hf.bucket_other j hj]
    · have a := hp.total
      have b := hf.total
      have c := hf.size_i
      have b' : sb.totalSize = s.totalSize - s.durationHeapSize i := b
      omega

/-! ### The log update of the `job` branch -/

theorem getD_concat_last {α : Type} (init : List α) (last d : α) :
    (init ++ [last]).getD ((init ++ [last]).length - 1) d = last := by
  simp [List.getD_eq_getElem?_getD]

theorem set_concat_last {α : Type} (init : List α) (last x : α) :
    (init ++ [last]).set ((init ++ [last]).length - 1) x = init ++ [x] := by
  simp [List.set_append]

theorem logJob_nil (tree : CPUNode) (ts : Nat) :
    logJob [] tree ts = [MaxMinNode.create ts ts ts] := rfl

theorem logJob_concat (init : List MaxMinNode) (last : MaxMinNode) (tree : CPUNode)
    (ts : Nat) :
    logJob (init ++ [last]) tree ts =
      if last.timestamp = ts then init ++ [last.updateValues ts]
      else init ++ [last] ++ [MaxMinNode.create (getMinimum tree) (getMaximum tree) ts] := by
  unfold logJob
  rw [if_neg (by simp), getD_concat_last, set_concat_last]

theorem logAssign_nil (tree : CPUNode) (ts : Nat) : logAssign [] tree ts = .oob := by
  unfold logAssign readAt
  simp [llPred, llMod, Outcome.bind]

theorem logAssign_concat (init : List MaxMinNode) (last : MaxMinNode) (tree : CPUNode)
    (ts : Nat) :
    logAssign (init ++ [last]) tree ts =
      .ok (if last.timestamp = ts then
          init ++ [MaxMinNode.create (if tree = .nil then 1 else getMinimum tree)
            (if tree = .nil then 0 else getMaximum tree) ts]
        else init ++ [last] ++ [MaxMinNode.create (if tree = .nil then 1 else getMinimum tree)
            (if tree = .nil then 0 else getMaximum tree) ts]) := by
  unfold logAssign
  have hl : llPred (init ++ [last]).length = (init ++ [last]).length - 1 :=
    llPred_of_pos (by simp)
  simp only [hl]
  rw [readAt_of_lt (by simp), getD_concat_last, set_concat_last]
  simp only [Outcome.bind]
  split_ifs <;> rfl

/-! ### One step of the log -/

theorem logStep_append {ts : Nat} {L : List MaxMinNode} (e : MaxMinNode)
    (hs : L.Pairwise fun a b => a.timestamp < b.timestamp)
    (hlt : ∀ e0, e0 ∈ L → e0.timestamp < ts) (he : e.timestamp = ts) :
    LogStep ts L (L ++ [e]) e := by
  refine ⟨?_, by simp, he, ?_, ?_, ?_⟩
  · rw [List.pairwise_append]
    refine ⟨hs, List.pairwise_singleton _ _, ?_⟩
    intro a ha b hb
    rw [List.mem_singleton.1 hb, he]
    exact hlt a ha
  · intro x hx
    rcases List.mem_append.1 hx with h | h
    · exact Or.inl ⟨h, hlt x h⟩
    · exact Or.inr (List.mem_singleton.1 h)
  · intro x hx _
    exact List.mem_append_left _ hx
  · intro hne
    cases L with
    | nil => exact absurd rfl hne
    | cons a t => rfl

theorem logStep_replace {ts : Nat} {init : List MaxMinNode} {last : MaxMinNode}
    (e : MaxMinNode)
    (hs : (init ++ [last]).Pairwise fun a b => a.timestamp < b.timestamp)
    (hl : last.timestamp = ts) (he : e.timestamp = ts) :
    LogStep ts (init ++ [last]) (init ++ [e]) e := by
  rw [List.pairwise_append] at hs
  obtain ⟨h1, -, h3⟩ := hs
  have hlt : ∀ a, a ∈ init → a.timestamp < ts := by
    intro a ha
    rw [← hl]
    exact h3 a ha last (List.mem_singleton_self _)
  refine ⟨?_, by simp, he, ?_, ?_, ?_⟩
  · rw [List.pairwise_append]
    refine ⟨h1, List.pairwise_singleton _ _, ?_⟩
    intro a ha b hb
    rw [List.mem_singleton.1 hb, he]
    exact hlt a ha
  · intro x hx
    rcases List.mem_append.1 hx with h | h
    · exact Or.inl ⟨List.mem_append_left _ h, hlt x h⟩
    · exact Or.inr (List.mem_singleton.1 h)
  · intro x hx hxt
    rcases List.mem_append.1 hx with h | h
    · exact List.mem_append_left _ h
    · rw [List.mem_singleton.1 h, hl] at hxt
      omega
  · intro _
    cases init with
    | nil => simp [he, hl]
    | cons a t => rfl

theorem eq_nil_or_snoc {α : Type} (l : List α) :
    l = [] ∨ ∃ init last, l = init ++ [last] := by
  rcases List.eq_nil_or_concat l with h | ⟨init, last, h⟩
  · exact Or.inl h
  · exact Or.inr ⟨init, last, by rw [h, List.concat_eq_append]⟩

theorem HistInv.log_le_prev {s : State} (h : HistInv s) :
    ∀ e, e ∈ s.MaxMins → e.timestamp ≤ s.prevTimestamp := by
  intro e he
  rcases eq_nil_or_snoc s.MaxMins with hn | ⟨init, last, hc⟩
  · rw [hn] at he; simp at he
  · have hl := h.log_last last (by rw [hc]; simp)
    have hs := h.log_sorted
    rw [hc] at he hs
    rw [List.pairwise_append] at hs
    rcases List.mem_append.1 he with h1 | h1
    · have := hs.2.2 e h1 last (List.mem_singleton_self _)
      omega
    · rw [List.mem_singleton.1 h1, hl]

theorem head?_map_eq_some {α β : Type} {f : α → β} {l : List α} {a : α}
    (h : l.head? = some a) : l.head?.map f = some (f a) := by
  rw [h]; rfl

/-- The history invariant after a `job` or `assign` command at time `ts`, from the shape
of the change to the log and to the registry. -/
theorem histInv_step {s s' : State} {ts : Nat} {enew : MaxMinNode} (h : HistInv s)
    (hprev : s.MaxMins ≠ [] → s.prevTimestamp ≤ ts)
    (hp' : s'.prevTimestamp = ts)
    (hlog : LogStep ts s.MaxMins s'.MaxMins enew)
    (hjobs : JobsStep ts s.jobList s'.jobList)
    (hne : s'.jobList ≠ [])
    (hwin : ∀ id, id < s'.jobList.length → (getJob s'.jobList id).qExit = 0 →
      enew.Min ≤ (getJob s'.jobList id).timestamp ∧
        (getJob s'.jobList id).timestamp ≤ enew.Max)
    (hfirst : s.MaxMins = [] → ∀ j, s'.jobList.head? = some j → j.timestamp = ts)
    (g1 : ∀ i, s'.durationHeapSize i ≤ (s'.durationHeaps i).length)
    (g2 : ∀ i, (s'.qJobList i ++ s'.staged i).Perm (idsOf s'.jobList i))
    (g3 : ∀ i id, id ∈ s'.staged i → (getJob s'.jobList id).timestamp = s'.prevTimestamp)
    (g4 : s'.totalSize = heapSizeUpTo s'.durationHeapSize 100)
    (g5 : ∀ i, SortedByTs s'.jobList (s'.qJobList i)) : HistInv s' := by
  have hold : ∀ id, id < s.jobList.length → s.prevTimestamp ≤ ts := by
    intro id hid
    apply hprev
    intro hn
    have := h.log_empty_iff.1 hn
    rw [this] at hid
    simp at hid
  have hlogle : ∀ e, e ∈ s.MaxMins → e.timestamp ≤ ts := by
    intro e he
    have := h.log_le_prev e he
    have := hprev (List.ne_nil_of_mem he)
    omega
  have hnew_mem : enew ∈ s'.MaxMins := List.mem_of_getLast?_eq_some hlog.last'
  have hfind : ∀ e0, e0 ∈ s.MaxMins → ∃ e, e ∈ s'.MaxMins ∧ e.timestamp = e0.timestamp := by
    intro e0 he0
    rcases Nat.lt_or_ge e0.timestamp ts with hlt | hge
    · exact ⟨e0, hlog.keep e0 he0 hlt, rfl⟩
    · have := hlogle e0 he0
      exact ⟨enew, hnew_mem, by rw [hlog.ts_new]; omega⟩
  have hts' : ∀ id, id < s'.jobList.length → (getJob s'.jobList id).timestamp ≤ ts := by
    intro id hid
    rcases Nat.lt_or_ge id s.jobList.length with hlt | hge
    · rw [hjobs.old_ts id hlt]
      have := h.ts_le id hlt
      have := hold id hlt
      omega
    · rw [(hjobs.new_job id hge hid).1]
  have hq' : ∀ id, id < s'.jobList.length → (getJob s'.jobList id).qExit ≤ ts := by
    intro id hid
    rcases Nat.lt_or_ge id s.jobList.length with hlt | hge
    · have := h.qexit_le id hlt
      have := hold id hlt
      rcases hjobs.old_qexit id hlt with e | ⟨-, e⟩
      · rw [e]; omega
      · rw [e]
    · rw [(hjobs.new_job id hge hid).2]; exact Nat.zero_le _
  refine ⟨g1, g2, g3, g4, g5, ?_, ?_, hlog.sorted', ?_, ?_, ?_, ?_, ?_, ?_⟩
  · rw [hp']; exact hts'
  · rw [hp']; exact hq'
  · intro e he
    rw [hlog.last'] at he
    rw [hp', ← hlog.ts_new]
    exact congrArg _ (Option.some.inj he).symm
  · constructor
    · intro hn
      rw [hn] at hnew_mem
      simp at hnew_mem
    · intro hn
      exact absurd hn hne
  · intro e he id hid hle hq
    rcases hlog.old_or_new e he with ⟨heL, helt⟩ | rfl
    · rcases Nat.lt_or_ge id s.jobList.length with hlt | hge
      · rw [hjobs.old_ts id hlt] at hle ⊢
        apply h.log_window e heL id hlt hle
        rcases hjobs.old_qexit id hlt with e1 | ⟨e1, -⟩
        · rw [e1] at hq; exact hq
        · exact Or.inl e1
      · rw [(hjobs.new_job id hge hid).1] at hle
        omega
    · apply hwin id hid
      rcases hq with hq | hq
      · exact hq
      · have := hq' id hid
        rw [hlog.ts_new] at hq
        omega
  · intro id hid
    rcases Nat.lt_or_ge id s.jobList.length with hlt | hge
    · obtain ⟨e0, he0, het⟩ := h.log_has_ts id hlt
      obtain ⟨e, he, het'⟩ := hfind e0 he0
      exact ⟨e, he, by rw [het', het, hjobs.old_ts id hlt]⟩
    · exact ⟨enew, hnew_mem, by rw [hlog.ts_new, (hjobs.new_job id hge hid).1]⟩
  · intro id hid hq
    rcases Nat.lt_or_ge id s.jobList.length with hlt | hge
    · rcases hjobs.old_qexit id hlt with e1 | ⟨-, e1⟩
      · rw [e1] at hq ⊢
        obtain ⟨e0, he0, het⟩ := h.log_has_qexit id hlt hq
        obtain ⟨e, he, het'⟩ := hfind e0 he0
        exact ⟨e, he, by rw [het', het]⟩
      · exact ⟨enew, hnew_mem, by rw [hlog.ts_new, e1]⟩
    · exact absurd (hjobs.new_job id hge hid).2 hq
  · intro e j he hj
    by_cases hL : s.MaxMins = []
    · rw [hfirst hL j hj]
      have hmem : e ∈ s'.MaxMins := List.mem_of_mem_head? he
      rcases hlog.old_or_new e hmem with ⟨heL, -⟩ | rfl
      · rw [hL] at heL; simp at heL
      · exact hlog.ts_new
    · have hjl : s.jobList ≠ [] := fun hn => hL (h.log_empty_iff.2 hn)
      have a := hlog.head' hL
      have b := hjobs.head hjl
      rw [head?_map_eq_some he] at a
      rw [head?_map_eq_some hj] at b
      cases hh : s.MaxMins.head? with
      | none => rw [hh] at a; simp at a
      | some e0 =>
        cases hj0 : s.jobList.head? with
        | none => rw [hj0] at b; simp at b
        | some j0 =>
          rw [hh] at a
          rw [hj0] at b
          simp only [Option.map_some', Option.some.injEq] at a b
          rw [a, b]
          exact h.log_first e0 j0 hh hj0

/-! ### The `job` branch keeps the history invariant -/

theorem jobFlush_spec {s : State} (ts : Nat) (h : HistInv s) :
    HistInv (jobFlush s ts) ∧ (Unstaged (jobFlush s ts) ∨ ¬ ts > s.prevTimestamp) := by
  unfold jobFlush
  split_ifs with hc
  · have := emptyOutAllDurationHeaps_spec h
    exact ⟨this.1, Or.inl this.2⟩
  · refine ⟨h, ?_⟩
    by_cases ht : ts > s.prevTimestamp
    · exact Or.inl (h.unstaged_of_total (fun hz => hc ⟨ht, hz⟩))
    · exact Or.inr ht

theorem jobAdmitted_jobList (s : State) (ts pid : Nat) (o ins : String) (imp dur : Nat) :
    (jobAdmitted s ts pid o ins imp dur).jobList =
      s.jobList ++ [Job.create s.ID pid ts o ins imp dur] := by
  unfold jobAdmitted
  simp only [(stagingOnly_jobFlush s ts).jobList, (stagingOnly_jobFlush s ts).ID]

theorem jobAdmitted_ID (s : State) (ts pid : Nat) (o ins : String) (imp dur : Nat) :
    (jobAdmitted s ts pid o ins imp dur).ID = s.ID := by
  unfold jobAdmitted
  simp only [(stagingOnly_jobFlush s ts).ID]

theorem window_of_tree {M : Nat} {s : State} (hc : CoreInv M s) :
    ∀ id, id < s.jobList.length → (getJob s.jobList id).qExit = 0 →
      getMinimum s.startTimeRoot ≤ (getJob s.jobList id).timestamp ∧
        (getJob s.jobList id).timestamp ≤ getMaximum s.startTimeRoot := by
  intro id hid hq
  have hW : id ∈ waitingIds s.jobList := mem_waitingIds.2 ⟨hid, hq⟩
  have hv : (getJob s.jobList id).timestamp ∈ s.startTimeRoot.values :=
    hc.start_perm.mem_iff.2 (List.mem_map.2 ⟨id, hW, rfl⟩)
  have hk := (mem_values_iff_mem_keys hc.start_inv.freqPos _).1 hv
  exact ⟨getMinimum_le hc.start_inv.ordered _ hk, le_getMaximum hc.start_inv.ordered _ hk⟩

theorem jobsStep_append (jl : List Job) (job : Job) (hq : job.qExit = 0) :
    JobsStep job.timestamp jl (jl ++ [job]) := by
  refine ⟨by simp, ?_, ?_, ?_, ?_⟩
  · intro id hid; rw [getJob_append_left job hid]
  · intro id hid; left; rw [getJob_append_left job hid]
  · intro id h1 h2
    have : id = jl.length := by simp at h2; omega
    subst this
    rw [getJob_append_new]
    exact ⟨rfl, hq⟩
  · intro hne
    cases jl with
    | nil => exact absurd rfl hne
    | cons a t => rfl

theorem idsOf_append (jobList : List Job) (job : Job) (i : Nat) :
    idsOf (jobList ++ [job]) i =
      idsOf jobList i ++ (if job.importance = i then [jobList.length] else []) := by
  unfold idsOf
  rw [List.length_append, List.length_singleton, List.range_succ, List.filter_append]
  congr 1
  · apply List.filter_congr
    intro id hid
    rw [getJob_append_left job (List.mem_range.1 hid)]
  · simp [List.filter_cons, getJob_append_new]

theorem sortedByTs_append {jobList : List Job} (job : Job) {v : List Nat}
    (hlt : ∀ id, id ∈ v → id < jobList.length) (h : SortedByTs jobList v) :
    SortedByTs (jobList ++ [job]) v := by
  unfold SortedByTs at *
  refine List.Pairwise.imp_of_mem ?_ h
  intro a b ha hb hab
  rw [getJob_append_left job (hlt a ha), getJob_append_left job (hlt b hb)]
  exact hab

theorem le_heapSizeUpTo (f : Nat → Nat) {i m : Nat} (h1 : 1 ≤ i) (hm : i ≤ m) :
    f i ≤ heapSizeUpTo f m := by
  induction m with
  | zero => omega
  | succ m ih =>
    unfold heapSizeUpTo
    rcases Nat.eq_or_lt_of_le hm with e | e
    · subst e; omega
    · have := ih (by omega); omega

theorem heapSizeUpTo_change_slot {f g : Nat → Nat} {i : Nat} (m : Nat) (h1 : 1 ≤ i)
    (hm : i ≤ m) (ho : ∀ j, j ≠ i → g j = f j) :
    heapSizeUpTo g m + f i = heapSizeUpTo f m + g i := by
  induction m with
  | zero => omega
  | succ m ih =>
    unfold heapSizeUpTo
    rcases Nat.eq_or_lt_of_le hm with e | e
    · subst e
      rw [heapSizeUpTo_congr m (fun j hj => ho j (by omega))]
      omega
    · rw [ho (m + 1) (by omega)]
      have := ih (by omega)
      omega

theorem logJob_step {M : Nat} {s s' : State} {ts : Nat} (h : HistInv s)
    (hprev : s.MaxMins ≠ [] → s.prevTimestamp ≤ ts)
    (hc' : CoreInv M s') (hj : JobsStep ts s.jobList s'.jobList)
    (hlog : s'.MaxMins = logJob s.MaxMins s'.startTimeRoot ts) :
    ∃ enew, LogStep ts s.MaxMins s'.MaxMins enew ∧
      ∀ id, id < s'.jobList.length → (getJob s'.jobList id).qExit = 0 →
        enew.Min ≤ (getJob s'.jobList id).timestamp ∧
          (getJob s'.jobList id).timestamp ≤ enew.Max := by
  rcases eq_nil_or_snoc s.MaxMins with hn | ⟨init, last, hcat⟩
  · rw [hn, logJob_nil] at hlog
    refine ⟨MaxMinNode.create ts ts ts, ?_, ?_⟩
    · rw [hlog, hn]
      exact logStep_append (L := []) (MaxMinNode.create ts ts ts) List.Pairwise.nil
        (fun e0 he0 => by simp at he0) rfl
    · intro id hid _
      have hjl := h.log_empty_iff.1 hn
      have := (hj.new_job id (by rw [hjl]; exact Nat.zero_le _) hid).1
      rw [this]
      exact ⟨le_refl _, le_refl _⟩
  · have hl := h.log_last last (by rw [hcat]; simp)
    have hpt := hprev (by rw [hcat]; simp)
    rw [hcat, logJob_concat] at hlog
    by_cases hlt : last.timestamp = ts
    · rw [if_pos hlt] at hlog
      refine ⟨last.updateValues ts, ?_, ?_⟩
      · rw [hlog, hcat]
        exact logStep_replace _ (by rw [← hcat]; exact h.log_sorted) hlt hlt
      · intro id hid hq
        show min last.Min ts ≤ _ ∧ _ ≤ max last.Max ts
        rcases Nat.lt_or_ge id s.jobList.length with ho | hn
        · have hq0 : (getJob s.jobList id).qExit = 0 := by
            rcases hj.old_qexit id ho with e | ⟨e, -⟩
            · rw [← e]; exact hq
            · exact e
          have := h.log_window last (by rw [hcat]; simp) id ho
            (by rw [hl]; exact h.ts_le id ho) (Or.inl hq0)
          rw [hj.old_ts id ho]
          omega
        · rw [(hj.new_job id hn hid).1]
          omega
    · rw [if_neg hlt] at hlog
      refine ⟨MaxMinNode.create (getMinimum s'.startTimeRoot) (getMaximum s'.startTimeRoot) ts,
        ?_, ?_⟩
      · rw [hlog, ← hcat]
        refine logStep_append (MaxMinNode.create (getMinimum s'.startTimeRoot)
          (getMaximum s'.startTimeRoot) ts) h.log_sorted ?_ rfl
        intro e0 he0
        have := h.log_le_prev e0 he0
        omega
      · intro id hid hq
        exact window_of_tree hc' id hid hq

theorem doJob_histInv {M : Nat} {s : State} (ts pid : Nat) (o ins : String) {imp : Nat}
    (dur : Nat) (hc : CoreInv M s) (h : HistInv s) (h1 : 1 ≤ imp) (h100 : imp ≤ 100)
    (hprev : s.MaxMins ≠ [] → s.prevTimestamp ≤ ts) :
    HistInv (doJob s ts pid o ins imp dur) := by
  have hfr := stagingOnly_jobFlush s ts
  obtain ⟨h0, hdis⟩ := jobFlush_spec ts h
  have hc0 := hfr.coreInv hc
  have hc3 := doJob_coreInv ts pid o ins dur hc h1 h100
  have hJL1 := jobAdmitted_jobList s ts pid o ins imp dur
  have hID1 := jobAdmitted_ID s ts pid o ins imp dur
  have hlen1 : (jobAdmitted s ts pid o ins imp dur).durationHeapSize imp ≤
      ((jobAdmitted s ts pid o ins imp dur).durationHeaps imp).length := h0.stage_len imp
  have htot1 : (jobAdmitted s ts pid o ins imp dur).durationHeapSize imp ≤
      (jobAdmitted s ts pid o ins imp dur).totalSize := by
    show (jobFlush s ts).durationHeapSize imp ≤ (jobFlush s ts).totalSize
    rw [h0.total]
    exact le_heapSizeUpTo _ h1 h100
  have hst := stageJob_spec (jobAdmitted s ts pid o ins imp dur)
    (jobAdmitted s ts pid o ins imp dur).ID ts imp hlen1 htot1
  have hJL3 : (doJob s ts pid o ins imp dur).jobList =
      s.jobList ++ [Job.create s.ID pid ts o ins imp dur] := doJob_jobList _ _ _ _ _ _ _
  have hp3 : (doJob s ts pid o ins imp dur).prevTimestamp = ts := doJob_prevTimestamp _ _ _ _ _ _ _
  -- the staging fields of the final state are those of the staged state
  have hq3 : (doJob s ts pid o ins imp dur).qJobList =
      (stageJob (jobAdmitted s ts pid o ins imp dur)
        (jobAdmitted s ts pid o ins imp dur).ID ts imp).qJobList := rfl
  have hst3 : ∀ j, (doJob s ts pid o ins imp dur).staged j =
      (stageJob (jobAdmitted s ts pid o ins imp dur)
        (jobAdmitted s ts pid o ins imp dur).ID ts imp).staged j := fun _ => rfl
  have hsz3 : (doJob s ts pid o ins imp dur).durationHeapSize =
      (stageJob (jobAdmitted s ts pid o ins imp dur)
        (jobAdmitted s ts pid o ins imp dur).ID ts imp).durationHeapSize := rfl
  have hhp3 : (doJob s ts pid o ins imp dur).durationHeaps =
      (stageJob (jobAdmitted s ts pid o ins imp dur)
        (jobAdmitted s ts pid o ins imp dur).ID ts imp).durationHeaps := rfl
  have htt3 : (doJob s ts pid o ins imp dur).totalSize =
      (stageJob (jobAdmitted s ts pid o ins imp dur)
        (jobAdmitted s ts pid o ins imp dur).ID ts imp).totalSize := rfl
  have hq1 : (jobAdmitted s ts pid o ins imp dur).qJobList = (jobFlush s ts).qJobList := rfl
  have hst1 : ∀ j, (jobAdmitted s ts pid o ins imp dur).staged j = (jobFlush s ts).staged j :=
    fun _ => rfl
  generalize hstd : stageJob (jobAdmitted s ts pid o ins imp dur)
    (jobAdmitted s ts pid o ins imp dur).ID ts imp = st at hst hq3 hst3 hsz3 hhp3 htt3
  obtain ⟨D, R, hqD, hDR, hstR⟩ := hst.parts
  rw [hq1] at hqD
  rw [hst1] at hDR
  have hID0 : s.ID = s.jobList.length := hc.id_eq
  have hjl0 : (jobFlush s ts).jobList = s.jobList := hfr.jobList
  -- old staged jobs force `ts` to be the previous timestamp
  have hsame : ∀ j id, id ∈ (jobFlush s ts).staged j → s.prevTimestamp = ts := by
    intro j id hid
    have hm := h0.mem_staged_lt hid
    have hr := hc0.imp_range id hm.1
    rw [hm.2] at hr
    have hnz : (jobFlush s ts).staged j ≠ [] := List.ne_nil_of_mem hid
    have hle : ¬ ts > s.prevTimestamp := by
      rcases hdis with hu | hle
      · exact absurd (staged_eq_nil hc0 h0 hu j) hnz
      · exact hle
    have hne : s.MaxMins ≠ [] := by
      intro hn
      have := h.log_empty_iff.1 hn
      rw [hjl0, this] at hm
      simp at hm
    have := hprev hne
    omega
  have hj : JobsStep ts (jobFlush s ts).jobList (doJob s ts pid o ins imp dur).jobList := by
    rw [hJL3, hjl0]
    exact jobsStep_append s.jobList (Job.create s.ID pid ts o ins imp dur) rfl
  obtain ⟨enew, hlog, hwin⟩ := @logJob_step M (jobFlush s ts)
    (doJob s ts pid o ins imp dur) ts h0
    (by rw [hfr.MaxMins, hfr.prevTimestamp]; exact hprev) hc3 hj
    (by rw [doJob_MaxMins, doJob_startTimeRoot, hfr.MaxMins])
  apply histInv_step h0 (by rw [hfr.MaxMins, hfr.prevTimestamp]; exact hprev) hp3 hlog hj
    (by rw [hJL3]; simp) hwin
  · intro hn j hjh
    have hjn : s.jobList = [] := by
      rw [hfr.MaxMins] at hn
      exact h.log_empty_iff.1 hn
    rw [hJL3, hjn] at hjh
    simp only [List.nil_append, List.head?_cons, Option.some.injEq] at hjh
    rw [← hjh]; rfl
  · intro j
    rw [hsz3, hhp3]
    by_cases e : j = imp
    · subst e; exact hst.size_le
    · rw [hst.size_other j e, hst.heap_other j e]; exact h0.stage_len j
  · intro j
    rw [hJL3, idsOf_append, hq3, hst3]
    have hold := h0.bucket_perm j
    rw [hjl0] at hold
    by_cases e : j = imp
    · subst e
      rw [if_pos (show (Job.create s.ID pid ts o ins j dur).importance = j from rfl), hqD]
      have p1 : ((jobFlush s ts).qJobList j ++ D ++ st.staged j).Perm
          ((jobFlush s ts).qJobList j ++ D ++ (s.ID :: R)) := by
        apply List.Perm.append_left
        rw [← hID1]; exact hstR
      refine p1.trans ?_
      have p2 : ((jobFlush s ts).qJobList j ++ D ++ (s.ID :: R)).Perm
          (((jobFlush s ts).qJobList j ++ (D ++ R)) ++ [s.ID]) := by
        rw [List.append_assoc, List.append_assoc]
        apply List.Perm.append_left
        exact (List.perm_middle).trans (List.perm_append_singleton _ _).symm
      refine p2.trans ?_
      rw [← hID0]
      apply List.Perm.append_right
      exact (List.Perm.append_left _ hDR).trans hold
    · have e' : ¬ (Job.create s.ID pid ts o ins imp dur).importance = j := fun x => e x.symm
      rw [if_neg e', List.append_nil, hst.bucket_other j e]
      have : st.staged j = (jobFlush s ts).staged j := by
        unfold State.staged
        rw [hst.size_other j e, hst.heap_other j e]
        rfl
      rw [this]
      exact hold
  · intro j id hid
    rw [hp3, hJL3]
    rw [hst3] at hid
    have hold : ∀ x, x ∈ (jobFlush s ts).staged j →
        (getJob (s.jobList ++ [Job.create s.ID pid ts o ins imp dur]) x).timestamp = ts := by
      intro x hx
      have hm := h0.mem_staged_lt hx
      rw [hjl0] at hm
      rw [getJob_append_left _ hm.1]
      have := h0.staged_ts j x hx
      rw [hjl0, hfr.prevTimestamp] at this
      rw [this]
      exact hsame j x hx
    by_cases e : j = imp
    · subst e
      rcases List.mem_cons.1 (hstR.mem_iff.1 hid) with hnew | hR
      · rw [hnew, hID1, hID0, getJob_append_new]; rfl
      · exact hold id (hDR.mem_iff.1 (List.mem_append_right _ hR))
    · have : st.staged j = (jobFlush s ts).staged j := by
        unfold State.staged
        rw [hst.size_other j e, hst.heap_other j e]
        rfl
      rw [this] at hid
      exact hold id hid
  · rw [htt3, hsz3]
    have a := hst.total
    have b : (jobAdmitted s ts pid o ins imp dur).totalSize
        = heapSizeUpTo (jobFlush s ts).durationHeapSize 100 := h0.total
    have c := heapSizeUpTo_change_slot (f := (jobFlush s ts).durationHeapSize)
      (g := st.durationHeapSize) 100 h1 h100 hst.size_other
    have d : (jobAdmitted s ts pid o ins imp dur).durationHeapSize imp
        = (jobFlush s ts).durationHeapSize imp := rfl
    omega
  · intro j
    rw [hJL3, hq3]
    have hsorted := h0.bucket_sorted j
    rw [hjl0] at hsorted
    have hlt : ∀ id, id ∈ (jobFlush s ts).qJobList j → id < s.jobList.length := by
      intro id hid
      have := (h0.mem_bucket_lt hid).1
      rwa [hjl0] at this
    by_cases e : j = imp
    · subst e
      rw [hqD]
      have hD : ∀ x, x ∈ D → x ∈ (jobFlush s ts).staged j :=
        fun x hx => hDR.mem_iff.1 (List.mem_append_left _ hx)
      have hltD : ∀ x, x ∈ D → x < s.jobList.length := by
        intro x hx
        have := (h0.mem_staged_lt (hD x hx)).1
        rwa [hjl0] at this
      apply sortedByTs_append
      · intro id hid
        rcases List.mem_append.1 hid with hid | hid
        · exact hlt id hid
        · exact hltD id hid
      · unfold SortedByTs at hsorted ⊢
        rw [List.pairwise_append]
        refine ⟨hsorted, ?_, ?_⟩
        · rw [List.pairwise_iff_forall_sublist]
          intro a b hab
          have ha := hD a (hab.subset (List.mem_cons_self _ _))
          have hb := hD b (hab.subset (List.mem_cons_of_mem _ (List.mem_singleton_self _)))
          have := h0.staged_ts j a ha
          have := h0.staged_ts j b hb
          rw [hjl0] at *
          omega
        · intro a ha b hb
          have h2 := h0.staged_ts j b (hD b hb)
          have h3 := h0.ts_le a (by rw [hjl0]; exact hlt a ha)
          rw [hjl0] at h2 h3
          omega
    · rw [hst.bucket_other j e, hq1]
      exact sortedByTs_append _ hlt hsorted

/-! ### The assignment loop and the history invariant -/

theorem assigned_refl (ts : Nat) (s : State) : Assigned ts s s :=
  ⟨rfl, rfl, rfl, rfl, rfl, rfl, rfl, fun _ => rfl, fun _ => rfl, fun _ => rfl,
    fun _ => Or.inl rfl⟩

theorem assigned_chain {ts : Nat} {a b c : State} (h1 : Assigned ts a b)
    (h2 : Assigned ts b c) : Assigned ts a c := by
  refine ⟨h2.durationHeaps.trans h1.durationHeaps,
    h2.durationHeapSize.trans h1.durationHeapSize, h2.qJobList.trans h1.qJobList,
    h2.totalSize.trans h1.totalSize, h2.prevTimestamp.trans h1.prevTimestamp,
    h2.MaxMins.trans h1.MaxMins, h2.len.trans h1.len,
    fun id => (h2.same_ts id).trans (h1.same_ts id),
    fun id => (h2.same_imp id).trans (h1.same_imp id),
    fun id => (h2.same_origin id).trans (h1.same_origin id), ?_⟩
  intro id
  rcases h1.qexit id with e1 | ⟨e1, e1'⟩
  · rcases h2.qexit id with e2 | ⟨e2, e2'⟩
    · left; rw [e2, e1]
    · right; exact ⟨by rw [← e1]; exact e2, e2'⟩
  · rcases h2.qexit id with e2 | ⟨e2, e2'⟩
    · right; exact ⟨e1, by rw [e2, e1']⟩
    · right; exact ⟨e1, e2'⟩

theorem assigned_assignOne {M : Nat} {s : State} (ts : Nat) {i : Nat} (h : CoreInv M s)
    (hsz : 1 ≤ s.jobHeapSize i) : Assigned ts s (assignOne s ts i).1 := by
  have hmem := assignOne_id_mem ts h hsz
  have hmemW := (h.heap_perm i).mem_iff.1 hmem
  obtain ⟨hidlt, -, hq⟩ := mem_waitingOf.1 hmemW
  have hjl := assignOne_jobList s ts i
  generalize (assignOne s ts i).2 = id at hjl hidlt hq
  have hget : ∀ k, getJob (assignOne s ts i).1.jobList k =
      if k = id then { getJob s.jobList id with qExit := ts } else getJob s.jobList k := by
    intro k
    rw [hjl]
    split_ifs with e
    · rw [e]; exact getJob_setQExit_self ts hidlt
    · exact getJob_setQExit_of_ne _ ts (Ne.symm e)
  refine ⟨rfl, rfl, rfl, rfl, rfl, rfl, ?_, ?_, ?_, ?_, ?_⟩
  · rw [hjl, length_setQExit]
  · intro k; rw [hget]; split_ifs with e
    · rw [e]
    · rfl
  · intro k; rw [hget]; split_ifs with e
    · rw [e]
    · rfl
  · intro k; rw [hget]; split_ifs with e
    · rw [e]
    · rfl
  · intro k; rw [hget]; split_ifs with e
    · right; rw [e]; exact ⟨hq, rfl⟩
    · left; rfl

theorem assigned_assignBatch {M : Nat} {ts i : Nat} (n : Nat) {s : State} (out : List Nat)
    (h : CoreInv M s) (hsz : n ≤ s.jobHeapSize i) (hts : 0 < ts)
    (hav : n ≤ s.cpuTreeRoot.sumFreqLE ts) :
    Assigned ts s (assignBatch ts i n s out).1 := by
  induction n generalizing s out with
  | zero => exact assigned_refl ts s
  | succ n ih =>
    unfold assignBatch
    simp only
    obtain ⟨h1, h2⟩ := assignOne_coreInv h (show 1 ≤ s.jobHeapSize i by omega) hts
      (show 0 < s.cpuTreeRoot.sumFreqLE ts by omega)
    have hs := assignOne_jobHeapSize s ts i (by omega) i
    rw [if_pos rfl] at hs
    exact assigned_chain (assigned_assignOne ts h (by omega))
      (ih _ h1 (by rw [hs]; omega) (by omega))

theorem assigned_assignLoop {M : Nat} {ts K : Nat} (m sel : Nat) {s : State} (out : List Nat)
    (h : CoreInv M s) (hts : 0 < ts) (hav : K - sel ≤ s.cpuTreeRoot.sumFreqLE ts) :
    Assigned ts s (assignLoop ts K m sel s out).1 := by
  induction m generalizing sel s out with
  | zero => exact assigned_refl ts s
  | succ m ih =>
    rw [assignLoop_succ]
    split_ifs with h1 h2
    · exact ih sel out h hav
    · obtain ⟨h3, h4⟩ := assignBatch_coreInv (min (K - sel) (s.jobHeapSize (m + 1))) out h
        (Nat.min_le_right _ _) hts (le_trans (Nat.min_le_left _ _) hav)
      have ha := assigned_assignBatch (min (K - sel) (s.jobHeapSize (m + 1))) out h
        (Nat.min_le_right _ _) hts (le_trans (Nat.min_le_left _ _) hav)
      refine assigned_chain ha (ih _ _ h3 ?_)
      have := Nat.min_le_left (K - sel) (s.jobHeapSize (m + 1))
      omega
    · exact assigned_refl ts s

theorem assignFlush_spec {s : State} (h : HistInv s) :
    HistInv (if s.totalSize > 0 then emptyOutAllDurationHeaps s else s) ∧
      Unstaged (if s.totalSize > 0 then emptyOutAllDurationHeaps s else s) := by
  split_ifs with hz
  · exact emptyOutAllDurationHeaps_spec h
  · exact ⟨h, h.unstaged_of_total hz⟩

theorem assignJobs_assigned {M : Nat} {s : State} {ts : Nat} (K : Nat) (h : CoreInv M s)
    (hts : 0 < ts) :
    Assigned ts { (if s.totalSize > 0 then emptyOutAllDurationHeaps s else s) with
      prevTimestamp := ts } (assignJobs s ts K).1 := by
  rw [assignJobs_eq]
  have hf := stagingOnly_assignFlush s
  have h0 := hf.coreInv h
  have h1 : CoreInv M { (if s.totalSize > 0 then emptyOutAllDurationHeaps s else s) with
      prevTimestamp := ts } := coreInv_congr h0 rfl rfl rfl rfl rfl rfl
  apply assigned_assignLoop 100 0 [] h1 hts
  show _ ≤ CPUNode.sumFreqLE (if s.totalSize > 0 then emptyOutAllDurationHeaps s else s).cpuTreeRoot ts
  rw [getValuesLessThanEqualTo_eq ts h0.cpu_inv.ordered h0.cpu_inv.sizeOK]
  have := Nat.min_le_left (CPUNode.sumFreqLE
    (if s.totalSize > 0 then emptyOutAllDurationHeaps s else s).cpuTreeRoot ts) K
  omega

theorem idsOf_congr {jl jl' : List Job} (hlen : jl'.length = jl.length)
    (himp : ∀ id, (getJob jl' id).importance = (getJob jl id).importance) (i : Nat) :
    idsOf jl' i = idsOf jl i := by
  unfold idsOf
  rw [hlen]
  apply List.filter_congr
  intro id _
  rw [himp]

theorem sortedByTs_congr {jl jl' : List Job}
    (hts : ∀ id, (getJob jl' id).timestamp = (getJob jl id).timestamp) {v : List Nat}
    (h : SortedByTs jl v) : SortedByTs jl' v := by
  unfold SortedByTs at h ⊢
  refine h.imp ?_
  intro a b hab
  rw [hts, hts]
  exact hab

theorem jobsStep_of_assigned {ts : Nat} {jl jl' : List Job}
    (hlen : jl'.length = jl.length)
    (hts : ∀ id, (getJob jl' id).timestamp = (getJob jl id).timestamp)
    (hq : ∀ id, (getJob jl' id).qExit = (getJob jl id).qExit ∨
      ((getJob jl id).qExit = 0 ∧ (getJob jl' id).qExit = ts)) :
    JobsStep ts jl jl' := by
  refine ⟨by omega, fun id _ => hts id, fun id _ => hq id, ?_, ?_⟩
  · intro id h1 h2; omega
  · intro hne
    cases jl with
    | nil => exact absurd rfl hne
    | cons a l =>
      cases jl' with
      | nil => simp at hlen
      | cons b l' =>
        have := hts 0
        simp only [getJob, List.getD_cons_zero] at this
        simp [this]

theorem doAssign_histInv {M : Nat} {s : State} {ts K : Nat} {r : State × List Nat}
    (hc : CoreInv M s) (h : HistInv s) (hts : 0 < ts)
    (hprev : s.MaxMins ≠ [] → s.prevTimestamp ≤ ts) (hr : doAssign s ts K = .ok r) :
    HistInv r.1 := by
  obtain ⟨log, hlog, hre⟩ := doAssign_ok hr
  have hfr := stagingOnly_assignFlush s
  obtain ⟨h0, hun⟩ := assignFlush_spec h
  have hc0 := hfr.coreInv hc
  have ha := assignJobs_assigned K hc hts
  have hc2 := assignJobs_coreInv K hc hts
  generalize (if s.totalSize > 0 then emptyOutAllDurationHeaps s else s) = sF at hfr h0 hun hc0 ha
  generalize assignJobs s ts K = aj at hlog hre ha hc2
  have hsz : aj.1.durationHeapSize = sF.durationHeapSize := ha.durationHeapSize
  have hhp : aj.1.durationHeaps = sF.durationHeaps := ha.durationHeaps
  have hq : aj.1.qJobList = sF.qJobList := ha.qJobList
  have htot : aj.1.totalSize = sF.totalSize := ha.totalSize
  have hpt : aj.1.prevTimestamp = ts := ha.prevTimestamp
  have hmm : aj.1.MaxMins = sF.MaxMins := ha.MaxMins
  have hlen : aj.1.jobList.length = sF.jobList.length := ha.len
  have hst : ∀ i, aj.1.staged i = [] := by
    intro i
    have := staged_eq_nil hc0 h0 hun i
    unfold State.staged at this ⊢
    rw [hsz, hhp]; exact this
  have hj : JobsStep ts sF.jobList aj.1.jobList :=
    jobsStep_of_assigned hlen ha.same_ts ha.qexit
  rw [hre]
  rw [hmm] at hlog
  rcases eq_nil_or_snoc sF.MaxMins with hn | ⟨init, last, hcat⟩
  · rw [hn, logAssign_nil] at hlog
    exact Outcome.noConfusion hlog
  have hne0 : sF.jobList ≠ [] := by
    intro e
    have := h0.log_empty_iff.2 e
    rw [hcat] at this
    simp at this
  have hl := h0.log_last last (by rw [hcat]; simp)
  have hpr : sF.prevTimestamp ≤ ts := by
    rw [hfr.prevTimestamp]
    apply hprev
    rw [← hfr.MaxMins, hcat]; simp
  have hwin : ∀ id, id < aj.1.jobList.length → (getJob aj.1.jobList id).qExit = 0 →
      (if aj.1.startTimeRoot = .nil then 1 else getMinimum aj.1.startTimeRoot) ≤
          (getJob aj.1.jobList id).timestamp ∧
        (getJob aj.1.jobList id).timestamp ≤
          (if aj.1.startTimeRoot = .nil then 0 else getMaximum aj.1.startTimeRoot) := by
    intro id hid hq0
    by_cases hnil : aj.1.startTimeRoot = .nil
    · exfalso
      have hW : id ∈ waitingIds aj.1.jobList := mem_waitingIds.2 ⟨hid, hq0⟩
      have hv : (getJob aj.1.jobList id).timestamp ∈ aj.1.startTimeRoot.values :=
        hc2.start_perm.mem_iff.2 (List.mem_map.2 ⟨id, hW, rfl⟩)
      rw [hnil] at hv
      simp [CPUNode.values] at hv
    · rw [if_neg hnil, if_neg hnil]
      exact window_of_tree hc2 id hid hq0
  rw [hcat, logAssign_concat] at hlog
  simp only [Outcome.ok.injEq] at hlog
  have hstep : LogStep ts sF.MaxMins log
      (MaxMinNode.create (if aj.1.startTimeRoot = .nil then 1 else getMinimum aj.1.startTimeRoot)
        (if aj.1.startTimeRoot = .nil then 0 else getMaximum aj.1.startTimeRoot) ts) := by
    by_cases hlt : last.timestamp = ts
    · rw [if_pos hlt] at hlog
      rw [← hlog, hcat]
      exact logStep_replace _ (by rw [← hcat]; exact h0.log_sorted) hlt rfl
    · rw [if_neg hlt] at hlog
      rw [← hlog, ← hcat]
      refine logStep_append _ h0.log_sorted ?_ rfl
      intro e0 he0
      have := h0.log_le_prev e0 he0
      rcases Nat.lt_or_ge e0.timestamp ts with c | c
      · exact c
      · exfalso
        have e1 : e0.timestamp = sF.prevTimestamp := by omega
        have hs := h0.log_sorted
        rw [hcat] at hs he0
        rw [List.pairwise_append] at hs
        rcases List.mem_append.1 he0 with hi | hi
        · have := hs.2.2 e0 hi last (List.mem_singleton_self _)
          omega
        · rw [List.mem_singleton.1 hi] at e1 c
          omega
  refine histInv_step h0 (fun _ => hpr) hpt hstep hj ?_ hwin ?_ ?_ ?_ ?_ ?_ ?_
  · intro e
    apply hne0
    have : sF.jobList.length = 0 := by rw [← hlen]; exact List.length_eq_zero.2 e
    exact List.length_eq_zero.1 this
  · intro e; rw [hcat] at e; simp at e
  · intro i
    show aj.1.durationHeapSize i ≤ (aj.1.durationHeaps i).length
    rw [hsz, hhp]; exact h0.stage_len i
  · intro i
    show (aj.1.qJobList i ++ aj.1.staged i).Perm (idsOf aj.1.jobList i)
    rw [idsOf_congr hlen ha.same_imp, hst, hq]
    have := h0.bucket_perm i
    rw [staged_eq_nil hc0 h0 hun i] at this
    exact this
  · intro i id hid
    have : id ∈ aj.1.staged i := hid
    rw [hst] at this
    simp at this
  · show aj.1.totalSize = heapSizeUpTo aj.1.durationHeapSize 100
    rw [htot, hsz]; exact h0.total
  · intro i
    show SortedByTs aj.1.jobList (aj.1.qJobList i)
    rw [hq]
    exact sortedByTs_congr ha.same_ts (h0.bucket_sorted i)

/-! ### The history invariant along a run -/

theorem queryFlush_spec {s : State} (T : Nat) (h : HistInv s) :
    HistInv (queryFlush s T) ∧ (Unstaged (queryFlush s T) ∨ T < s.prevTimestamp) := by
  unfold queryFlush
  split_ifs with hz
  · exact ⟨(emptyOutAllDurationHeaps_spec h).1, Or.inl (emptyOutAllDurationHeaps_spec h).2⟩
  · refine ⟨h, ?_⟩
    by_cases ht : T ≥ s.prevTimestamp
    · left
      apply h.unstaged_of_total
      intro hp
      exact hz ⟨ht, hp⟩
    · right; omega

theorem histInv_initState (M p0 : Nat) : HistInv (initState M p0) := by
  constructor
  · intro i; simp [initState]
  · intro i; simp [initState, State.staged, idsOf]
  · intro i id hid; simp [initState, State.staged] at hid
  · show 0 = heapSizeUpTo (fun _ => 0) 100
    symm
    exact (heapSizeUpTo_eq_zero_iff _ _).2 (fun _ _ _ => rfl)
  · intro i; exact List.Pairwise.nil
  · intro id hid; simp [initState] at hid
  · intro id hid; simp [initState] at hid
  · exact List.Pairwise.nil
  · intro e he; simp [initState] at he
  · simp [initState]
  · intro e he; simp [initState] at he
  · intro id hid; simp [initState] at hid
  · intro id hid; simp [initState] at hid
  · intro e j he; simp [initState] at he

theorem doAssign_prevTimestamp {M : Nat} {s : State} {ts K : Nat} {r : State × List Nat}
    (hc : CoreInv M s) (hts : 0 < ts) (hr : doAssign s ts K = .ok r) :
    r.1.prevTimestamp = ts := by
  obtain ⟨log, -, hre⟩ := doAssign_ok hr
  rw [hre]
  exact (assignJobs_assigned K hc hts).prevTimestamp

theorem step_histInv {M : Nat} {s : State} {c : Cmd} {cs : List Cmd} {prev : Nat}
    {r : State × List Nat} (hc : CoreInv M s) (h : HistInv s)
    (hclk : s.MaxMins ≠ [] → s.prevTimestamp ≤ prev)
    (hw : wellFormedFrom prev (c :: cs) = true) (hr : step s c = .ok r) :
    HistInv r.1 ∧ ∃ prev', wellFormedFrom prev' cs = true ∧
      (r.1.MaxMins ≠ [] → r.1.prevTimestamp ≤ prev') := by
  cases c with
  | job ts pid o ins imp dur =>
    simp only [wellFormedFrom, Bool.and_eq_true, decide_eq_true_eq] at hw
    simp only [step, Outcome.ok.injEq] at hr
    subst hr
    refine ⟨doJob_histInv ts pid o ins dur hc h hw.1.1.2 hw.1.2
      (fun hne => le_trans (hclk hne) hw.1.1.1), ts, hw.2, fun _ => ?_⟩
    rw [doJob_prevTimestamp]
  | assign ts K =>
    simp only [wellFormedFrom, Bool.and_eq_true, decide_eq_true_eq] at hw
    simp only [step] at hr
    refine ⟨doAssign_histInv hc h hw.1.2 (fun hne => le_trans (hclk hne) hw.1.1) hr,
      ts, hw.2, fun _ => ?_⟩
    rw [doAssign_prevTimestamp hc hw.1.2 hr]
  | queryTopK ts K =>
    simp only [step] at hr
    cases hl : printHistory_TOPK (queryFlush s ts) ts K with
    | ok out =>
      rw [hl] at hr
      simp only [Outcome.bind, Outcome.ok.injEq] at hr
      subst hr
      refine ⟨(queryFlush_spec ts h).1, prev, hw, ?_⟩
      show (queryFlush s ts).MaxMins ≠ [] → (queryFlush s ts).prevTimestamp ≤ prev
      rw [(stagingOnly_queryFlush s ts).MaxMins, (stagingOnly_queryFlush s ts).prevTimestamp]
      exact hclk
    | oob => rw [hl] at hr; simp [Outcome.bind] at hr
    | fuel => rw [hl] at hr; simp [Outcome.bind] at hr
  | queryOrigin ts origin =>
    simp only [step] at hr
    cases hl : printHistory_Origin (queryFlush s ts) ts origin with
    | ok out =>
      rw [hl] at hr
      simp only [Outcome.bind, Outcome.ok.injEq] at hr
      subst hr
      refine ⟨(queryFlush_spec ts h).1, prev, hw, ?_⟩
      show (queryFlush s ts).MaxMins ≠ [] → (queryFlush s ts).prevTimestamp ≤ prev
      rw [(stagingOnly_queryFlush s ts).MaxMins, (stagingOnly_queryFlush s ts).prevTimestamp]
      exact hclk
    | oob => rw [hl] at hr; simp [Outcome.bind] at hr
    | fuel => rw [hl] at hr; simp [Outcome.bind] at hr

theorem runFrom_histInv {M : Nat} {cmds : List Cmd} {prev : Nat} {s : State}
    {out : List Nat} {r : State × List Nat} (hc : CoreInv M s) (h : HistInv s)
    (hclk : s.MaxMins ≠ [] → s.prevTimestamp ≤ prev)
    (hw : wellFormedFrom prev cmds = true) (hr : runFrom s out cmds = .ok r) :
    HistInv r.1 := by
  induction cmds generalizing prev s out with
  | nil =>
    simp only [runFrom, Outcome.ok.injEq] at hr
    subst hr; exact h
  | cons c cs ih =>
    obtain ⟨hs, -⟩ := sane_of_wellFormedFrom hw
    simp only [runFrom] at hr
    cases hst : step s c with
    | ok r1 =>
      rw [hst] at hr
      obtain ⟨h1, prev', hw', hclk'⟩ := step_histInv hc h hclk hw hst
      exact ih (step_coreInv hc hs hst) h1 hclk' hw' hr
    | oob => rw [hst] at hr; simp [Outcome.bind] at hr
    | fuel => rw [hst] at hr; simp [Outcome.bind] at hr

theorem run_histInv {M p0 : Nat} {cmds : List Cmd} {r : State × List Nat}
    (hw : WellFormed cmds) (hr : run M p0 cmds = .ok r) : HistInv r.1 :=
  runFrom_histInv (coreInv_initState M p0) (histInv_initState M p0)
    (fun hne => absurd rfl hne) hw hr

/-! ### The log entry found for a query time -/

theorem log_index {L : List MaxMinNode}
    (h : L.Pairwise fun a b => a.timestamp < b.timestamp) :
    ∀ i j, i < j → j < L.length → logTsAt L i < logTsAt L j := by
  intro i j hij hj
  have := (List.pairwise_iff_getElem.1 h) i j (by omega) hj hij
  unfold logTsAt
  rwa [List.getD_eq_getElem _ _ (show i < L.length by omega), List.getD_eq_getElem _ _ hj]

theorem nearbyEntry_spec {s : State} {T : Nat}
    (hs : s.MaxMins.Pairwise fun a b => a.timestamp < b.timestamp)
    (hne : s.MaxMins ≠ []) (hT : logTsAt s.MaxMins 0 ≤ T) :
    ∃ e, nearbyEntry s T = .ok e ∧ e ∈ s.MaxMins ∧ e.timestamp ≤ T ∧
      ∀ e1, e1 ∈ s.MaxMins → e1.timestamp ≤ T → e1.timestamp ≤ e.timestamp := by
  have hpos : 0 < s.MaxMins.length := List.length_pos.2 hne
  have hidx := log_index hs
  obtain ⟨r, hr, -, hr2, hr3, hr4⟩ := doBinarySearchMaxMins_spec s.MaxMins T hidx
    (s.MaxMins.length + 1) 0 (s.MaxMins.length - 1) (Nat.zero_le _) (by omega) (by omega) hT
    (by intro i h1 h2; omega)
  have hrl : r < s.MaxMins.length := by omega
  refine ⟨s.MaxMins.getD r default, ?_, ?_, hr3, ?_⟩
  · unfold nearbyEntry
    rw [llPred_of_pos hpos, hr]
    simp only [Outcome.bind]
    exact readAt_of_lt hrl
  · rw [List.getD_eq_getElem _ _ hrl]
    exact List.getElem_mem _
  · intro e1 he1 hle
    obtain ⟨i, hi, rfl⟩ := List.getElem_of_mem he1
    have e : s.MaxMins[i].timestamp = logTsAt s.MaxMins i := by
      unfold logTsAt
      rw [List.getD_eq_getElem _ _ hi]
    rw [e] at hle ⊢
    show _ ≤ logTsAt s.MaxMins r
    rcases Nat.lt_trichotomy i r with c | c | c
    · exact Nat.le_of_lt (hidx i r c hrl)
    · rw [c]
    · have := hr4 i c hi
      omega

/-- Every job waiting at `T` lies in the window of the log entry found for `T`. -/
theorem HistInv.window_at {s : State} (h : HistInv s) {T : Nat} {e : MaxMinNode}
    (he : e ∈ s.MaxMins) (heT : e.timestamp ≤ T)
    (hmax : ∀ e1, e1 ∈ s.MaxMins → e1.timestamp ≤ T → e1.timestamp ≤ e.timestamp)
    {id : Nat} (hid : id < s.jobList.length) (hw : waitingAtId s.jobList T id = true) :
    e.Min ≤ (getJob s.jobList id).timestamp ∧ (getJob s.jobList id).timestamp ≤ e.Max := by
  unfold waitingAtId Job.waitingAt at hw
  simp only [decide_eq_true_eq] at hw
  obtain ⟨e1, he1, ht1⟩ := h.log_has_ts id hid
  have h1 := hmax e1 he1 (by omega)
  apply h.log_window e he id hid (by omega)
  by_cases hq : (getJob s.jobList id).qExit = 0
  · exact Or.inl hq
  · right
    obtain ⟨e2, he2, ht2⟩ := h.log_has_qexit id hid hq
    omega

theorem filter_eq_nil_of_window {s : State} (h : HistInv s) {T : Nat} {e : MaxMinNode}
    (he : e ∈ s.MaxMins) (heT : e.timestamp ≤ T)
    (hmax : ∀ e1, e1 ∈ s.MaxMins → e1.timestamp ≤ T → e1.timestamp ≤ e.timestamp)
    (hsent : e.Max < e.Min) (q : Nat → Bool)
    (hq : ∀ id, q id = true → waitingAtId s.jobList T id = true) (m : Nat) :
    (bucketsFrom s.qJobList m).filter q = [] := by
  induction m with
  | zero => rfl
  | succ m ih =>
    simp only [bucketsFrom, List.filter_append, ih, List.append_nil]
    rw [List.filter_eq_nil_iff]
    intro id hid hqid
    have := h.window_at he heT hmax (h.mem_bucket_lt hid).1 (hq id hqid)
    omega

theorem printHistory_Origin_eq {s : State} (h : HistInv s) {T : Nat} (origin : String)
    (hne : s.MaxMins ≠ []) (hT : logTsAt s.MaxMins 0 ≤ T) :
    printHistory_Origin s T origin =
      .ok ((bucketsFrom s.qJobList 100).filter (waitingFromAt s.jobList T origin)) := by
  obtain ⟨e, hfind, he, heT, hmax⟩ := nearbyEntry_spec h.log_sorted hne hT
  unfold printHistory_Origin
  rw [hfind]
  simp only [Outcome.bind]
  split_ifs with hsent
  · rw [filter_eq_nil_of_window h he heT hmax hsent]
    intro id hq
    simp only [waitingFromAt, Bool.and_eq_true] at hq
    exact hq.1
  · rw [originLoop_eq origin 100 [] (fun i _ _ => h.bucket_sorted i)
      (fun i _ _ id hid hw => h.window_at he heT hmax (h.mem_bucket_lt hid).1 hw)]
    rfl

theorem printHistory_TOPK_eq {s : State} (h : HistInv s) {T : Nat} (K : Nat)
    (hne : s.MaxMins ≠ []) (hT : logTsAt s.MaxMins 0 ≤ T) :
    printHistory_TOPK s T K =
      .ok (((bucketsFrom s.qJobList 100).filter (waitingAtId s.jobList T)).take K) := by
  obtain ⟨e, hfind, he, heT, hmax⟩ := nearbyEntry_spec h.log_sorted hne hT
  unfold printHistory_TOPK
  rw [hfind]
  simp only [Outcome.bind]
  split_ifs with hsent
  · rw [filter_eq_nil_of_window h he heT hmax hsent _ (fun id hq => hq), List.take_nil]
  · rw [topKLoop_eq 100 0 [] (fun i _ _ => h.bucket_sorted i)
      (fun i _ _ id hid hw => h.window_at he heT hmax (h.mem_bucket_lt hid).1 hw)]
    rfl

/-! ### The buckets after the flush of a query -/

theorem mem_bucketsFrom {q : Nat → List Nat} {m id : Nat} :
    id ∈ bucketsFrom q m ↔ ∃ i, 1 ≤ i ∧ i ≤ m ∧ id ∈ q i := by
  induction m with
  | zero =>
    simp only [bucketsFrom, List.not_mem_nil, false_iff]
    rintro ⟨i, h1, h2, -⟩
    omega
  | succ m ih =>
    simp only [bucketsFrom, List.mem_append, ih]
    constructor
    · rintro (h | ⟨i, h1, h2, h3⟩)
      · exact ⟨m + 1, by omega, le_refl _, h⟩
      · exact ⟨i, h1, by omega, h3⟩
    · rintro ⟨i, h1, h2, h3⟩
      rcases Nat.eq_or_lt_of_le h2 with e | e
      · left; rw [← e]; exact h3
      · right; exact ⟨i, h1, by omega, h3⟩

theorem nodup_idsOf (jobList : List Job) (i : Nat) : (idsOf jobList i).Nodup :=
  (List.nodup_range _).filter _

theorem HistInv.nodup_buckets {s : State} (h : HistInv s) (m : Nat) :
    (bucketsFrom s.qJobList m).Nodup := by
  induction m with
  | zero => exact List.nodup_nil
  | succ m ih =>
    simp only [bucketsFrom]
    rw [List.nodup_append]
    refine ⟨?_, ih, ?_⟩
    · have := (h.bucket_perm (m + 1)).nodup_iff.2 (nodup_idsOf _ _)
      exact (List.nodup_append.1 this).1
    · intro id h1 h2
      obtain ⟨i, -, hi, hm⟩ := mem_bucketsFrom.1 h2
      have a := (h.mem_bucket_lt h1).2
      have b := (h.mem_bucket_lt hm).2
      omega

theorem mem_waitingAtIds {jobList : List Job} {T id : Nat} :
    id ∈ waitingAtIds jobList T ↔ id < jobList.length ∧
      (getJob jobList id).timestamp ≤ T ∧
      ((getJob jobList id).qExit = 0 ∨ T < (getJob jobList id).qExit) := by
  unfold waitingAtIds waitingAtId Job.waitingAt
  simp only [List.mem_filter, List.mem_range, decide_eq_true_eq]
  tauto

/-- After the flush of a `query T`, a job is waiting at `T` and listed in a bucket exactly
when it belongs to the waiting set at `T`. -/
theorem mem_buckets_waiting {M : Nat} {s : State} {T : Nat} (hc : CoreInv M s)
    (h : HistInv s) (id : Nat) :
    (id ∈ bucketsFrom (queryFlush s T).qJobList 100 ∧ waitingAtId s.jobList T id = true) ↔
      id ∈ waitingAtIds s.jobList T := by
  have hfr := stagingOnly_queryFlush s T
  obtain ⟨h', hdis⟩ := queryFlush_spec T h
  have hc' := hfr.coreInv hc
  have hjl : (queryFlush s T).jobList = s.jobList := hfr.jobList
  unfold waitingAtIds
  rw [List.mem_filter, List.mem_range]
  constructor
  · rintro ⟨h1, h2⟩
    obtain ⟨i, -, -, hi⟩ := mem_bucketsFrom.1 h1
    have := (h'.mem_bucket_lt hi).1
    rw [hjl] at this
    exact ⟨this, h2⟩
  · rintro ⟨h1, h2⟩
    refine ⟨?_, h2⟩
    have hr := hc.imp_range id h1
    have hmem : id ∈ idsOf (queryFlush s T).jobList (getJob s.jobList id).importance := by
      rw [hjl]; exact mem_idsOf.2 ⟨h1, rfl⟩
    rcases List.mem_append.1 ((h'.bucket_perm _).mem_iff.2 hmem) with hb | hst
    · exact mem_bucketsFrom.2 ⟨_, hr.1, hr.2, hb⟩
    · exfalso
      rcases hdis with hu | hlt
      · rw [staged_eq_nil hc' h' hu] at hst
        simp at hst
      · have := h'.staged_ts _ _ hst
        rw [hjl, hfr.prevTimestamp] at this
        unfold waitingAtId Job.waitingAt at h2
        simp only [decide_eq_true_eq] at h2
        omega

theorem HistInv.log_ne_nil {s : State} (h : HistInv s) (hne : s.jobList ≠ []) :
    s.MaxMins ≠ [] := fun e => hne (h.log_empty_iff.1 e)

theorem HistInv.first_le {s : State} (h : HistInv s) (hne : s.jobList ≠ []) {T : Nat}
    (hT : (getJob s.jobList 0).timestamp ≤ T) : logTsAt s.MaxMins 0 ≤ T := by
  have hl := h.log_ne_nil hne
  cases hL : s.MaxMins with
  | nil => exact absurd hL hl
  | cons e L =>
    cases hJ : s.jobList with
    | nil => exact absurd hJ hne
    | cons j J =>
      have := h.log_first e j (by rw [hL]; rfl) (by rw [hJ]; rfl)
      rw [hJ] at hT
      simp only [getJob, List.getD_cons_zero] at hT
      show (List.getD (e :: L) 0 default).timestamp ≤ T
      rw [List.getD_cons_zero, this]
      exact hT

/-! ### Closed form of a query command -/

theorem runFrom_snoc (s : State) (out : List Nat) (cs : List Cmd) (c : Cmd) :
    runFrom s out (cs ++ [c]) =
      (runFrom s out cs).bind fun r => (step r.1 c).bind fun r' => .ok (r'.1, r.2 ++ r'.2) := by
  induction cs generalizing s out with
  | nil =>
    simp only [List.nil_append, runFrom, Outcome.bind]
  | cons d ds ih =>
    simp only [List.cons_append, runFrom]
    cases step s d with
    | ok r1 => simp only [Outcome.bind]; exact ih _ _
    | oob => rfl
    | fuel => rfl

theorem run_snoc {M p0 : Nat} {cmds : List Cmd} {c : Cmd} {r r' : State × List Nat}
    (hr : run M p0 cmds = .ok r) (hs : step r.1 c = .ok r') :
    run M p0 (cmds ++ [c]) = .ok (r'.1, r.2 ++ r'.2) := by
  unfold run at hr ⊢
  rw [runFrom_snoc, hr]
  simp only [Outcome.bind]
  rw [hs]

theorem step_queryOrigin_eq {s : State} {T : Nat} (origin : String)
    (h : HistInv s) (hne : 0 < s.jobList.length)
    (hT : (getJob s.jobList 0).timestamp ≤ T) :
    step s (.queryOrigin T origin) = .ok (queryFlush s T,
      (bucketsFrom (queryFlush s T).qJobList 100).filter (waitingFromAt s.jobList T origin)) := by
  have hfr := stagingOnly_queryFlush s T
  have h' := (queryFlush_spec T h).1
  have hne' : s.jobList ≠ [] := List.length_pos.1 hne
  have e := printHistory_Origin_eq h' (T := T) origin
    (by rw [hfr.MaxMins]; exact h.log_ne_nil hne')
    (by rw [hfr.MaxMins]; exact h.first_le hne' hT)
  simp only [step]
  rw [e, hfr.jobList]
  rfl

theorem step_queryTopK_eq {s : State} {T : Nat} (K : Nat)
    (h : HistInv s) (hne : 0 < s.jobList.length)
    (hT : (getJob s.jobList 0).timestamp ≤ T) :
    step s (.queryTopK T K) = .ok (queryFlush s T,
      ((bucketsFrom (queryFlush s T).qJobList 100).filter (waitingAtId s.jobList T)).take K) := by
  have hfr := stagingOnly_queryFlush s T
  have h' := (queryFlush_spec T h).1
  have hne' : s.jobList ≠ [] := List.length_pos.1 hne
  have e := printHistory_TOPK_eq h' (T := T) K
    (by rw [hfr.MaxMins]; exact h.log_ne_nil hne')
    (by rw [hfr.MaxMins]; exact h.first_le hne' hT)
  simp only [step]
  rw [e, hfr.jobList]
  rfl

theorem waiting_buckets_perm {M : Nat} {s : State} (T : Nat) (hc : CoreInv M s)
    (h : HistInv s) :
    ((bucketsFrom (queryFlush s T).qJobList 100).filter (waitingAtId s.jobList T)).Perm
      (waitingAtIds s.jobList T) := by
  have h' := (queryFlush_spec T h).1
  refine (List.perm_ext_iff_of_nodup ((h'.nodup_buckets 100).filter _)
    ((List.nodup_range _).filter _)).2 ?_
  intro id
  rw [List.mem_filter]
  exact mem_buckets_waiting hc h id

/-! ## Claims about the historical queries -/

/-- C1: after a well-formed command sequence that admitted at least one job, a following
`query T origin` with `T` not earlier than the first admitted timestamp succeeds, and the
jobs printed by `printHistory_Origin` are exactly the admitted jobs with `timestamp ≤ T`,
`qExit = 0` or `qExit > T`, and `originSystem = origin`, each printed once. -/
theorem origin_query_emits_exactly_waiting (M p0 : Nat) (cmds : List Cmd) (T : Nat)
    (origin : String) (r : State × List Nat) (hw : WellFormed cmds)
    (hr : run M p0 cmds = .ok r) (hne : 0 < r.1.jobList.length)
    (hT : (getJob r.1.jobList 0).timestamp ≤ T) :
    ∃ out, printHistory_Origin (queryFlush r.1 T) T origin = .ok out ∧
      run M p0 (cmds ++ [.queryOrigin T origin]) = .ok (queryFlush r.1 T, r.2 ++ out) ∧
      out.Nodup ∧
      ∀ id, id ∈ out ↔ (id < r.1.jobList.length ∧ (getJob r.1.jobList id).timestamp ≤ T ∧
        ((getJob r.1.jobList id).qExit = 0 ∨ T < (getJob r.1.jobList id).qExit) ∧
        (getJob r.1.jobList id).originSystem = origin) := by
  have hc := run_coreInv hw hr
  have h := run_histInv hw hr
  have hfr := stagingOnly_queryFlush r.1 T
  have h' := (queryFlush_spec T h).1
  have hne' : r.1.jobList ≠ [] := List.length_pos.1 hne
  have e := printHistory_Origin_eq h' (T := T) origin
    (by rw [hfr.MaxMins]; exact h.log_ne_nil hne')
    (by rw [hfr.MaxMins]; exact h.first_le hne' hT)
  rw [hfr.jobList] at e
  refine ⟨_, e, run_snoc hr (step_queryOrigin_eq origin h hne hT),
    (h'.nodup_buckets 100).filter _, ?_⟩
  intro id
  rw [List.mem_filter]
  have hm := mem_buckets_waiting (T := T) hc h id
  rw [mem_waitingAtIds] at hm
  unfold waitingFromAt
  rw [Bool.and_eq_true, decide_eq_true_eq, ← and_assoc]
  have hm' : (id ∈ bucketsFrom (queryFlush r.1 T).qJobList 100 ∧
      (getJob r.1.jobList id).waitingAt T = true) ↔ _ := hm
  rw [hm']
  tauto

set_option maxRecDepth 100000 in
/-- Witness of C1: the query `query 1 sysA` of scenario S5 after its three `job` lines. -/
theorem origin_query_emits_exactly_waiting_witness :
    ∃ out, printHistory_Origin (queryFlush (resultOf (run 2 0 scenarioS5Jobs)).1 1) 1 "sysA"
        = .ok out ∧
      run 2 0 (scenarioS5Jobs ++ [.queryOrigin 1 "sysA"]) =
        .ok (queryFlush (resultOf (run 2 0 scenarioS5Jobs)).1 1,
          (resultOf (run 2 0 scenarioS5Jobs)).2 ++ out) ∧
      out.Nodup ∧
      ∀ id, id ∈ out ↔ (id < (resultOf (run 2 0 scenarioS5Jobs)).1.jobList.length ∧
        (getJob (resultOf (run 2 0 scenarioS5Jobs)).1.jobList id).timestamp ≤ 1 ∧
        ((getJob (resultOf (run 2 0 scenarioS5Jobs)).1.jobList id).qExit = 0 ∨
          1 < (getJob (resultOf (run 2 0 scenarioS5Jobs)).1.jobList id).qExit) ∧
        (getJob (resultOf (run 2 0 scenarioS5Jobs)).1.jobList id).originSystem = "sysA") :=
  origin_query_emits_exactly_waiting 2 0 scenarioS5Jobs 1 "sysA"
    (resultOf (run 2 0 scenarioS5Jobs)) (by rfl) (by rfl) (by decide) (by decide)

/-- C2: after a well-formed command sequence that admitted at least one job, a following
`query T K` with `T` not earlier than the first admitted timestamp succeeds and prints
exactly `min(K, |W|)` job lines, where `W` is the set of admitted jobs with
`timestamp ≤ T` and `qExit = 0` or `qExit > T`; every printed job belongs to `W` and no
job is printed twice. -/
theorem topK_query_emits_min_K_waiting (M p0 : Nat) (cmds : List Cmd) (T K : Nat)
    (r : State × List Nat) (hw : WellFormed cmds)
    (hr : run M p0 cmds = .ok r) (hne : 0 < r.1.jobList.length)
    (hT : (getJob r.1.jobList 0).timestamp ≤ T) :
    ∃ out, printHistory_TOPK (queryFlush r.1 T) T K = .ok out ∧
      run M p0 (cmds ++ [.queryTopK T K]) = .ok (queryFlush r.1 T, r.2 ++ out) ∧
      out.length = min K (waitingAtIds r.1.jobList T).length ∧
      (∀ id, id ∈ out → id ∈ waitingAtIds r.1.jobList T) ∧ out.Nodup := by
  have hc := run_coreInv hw hr
  have h := run_histInv hw hr
  have hfr := stagingOnly_queryFlush r.1 T
  have h' := (queryFlush_spec T h).1
  have hne' : r.1.jobList ≠ [] := List.length_pos.1 hne
  have e := printHistory_TOPK_eq h' (T := T) K
    (by rw [hfr.MaxMins]; exact h.log_ne_nil hne')
    (by rw [hfr.MaxMins]; exact h.first_le hne' hT)
  rw [hfr.jobList] at e
  have hp := waiting_buckets_perm T hc h
  refine ⟨_, e, run_snoc hr (step_queryTopK_eq K h hne hT), ?_, ?_, ?_⟩
  · rw [List.length_take, hp.length_eq]
  · intro id hid
    exact hp.mem_iff.1 (List.mem_of_mem_take hid)
  · exact ((h'.nodup_buckets 100).filter _).sublist (List.take_sublist _ _)

set_option maxRecDepth 100000 in
/-- Witness of C2: the query `query 2 2` of scenario S4 after its first three lines. -/
theorem topK_query_emits_min_K_waiting_witness :
    ∃ out, printHistory_TOPK (queryFlush (resultOf (run 1 0 scenarioS4Cmds)).1 2) 2 2
        = .ok out ∧
      run 1 0 (scenarioS4Cmds ++ [.queryTopK 2 2]) =
        .ok (queryFlush (resultOf (run 1 0 scenarioS4Cmds)).1 2,
          (resultOf (run 1 0 scenarioS4Cmds)).2 ++ out) ∧
      out.length = min 2 (waitingAtIds (resultOf (run 1 0 scenarioS4Cmds)).1.jobList 2).length ∧
      (∀ id, id ∈ out → id ∈ waitingAtIds (resultOf (run 1 0 scenarioS4Cmds)).1.jobList 2) ∧
      out.Nodup :=
  topK_query_emits_min_K_waiting 1 0 scenarioS4Cmds 2 2
    (resultOf (run 1 0 scenarioS4Cmds)) (by rfl) (by rfl) (by decide) (by decide)

/-! ### A query at `T` and at the floor of `T` in the log -/

theorem mem_loggedTimestamps {L : List MaxMinNode} {t : Nat} :
    t ∈ loggedTimestamps L ↔ ∃ e, e ∈ L ∧ e.timestamp = t := by
  unfold loggedTimestamps
  rw [List.mem_map]

theorem waitingAt_floor {s : State} (h : HistInv s) {T F : Nat} (hFT : F ≤ T)
    (hmax : ∀ t, t ∈ loggedTimestamps s.MaxMins → t ≤ T → t ≤ F) {id : Nat}
    (hid : id < s.jobList.length) :
    waitingAtId s.jobList T id = waitingAtId s.jobList F id := by
  unfold waitingAtId Job.waitingAt
  rw [decide_eq_decide]
  obtain ⟨e1, he1, ht1⟩ := h.log_has_ts id hid
  have m1 := hmax _ (mem_loggedTimestamps.2 ⟨e1, he1, ht1⟩)
  by_cases hq : (getJob s.jobList id).qExit = 0
  · constructor
    · rintro ⟨a, -⟩; exact ⟨m1 a, Or.inr hq⟩
    · rintro ⟨a, -⟩; exact ⟨by omega, Or.inr hq⟩
  · obtain ⟨e2, he2, ht2⟩ := h.log_has_qexit id hid hq
    have m2 := hmax _ (mem_loggedTimestamps.2 ⟨e2, he2, ht2⟩)
    constructor
    · rintro ⟨a, b⟩
      refine ⟨m1 a, Or.inl ?_⟩
      rcases b with b | b
      · omega
      · exact absurd b hq
    · rintro ⟨a, b⟩
      refine ⟨by omega, Or.inl ?_⟩
      rcases b with b | b
      · by_contra hc
        have := m2 (by omega)
        omega
      · exact absurd b hq

theorem queryFlush_floor {s : State} (h : HistInv s) {T F : Nat}
    (hF : F ∈ loggedTimestamps s.MaxMins) (hFT : F ≤ T)
    (hmax : ∀ t, t ∈ loggedTimestamps s.MaxMins → t ≤ T → t ≤ F) :
    queryFlush s F = queryFlush s T := by
  obtain ⟨e, he, -⟩ := mem_loggedTimestamps.1 hF
  rcases eq_nil_or_snoc s.MaxMins with hn | ⟨init, last, hcat⟩
  · rw [hn] at he; simp at he
  have hl := h.log_last last (by rw [hcat]; simp)
  have hp : T ≥ s.prevTimestamp → F ≥ s.prevTimestamp := by
    intro hT
    have := hmax last.timestamp (mem_loggedTimestamps.2 ⟨last, by rw [hcat]; simp, rfl⟩)
      (by omega)
    omega
  unfold queryFlush
  by_cases c : T ≥ s.prevTimestamp ∧ s.totalSize > 0
  · rw [if_pos c, if_pos ⟨hp c.1, c.2⟩]
  · rw [if_neg c, if_neg (fun d => c ⟨by omega, d.2⟩)]

theorem first_le_of_logged {L : List MaxMinNode}
    (hs : L.Pairwise fun a b => a.timestamp < b.timestamp) {F : Nat}
    (hF : F ∈ loggedTimestamps L) : L ≠ [] ∧ logTsAt L 0 ≤ F := by
  obtain ⟨e, he, rfl⟩ := mem_loggedTimestamps.1 hF
  refine ⟨List.ne_nil_of_mem he, ?_⟩
  obtain ⟨i, hi, rfl⟩ := List.getElem_of_mem he
  have e : L[i].timestamp = logTsAt L i := by
    unfold logTsAt
    rw [List.getD_eq_getElem _ _ hi]
  rw [e]
  rcases Nat.eq_zero_or_pos i with c | c
  · rw [c]
  · exact Nat.le_of_lt (log_index hs 0 i c hi)

/-- C4: in a state reached by a well-formed command sequence, let `F` be the largest
timestamp of the Timestamp-Summary Log that is at most `T` (so `T` is not earlier than the
first logged timestamp).  Then `query T K` succeeds, and `query F K` gives the same result:
the same printed sequence and the same state. -/
theorem query_between_timestamps_equals_floor (M p0 : Nat) (cmds : List Cmd) (T F K : Nat)
    (r : State × List Nat) (hw : WellFormed cmds) (hr : run M p0 cmds = .ok r)
    (hF : F ∈ loggedTimestamps r.1.MaxMins) (hFT : F ≤ T)
    (hmax : ∀ t, t ∈ loggedTimestamps r.1.MaxMins → t ≤ T → t ≤ F) :
    (∃ out, step r.1 (.queryTopK T K) = .ok (queryFlush r.1 T, out)) ∧
      step r.1 (.queryTopK F K) = step r.1 (.queryTopK T K) := by
  have h := run_histInv hw hr
  have hfr := stagingOnly_queryFlush r.1 T
  have h' := (queryFlush_spec T h).1
  obtain ⟨hne, hfirst⟩ := first_le_of_logged h.log_sorted hF
  have eT := printHistory_TOPK_eq h' (T := T) K (by rw [hfr.MaxMins]; exact hne)
    (by rw [hfr.MaxMins]; omega)
  have eF := printHistory_TOPK_eq h' (T := F) K (by rw [hfr.MaxMins]; exact hne)
    (by rw [hfr.MaxMins]; exact hfirst)
  have hcongr : (bucketsFrom (queryFlush r.1 T).qJobList 100).filter
        (waitingAtId (queryFlush r.1 T).jobList F) =
      (bucketsFrom (queryFlush r.1 T).qJobList 100).filter
        (waitingAtId (queryFlush r.1 T).jobList T) := by
    apply List.filter_congr
    intro id hid
    obtain ⟨i, -, -, hi⟩ := mem_bucketsFrom.1 hid
    exact (waitingAt_floor h' hFT (by rw [hfr.MaxMins]; exact hmax)
      (h'.mem_bucket_lt hi).1).symm
  constructor
  · refine ⟨((bucketsFrom (queryFlush r.1 T).qJobList 100).filter
      (waitingAtId (queryFlush r.1 T).jobList T)).take K, ?_⟩
    simp only [step]
    rw [eT]
    rfl
  · simp only [step]
    rw [queryFlush_floor h hF hFT hmax, eT, eF, hcongr]

set_option maxRecDepth 100000 in
/-- Witness of C4: after jobs at 1 and 5 and an assign at 9, `query 7 2` equals
`query 5 2`. -/
theorem query_between_timestamps_equals_floor_witness :
    (∃ out, step (resultOf (run 1 0 scenarioGap)).1 (.queryTopK 7 2) =
        .ok (queryFlush (resultOf (run 1 0 scenarioGap)).1 7, out)) ∧
      step (resultOf (run 1 0 scenarioGap)).1 (.queryTopK 5 2) =
        step (resultOf (run 1 0 scenarioGap)).1 (.queryTopK 7 2) :=
  query_between_timestamps_equals_floor 1 0 scenarioGap 7 5 2
    (resultOf (run 1 0 scenarioGap)) (by rfl) (by rfl) (by decide) (by decide) (by decide)

set_option maxRecDepth 100000 in
/-- C3, evaluation at the failing input: the input
`cpus 1; job 5 1 sysA x 50 10; query 5 1; job 5 2 sysA y 50 3; query 5 2` is well formed
and prints the jobs 0, 0, 1: the last query prints job 0 (duration 10) before job 1
(duration 3), although both are waiting at time 5 and job 1 has the higher priority under
`hasHigherPriority`. -/
theorem topK_query_order_broken_by_flush :
    WellFormed scenarioFlushOrder ∧
      ∃ s, run 1 0 scenarioFlushOrder = .ok (s, [0, 0, 1]) ∧
        waitingAtIds s.jobList 5 = [0, 1] ∧
        hasHigherPriority s.jobList 1 0 = true ∧
        step (resultOf (run 1 0 (scenarioFlushOrder.take 3))).1 (.queryTopK 5 2) =
          .ok (s, [0, 1]) :=
  ⟨by rfl, (resultOf (run 1 0 scenarioFlushOrder)).1, by rfl, by rfl, by rfl, by rfl⟩

/-! ### `job` and `assign` commands succeed once a job was admitted -/

theorem doAssign_total {M : Nat} {s : State} {ts : Nat} (K : Nat) (hc : CoreInv M s)
    (hts : 0 < ts) (hne : s.MaxMins ≠ []) : ∃ r, doAssign s ts K = .ok r := by
  have ha := assignJobs_assigned K hc hts
  have hmm : (assignJobs s ts K).1.MaxMins = s.MaxMins := by
    rw [ha.MaxMins]
    exact (stagingOnly_assignFlush s).MaxMins
  rcases eq_nil_or_snoc s.MaxMins with hn | ⟨init, last, hcat⟩
  · exact absurd hn hne
  · simp only [doAssign]
    rw [hmm, hcat, logAssign_concat]
    exact ⟨_, rfl⟩

theorem step_stamped_ok {M : Nat} {s : State} {c : Cmd} {ts : Nat} (hc : CoreInv M s)
    (h : HistInv s) (hs : c.sane) (hst : c.stamp = some ts)
    (hjob : c.isJob = true ∨ 0 < s.jobList.length) :
    ∃ r, step s c = .ok r ∧ r.1.prevTimestamp = ts ∧ 0 < r.1.jobList.length := by
  cases c with
  | job t pid o ins imp dur =>
    simp only [Cmd.stamp, Option.some.injEq] at hst
    subst hst
    refine ⟨_, rfl, doJob_prevTimestamp _ _ _ _ _ _ _, ?_⟩
    show 0 < (doJob s t pid o ins imp dur).jobList.length
    rw [doJob_jobList]
    simp
  | assign t K =>
    simp only [Cmd.stamp, Option.some.injEq] at hst
    subst hst
    have hlen : 0 < s.jobList.length := by
      rcases hjob with hj | hj
      · exact absurd hj (by simp [Cmd.isJob])
      · exact hj
    obtain ⟨r, hr⟩ := doAssign_total K hc hs (h.log_ne_nil (List.length_pos.1 hlen))
    refine ⟨r, hr, doAssign_prevTimestamp hc hs hr, ?_⟩
    obtain ⟨log, -, hre⟩ := doAssign_ok hr
    rw [hre]
    show 0 < (assignJobs s t K).1.jobList.length
    rw [(assignJobs_assigned K hc hs).len]
    show 0 < (if s.totalSize > 0 then emptyOutAllDurationHeaps s else s).jobList.length
    rw [(stagingOnly_assignFlush s).jobList]
    exact hlen
  | queryTopK t K => simp [Cmd.stamp] at hst
  | queryOrigin t o => simp [Cmd.stamp] at hst

/-! ## Claims about the log and the buckets -/

/-- C11: when a well-formed sequence continues with a `job` or `assign` command of
timestamp `ts`, and a job has been admitted before or the command is itself a `job`, the
command succeeds and afterwards the timestamps of the entries of `MaxMins` are strictly
increasing from first to last and the last entry's timestamp is `ts`. -/
theorem log_strictly_increasing_and_current (M p0 : Nat) (cmds : List Cmd) (c : Cmd)
    (ts : Nat) (r : State × List Nat) (hw : WellFormed (cmds ++ [c]))
    (hr : run M p0 cmds = .ok r) (hst : c.stamp = some ts)
    (hjob : c.isJob = true ∨ 0 < r.1.jobList.length) :
    ∃ r', step r.1 c = .ok r' ∧
      (r'.1.MaxMins.Pairwise fun a b => a.timestamp < b.timestamp) ∧
      ∃ e, r'.1.MaxMins.getLast? = some e ∧ e.timestamp = ts := by
  obtain ⟨hw0, hs⟩ := wellFormedFrom_append hw
  have hc := run_coreInv hw0 hr
  have h := run_histInv hw0 hr
  obtain ⟨r', hstep, hpt, hlen⟩ := step_stamped_ok hc h hs hst hjob
  have h' := run_histInv hw (run_snoc hr hstep)
  have h'' : HistInv r'.1 := h'
  refine ⟨r', hstep, h''.log_sorted, ?_⟩
  rcases eq_nil_or_snoc r'.1.MaxMins with hn | ⟨init, last, hcat⟩
  · exact absurd hn (h''.log_ne_nil (List.length_pos.1 hlen))
  · have hl : r'.1.MaxMins.getLast? = some last := by rw [hcat]; simp
    exact ⟨last, hl, (h''.log_last last hl).trans hpt⟩

set_option maxRecDepth 100000 in
/-- Witness of C11: the `assign 3 2` of scenario S1 after its two `job` lines. -/
theorem log_strictly_increasing_and_current_witness :
    ∃ r', step (resultOf (run 2 0 (scenarioS1.take 2))).1 (.assign 3 2) = .ok r' ∧
      (r'.1.MaxMins.Pairwise fun a b => a.timestamp < b.timestamp) ∧
      ∃ e, r'.1.MaxMins.getLast? = some e ∧ e.timestamp = 3 :=
  log_strictly_increasing_and_current 2 0 (scenarioS1.take 2) (.assign 3 2) 3
    (resultOf (run 2 0 (scenarioS1.take 2))) (by rfl) (by rfl) (by rfl)
    (Or.inr (by decide))

/-- C13: in every state reached by a well-formed command sequence, the arrival timestamps
of the jobs listed in each bucket `qJobList[i]` are non-decreasing along the list, and
every job still staged in `durationHeaps[i]` has a timestamp not smaller than that of the
last element of `qJobList[i]` (in fact of every element). -/
theorem buckets_sorted_by_arrival (M p0 : Nat) (cmds : List Cmd) (r : State × List Nat)
    (hw : WellFormed cmds) (hr : run M p0 cmds = .ok r) (i : Nat) :
    ((r.1.qJobList i).Pairwise fun a b =>
        (getJob r.1.jobList a).timestamp ≤ (getJob r.1.jobList b).timestamp) ∧
      (∀ id, id ∈ r.1.staged i → ∀ last, (r.1.qJobList i).getLast? = some last →
        (getJob r.1.jobList last).timestamp ≤ (getJob r.1.jobList id).timestamp) ∧
      ∀ id, id ∈ r.1.staged i → ∀ b, b ∈ r.1.qJobList i →
        (getJob r.1.jobList b).timestamp ≤ (getJob r.1.jobList id).timestamp := by
  have h := run_histInv hw hr
  have hall : ∀ id, id ∈ r.1.staged i → ∀ b, b ∈ r.1.qJobList i →
      (getJob r.1.jobList b).timestamp ≤ (getJob r.1.jobList id).timestamp := by
    intro id hid b hb
    rw [h.staged_ts i id hid]
    exact h.ts_le b (h.mem_bucket_lt hb).1
  refine ⟨h.bucket_sorted i, ?_, hall⟩
  intro id hid last hl
  exact hall id hid last (List.mem_of_getLast?_eq_some hl)

set_option maxRecDepth 100000 in
/-- Witness of C13: two arrivals of importance 50; bucket 50 holds job 0 and job 1 is
staged. -/
theorem buckets_sorted_by_arrival_witness :
    (resultOf (run 1 0 scenarioTwoArrivals)).1.qJobList 50 = [0] ∧
      (resultOf (run 1 0 scenarioTwoArrivals)).1.staged 50 = [1] ∧
      ∀ id, id ∈ (resultOf (run 1 0 scenarioTwoArrivals)).1.staged 50 →
        ∀ last, ((resultOf (run 1 0 scenarioTwoArrivals)).1.qJobList 50).getLast? = some last →
          (getJob (resultOf (run 1 0 scenarioTwoArrivals)).1.jobList last).timestamp ≤
            (getJob (resultOf (run 1 0 scenarioTwoArrivals)).1.jobList id).timestamp :=
  ⟨by rfl, by rfl, (buckets_sorted_by_arrival 1 0 scenarioTwoArrivals
    (resultOf (run 1 0 scenarioTwoArrivals)) (by rfl) (by rfl) 50).2.1⟩

/-! ## Claims about the priority order -/

/-- C19: `hasHigherPriority` is a strict weak order on the jobs of `jobList`: it is
irreflexive and transitive; two jobs are incomparable exactly when they agree on
importance, timestamp and duration, and incomparability is transitive; and
`hasHigherPriority(a, b)` holds exactly when `(b.importance, a.timestamp, a.duration)` is
lexicographically smaller than `(a.importance, b.timestamp, b.duration)`. -/
theorem hasHigherPriority_strict_weak_order (jobList : List Job) :
    (∀ a, hasHigherPriority jobList a a = false) ∧
    (∀ a b c, hasHigherPriority jobList a b = true → hasHigherPriority jobList b c = true →
      hasHigherPriority jobList a c = true) ∧
    (∀ a b, (hasHigherPriority jobList a b = false ∧ hasHigherPriority jobList b a = false) ↔
      ((getJob jobList a).importance = (getJob jobList b).importance ∧
        (getJob jobList a).timestamp = (getJob jobList b).timestamp ∧
        (getJob jobList a).duration = (getJob jobList b).duration)) ∧
    (∀ a b c,
      (hasHigherPriority jobList a b = false ∧ hasHigherPriority jobList b a = false) →
      (hasHigherPriority jobList b c = false ∧ hasHigherPriority jobList c b = false) →
      (hasHigherPriority jobList a c = false ∧ hasHigherPriority jobList c a = false)) ∧
    (∀ a b, hasHigherPriority jobList a b = true ↔
      Prod.Lex (· < ·) (Prod.Lex (· < ·) (· < ·))
        ((getJob jobList b).importance, (getJob jobList a).timestamp,
          (getJob jobList a).duration)
        ((getJob jobList a).importance, (getJob jobList b).timestamp,
          (getJob jobList b).duration)) := by
  refine ⟨?_, ?_, ?_, ?_, ?_⟩
  · intro a
    unfold hasHigherPriority
    rw [Job.higher_eq_false_iff]
    omega
  · intro a b c h1 h2
    unfold hasHigherPriority at *
    rw [Job.higher_iff] at *
    omega
  · intro a b
    unfold hasHigherPriority
    rw [Job.higher_eq_false_iff, Job.higher_eq_false_iff]
    omega
  · intro a b c h1 h2
    unfold hasHigherPriority at *
    rw [Job.higher_eq_false_iff, Job.higher_eq_false_iff] at *
    omega
  · intro a b
    unfold hasHigherPriority
    rw [Job.higher_iff, Prod.lex_def, Prod.lex_def]
    simp only
    constructor
    · rintro (h | ⟨h1, h2⟩)
      · exact Or.inl h
      · exact Or.inr ⟨h1.symm, h2⟩
    · rintro (h | ⟨h1, h2⟩)
      · exact Or.inl h
      · exact Or.inr ⟨h1.symm, h2⟩

/-! ### The uninitialised `prevTimestamp` does not matter once a job arrives -/

theorem jobFlush_initState (M p0 ts : Nat) :
    jobFlush (initState M p0) ts = initState M p0 := by
  unfold jobFlush
  rw [if_neg]
  rintro ⟨-, h⟩
  exact absurd h (by simp [initState])

theorem doJob_initState (M p0 ts pid : Nat) (o ins : String) (imp dur : Nat) :
    doJob (initState M p0) ts pid o ins imp dur = doJob (initState M 0) ts pid o ins imp dur := by
  unfold doJob jobAdmitted
  rw [jobFlush_initState, jobFlush_initState]
  rfl

theorem run_job_first (M p0 ts pid : Nat) (o ins : String) (imp dur : Nat) (cs : List Cmd) :
    run M p0 (.job ts pid o ins imp dur :: cs) = run M 0 (.job ts pid o ins imp dur :: cs) := by
  unfold run
  simp only [runFrom, step, Outcome.bind]
  rw [doJob_initState]

set_option maxRecDepth 100000 in
theorem scenarioS4_lines (p0 : Nat) :
    printedLines (run 1 p0 scenarioS4) =
      [(2, 2, "sysB", "y", 80, 10), (2, 2, "sysB", "y", 80, 10), (1, 1, "sysA", "x", 50, 10)] := by
  unfold scenarioS4
  rw [run_job_first]
  rfl

set_option maxRecDepth 100000 in
theorem scenarioS4_assign_lines (p0 : Nat) :
    printedLines (run 1 p0 (scenarioS4.take 3)) = [(2, 2, "sysB", "y", 80, 10)] := by
  unfold scenarioS4
  rw [List.take_succ_cons, run_job_first]
  rfl

/-! ## Claims about the scenarios -/

/-- C18, counterexample: whatever the initial value of `prevTimestamp`, the complete
output of scenario S4 is not the two lines `job 2 2 sysB y 80 10`, `job 1 1 sysA x 50 10`. -/
theorem scenarioS4_output_is_not_two_lines :
    ¬ ∃ p0, printedLines (run 1 p0 scenarioS4) =
      [(2, 2, "sysB", "y", 80, 10), (1, 1, "sysA", "x", 50, 10)] := by
  rintro ⟨p0, h⟩
  rw [scenarioS4_lines] at h
  have := congrArg List.length h
  simp at this

/-- C18, amended: the complete output of scenario S4 is three lines: the line
`job 2 2 sysB y 80 10` printed by `assign 3 1` (the whole output up to and including the
assign), followed by the two lines `job 2 2 sysB y 80 10` and `job 1 1 sysA x 50 10`
printed by `query 2 2`. -/
theorem scenarioS4_output (p0 : Nat) :
    printedLines (run 1 p0 scenarioS4) =
        [(2, 2, "sysB", "y", 80, 10), (2, 2, "sysB", "y", 80, 10),
          (1, 1, "sysA", "x", 50, 10)] ∧
      printedLines (run 1 p0 (scenarioS4.take 3)) = [(2, 2, "sysB", "y", 80, 10)] :=
  ⟨scenarioS4_lines p0, scenarioS4_assign_lines p0⟩

/-! ## Evaluations at inputs on which the program leaves a vector -/

theorem queryFlush_initState (M p0 T : Nat) :
    queryFlush (initState M p0) T = initState M p0 := by
  unfold queryFlush
  rw [if_neg]
  rintro ⟨-, h⟩
  exact absurd h (by simp [initState])

theorem nearbyEntry_of_empty {s : State} (h : s.MaxMins = []) (T : Nat) :
    nearbyEntry s T = .oob := by
  unfold nearbyEntry
  rw [h]
  rfl

/-- C15, evaluation at the failing input: whatever the number of CPUs and the initial
`prevTimestamp`, a query (top-K or origin) issued right after `cpus M` reads
`MaxMins[MaxMins.size()-1]` on the empty log: an access outside the vector. -/
theorem query_before_admission_reads_outside (M p0 T K : Nat) (origin : String) :
    step (initState M p0) (.queryTopK T K) = .oob ∧
      step (initState M p0) (.queryOrigin T origin) = .oob ∧
      run M p0 [.queryTopK T K] = .oob ∧ run M p0 [.queryOrigin T origin] = .oob := by
  have e1 : step (initState M p0) (.queryTopK T K) = .oob := by
    simp only [step, queryFlush_initState]
    unfold printHistory_TOPK
    rw [nearbyEntry_of_empty rfl]
    rfl
  have e2 : step (initState M p0) (.queryOrigin T origin) = .oob := by
    simp only [step, queryFlush_initState]
    unfold printHistory_Origin
    rw [nearbyEntry_of_empty rfl]
    rfl
  refine ⟨e1, e2, ?_, ?_⟩
  · unfold run
    simp only [runFrom]
    rw [e1]
    rfl
  · unfold run
    simp only [runFrom]
    rw [e2]
    rfl

set_option maxRecDepth 100000 in
/-- C16, evaluation at the failing input: after `cpus 1` and `job 5 1 sysA x 50 10`, a
query for time 3 (top-K or origin) makes `doBinarySearchMaxMins` recurse with
`right = mid - 1` at `mid = 0` and read `MaxMins[2^64 - 1]`: an access outside the
vector. -/
theorem query_before_first_timestamp_reads_outside (p0 : Nat) :
    run 1 p0 (scenarioOneJob ++ [.queryTopK 3 1]) = .oob ∧
      run 1 p0 (scenarioOneJob ++ [.queryOrigin 3 "sysA"]) = .oob ∧
      doBinarySearchMaxMins (resultOf (run 1 p0 scenarioOneJob)).1.MaxMins 3 2 0 0 = .oob := by
  unfold scenarioOneJob
  simp only [List.singleton_append]
  rw [run_job_first, run_job_first 1 p0, run_job_first 1 p0]
  exact ⟨by rfl, by rfl, by rfl⟩

set_option maxRecDepth 100000 in
/-- C14, evaluation at the failing input: the input
`cpus 1; job 5 1 sysA x 50 10; query 5 1; job 5 2 sysA y 50 3; query 5 2` is well formed
and leaves bucket 50 as `[0, 1]`: two consecutive entries with the same timestamp 5 whose
durations are 10 and then 3. -/
theorem bucket_duration_order_broken_by_flush :
    WellFormed scenarioFlushOrder ∧
      ∃ r, run 1 0 scenarioFlushOrder = .ok r ∧ r.1.qJobList 50 = [0, 1] ∧
        (getJob r.1.jobList 0).timestamp = (getJob r.1.jobList 1).timestamp ∧
        (getJob r.1.jobList 0).duration = 10 ∧ (getJob r.1.jobList 1).duration = 3 :=
  ⟨by rfl, resultOf (run 1 0 scenarioFlushOrder), by rfl, by rfl, by rfl, by rfl, by rfl⟩

set_option maxRecDepth 100000 in
/-- C12, evaluation at the failing input: the input
`cpus 1; job 5 1 sysA x 50 10; assign 5 1; job 5 2 sysA y 50 3` is well formed; after it
the arrival-timestamp tree holds the single timestamp 5, but the last log entry is
`(Min = 1, Max = 5, timestamp = 5)`: the second job widened the sentinel entry written
by the assign instead of overwriting it. -/
theorem log_last_entry_keeps_sentinel_min :
    WellFormed scenarioSentinel ∧
      ∃ r, run 1 0 scenarioSentinel = .ok r ∧
        r.1.MaxMins.getLast? = some (MaxMinNode.create 1 5 5) ∧
        r.1.startTimeRoot ≠ .nil ∧ getMinimum r.1.startTimeRoot = 5 ∧
        getMaximum r.1.startTimeRoot = 5 ∧
        (resultOf (run 1 0 (scenarioSentinel.take 2))).1.MaxMins.getLast? =
          some (MaxMinNode.create 1 0 5) :=
  ⟨by rfl, resultOf (run 1 0 scenarioSentinel), by rfl, by rfl, by decide, by rfl, by rfl,
    by rfl⟩

/-! ### An assign that can assign nothing -/

theorem assignLoop_of_K_zero (ts m sel : Nat) (s : State) (out : List Nat) :
    assignLoop ts 0 m sel s out = (s, out) := by
  cases m with
  | zero => rfl
  | succ m => rw [assignLoop_succ, if_neg (Nat.not_lt_zero _)]

theorem assignLoop_of_empty (ts K : Nat) (m sel : Nat) (s : State) (out : List Nat)
    (hz : ∀ i, 1 ≤ i → i ≤ m → s.jobHeapSize i = 0) :
    assignLoop ts K m sel s out = (s, out) := by
  induction m with
  | zero => rfl
  | succ m ih =>
    rw [assignLoop_succ]
    split_ifs with h1 h2
    · exact ih (fun i a b => hz i a (by omega))
    · exact absurd (by rw [hz (m + 1) (by omega) (le_refl _)]; simp) h2
    · rfl

theorem jobHeapSize_eq_zero_of_no_waiting {M : Nat} {s : State} (hc : CoreInv M s)
    (hw : waitingIds s.jobList = []) (i : Nat) : s.jobHeapSize i = 0 := by
  have hp := (hc.heap_perm i).length_eq
  have hnil : waitingOf s.jobList i = [] := by
    rw [List.eq_nil_iff_forall_not_mem]
    intro id hid
    obtain ⟨h1, -, h3⟩ := mem_waitingOf.1 hid
    have : id ∈ waitingIds s.jobList := mem_waitingIds.2 ⟨h1, h3⟩
    rw [hw] at this
    simp at this
  rw [hnil] at hp
  unfold State.live at hp
  have := hc.heap_len i
  simp only [List.length_take, List.length_nil] at hp
  omega

/-- An `assign ts K` issued when a job has been admitted and either no CPU is free at `ts`
or no job is waiting: it succeeds, prints nothing, leaves the registry and both trees as
they are, and makes the last log entry `(Min, Max, ts)` with the minimum and maximum of
the arrival tree, or `(1, 0, ts)` when that tree is empty. -/
theorem doAssign_nothing {M : Nat} {s : State} {ts : Nat} (K : Nat) (hc : CoreInv M s)
    (hne : s.MaxMins ≠ [])
    (hno : getValuesLessThanEqualTo s.cpuTreeRoot ts = 0 ∨ waitingIds s.jobList = []) :
    ∃ r, doAssign s ts K = .ok r ∧ r.2 = [] ∧ r.1.jobList = s.jobList ∧
      r.1.cpuTreeRoot = s.cpuTreeRoot ∧ r.1.startTimeRoot = s.startTimeRoot ∧
      r.1.MaxMins.getLast? = some (MaxMinNode.create
        (if s.startTimeRoot = .nil then 1 else getMinimum s.startTimeRoot)
        (if s.startTimeRoot = .nil then 0 else getMaximum s.startTimeRoot) ts) := by
  have hfr := stagingOnly_assignFlush s
  have haj : assignJobs s ts K =
      ({ (if s.totalSize > 0 then emptyOutAllDurationHeaps s else s) with
        prevTimestamp := ts }, []) := by
    rw [assignJobs_eq]
    rcases hno with h0 | h0
    · rw [hfr.cpuTreeRoot, h0, Nat.zero_min]
      exact assignLoop_of_K_zero _ _ _ _ _
    · apply assignLoop_of_empty
      intro i _ _
      show (if s.totalSize > 0 then emptyOutAllDurationHeaps s else s).jobHeapSize i = 0
      rw [hfr.jobHeapSize]
      exact jobHeapSize_eq_zero_of_no_waiting hc h0 i
  rcases eq_nil_or_snoc s.MaxMins with hn | ⟨init, last, hcat⟩
  · exact absurd hn hne
  simp only [doAssign]
  rw [haj]
  simp only
  rw [hfr.MaxMins, hfr.startTimeRoot, hcat, logAssign_concat]
  simp only [Outcome.bind]
  refine ⟨_, rfl, rfl, hfr.jobList, hfr.cpuTreeRoot, rfl, ?_⟩
  simp only
  split_ifs <;> simp

/-! ## Claims about an assign that can assign nothing -/

/-- C17, evaluation at the failing input: whatever the number of CPUs and the initial
`prevTimestamp`, an `assign` with a positive timestamp issued right after `cpus M` (no job
admitted yet) reads `MaxMins[MaxMins.size()-1]` on the empty log: an access outside the
vector. -/
theorem assign_before_admission_reads_outside (M p0 ts K : Nat) :
    step (initState M p0) (.assign (ts + 1) K) = .oob ∧
      run M p0 [.assign (ts + 1) K] = .oob := by
  have hc := coreInv_initState M p0
  have ha := assignJobs_assigned K hc (Nat.succ_pos ts)
  have hmm : (assignJobs (initState M p0) (ts + 1) K).1.MaxMins = [] := by
    rw [ha.MaxMins]
    exact (stagingOnly_assignFlush (initState M p0)).MaxMins
  have e1 : step (initState M p0) (.assign (ts + 1) K) = .oob := by
    simp only [step, doAssign]
    rw [hmm, logAssign_nil]
    rfl
  refine ⟨e1, ?_⟩
  unfold run
  simp only [runFrom]
  rw [e1]
  rfl

/-! ### The AVL shape of the CPU tree -/

theorem getHeight_node (k s f ht : Nat) (l r : CPUNode) :
    getHeight (.node k s f ht l r) = ht := rfl

theorem getHeight_eq_depth {t : CPUNode} (h : t.AVL) : getHeight t = t.depth := by
  induction t with
  | nil => rfl
  | node k s f ht l r ihl ihr =>
    obtain ⟨h1, -, -, h4, h5⟩ := h
    simp only [getHeight_node, CPUNode.depth]
    rw [h1, ihl h4, ihr h5]

theorem avl_node_iff (k s f ht : Nat) (l r : CPUNode) :
    (CPUNode.node k s f ht l r).AVL ↔
      ht = max (getHeight l) (getHeight r) + 1 ∧ getHeight l ≤ getHeight r + 1 ∧
        getHeight r ≤ getHeight l + 1 ∧ l.AVL ∧ r.AVL := Iff.rfl

theorem avl_rightRotate_single (k s f ht kx sx fx hx : Nat) {A B R : CPUNode}
    (hA : A.AVL) (hB : B.AVL) (hR : R.AVL)
    (h1 : getHeight A = getHeight R + 1) (h2 : getHeight R ≤ getHeight B)
    (h3 : getHeight B ≤ getHeight R + 1) :
    (rightRotate (.node k s f ht (.node kx sx fx hx A B) R)).AVL ∧
      getHeight (rightRotate (.node k s f ht (.node kx sx fx hx A B) R)) =
        getHeight B + 2 := by
  unfold rightRotate
  simp only
  refine ⟨(avl_node_iff _ _ _ _ _ _).2 ⟨rfl, ?_, ?_, hA,
    (avl_node_iff _ _ _ _ _ _).2 ⟨rfl, ?_, ?_, hB, hR⟩⟩, ?_⟩ <;>
  (try simp only [getHeight_node]) <;> omega

theorem avl_leftRotate_single (k s f ht ky sy fy hy : Nat) {L B C : CPUNode}
    (hL : L.AVL) (hB : B.AVL) (hC : C.AVL)
    (h1 : getHeight C = getHeight L + 1) (h2 : getHeight L ≤ getHeight B)
    (h3 : getHeight B ≤ getHeight L + 1) :
    (leftRotate (.node k s f ht L (.node ky sy fy hy B C))).AVL ∧
      getHeight (leftRotate (.node k s f ht L (.node ky sy fy hy B C))) =
        getHeight B + 2 := by
  unfold leftRotate
  simp only
  refine ⟨(avl_node_iff _ _ _ _ _ _).2 ⟨rfl, ?_, ?_,
    (avl_node_iff _ _ _ _ _ _).2 ⟨rfl, ?_, ?_, hL, hB⟩, hC⟩, ?_⟩ <;>
  (try simp only [getHeight_node]) <;> omega

theorem avl_rightRotate_double (k s f ht kx sx fx hx kc sc fc hc : Nat)
    {A C D R : CPUNode} (hA : A.AVL) (hC : C.AVL) (hD : D.AVL) (hR : R.AVL)
    (h1 : getHeight A = getHeight R)
    (h2 : max (getHeight C) (getHeight D) = getHeight R)
    (h3 : getHeight C ≤ getHeight D + 1) (h4 : getHeight D ≤ getHeight C + 1) :
    (rightRotate (setLeft (.node k s f ht (.node kx sx fx hx A (.node kc sc fc hc C D)) R)
        (leftRotate (.node kx sx fx hx A (.node kc sc fc hc C D))))).AVL ∧
      getHeight (rightRotate (setLeft
        (.node k s f ht (.node kx sx fx hx A (.node kc sc fc hc C D)) R)
        (leftRotate (.node kx sx fx hx A (.node kc sc fc hc C D))))) = getHeight R + 2 := by
  unfold leftRotate setLeft rightRotate
  simp only
  refine ⟨(avl_node_iff _ _ _ _ _ _).2 ⟨rfl, ?_, ?_,
    (avl_node_iff _ _ _ _ _ _).2 ⟨rfl, ?_, ?_, hA, hC⟩,
    (avl_node_iff _ _ _ _ _ _).2 ⟨rfl, ?_, ?_, hD, hR⟩⟩, ?_⟩ <;>
  (try simp only [getHeight_node]) <;> omega

theorem avl_leftRotate_double (k s f ht ky sy fy hy kc sc fc hc : Nat)
    {L C D B : CPUNode} (hL : L.AVL) (hC : C.AVL) (hD : D.AVL) (hB : B.AVL)
    (h1 : getHeight B = getHeight L)
    (h2 : max (getHeight C) (getHeight D) = getHeight L)
    (h3 : getHeight C ≤ getHeight D + 1) (h4 : getHeight D ≤ getHeight C + 1) :
    (leftRotate (setRight (.node k s f ht L (.node ky sy fy hy (.node kc sc fc hc C D) B))
        (rightRotate (.node ky sy fy hy (.node kc sc fc hc C D) B)))).AVL ∧
      getHeight (leftRotate (setRight
        (.node k s f ht L (.node ky sy fy hy (.node kc sc fc hc C D) B))
        (rightRotate (.node ky sy fy hy (.node kc sc fc hc C D) B)))) = getHeight L + 2 := by
  unfold rightRotate setRight leftRotate
  simp only
  refine ⟨(avl_node_iff _ _ _ _ _ _).2 ⟨rfl, ?_, ?_,
    (avl_node_iff _ _ _ _ _ _).2 ⟨rfl, ?_, ?_, hL, hC⟩,
    (avl_node_iff _ _ _ _ _ _).2 ⟨rfl, ?_, ?_, hD, hB⟩⟩, ?_⟩ <;>
  (try simp only [getHeight_node]) <;> omega

theorem getBalance_node (k s f ht : Nat) (l r : CPUNode) :
    getBalance (.node k s f ht l r) = (getHeight l : Int) - (getHeight r : Int) := rfl

theorem avl_rebalanceDelete (k s f ht : Nat) {L R : CPUNode} (hL : L.AVL) (hR : R.AVL)
    (hd1 : getHeight L ≤ getHeight R + 2) (hd2 : getHeight R ≤ getHeight L + 2) :
    (rebalanceDelete (.node k s f ht L R)).AVL ∧
      (getHeight (rebalanceDelete (.node k s f ht L R)) =
          max (getHeight L) (getHeight R) + 1 ∨
        ((getHeight L = getHeight R + 2 ∨ getHeight R = getHeight L + 2) ∧
          getHeight (rebalanceDelete (.node k s f ht L R)) =
            max (getHeight L) (getHeight R))) := by
  unfold rebalanceDelete
  simp only [refresh, getBalance_node, leftOf, rightOf]
  split_ifs with c1 c2 c3 c4 c5
  · refine ⟨(avl_node_iff _ _ _ _ _ _).2 ⟨rfl, by omega, by omega, hL, hR⟩, Or.inl rfl⟩
  · cases L with
    | nil => simp only [getHeight] at c2; omega
    | node kx sx fx hx A B =>
      obtain ⟨a1, a2, a3, a4, a5⟩ := (avl_node_iff _ _ _ _ _ _).1 hL
      rw [getBalance_node] at c2
      rw [getHeight_node] at c1 c2 hd1 hd2 ⊢
      have := avl_rightRotate_single k (getSubtreeSize (CPUNode.node kx sx fx hx A B) + f +
        getSubtreeSize R) f (max hx (getHeight R) + 1) kx sx fx hx a4 a5 hR
        (by omega) (by omega) (by omega)
      refine ⟨this.1, ?_⟩
      rw [this.2]
      omega
  · cases L with
    | nil => simp only [getHeight] at c3; omega
    | node kx sx fx hx A X =>
      obtain ⟨a1, a2, a3, a4, a5⟩ := (avl_node_iff _ _ _ _ _ _).1 hL
      rw [getBalance_node] at c2 c3
      rw [getHeight_node] at c1 c2 c3 hd1 hd2 ⊢
      cases X with
      | nil => simp only [getHeight] at c3; omega
      | node kc sc fc hc C D =>
        obtain ⟨b1, b2, b3, b4, b5⟩ := (avl_node_iff _ _ _ _ _ _).1 a5
        rw [getHeight_node] at a1 a2 a3 c3
        have := avl_rightRotate_double k (getSubtreeSize (CPUNode.node kx sx fx hx A
          (CPUNode.node kc sc fc hc C D)) + f + getSubtreeSize R) f
          (max hx (getHeight R) + 1) kx sx fx hx kc sc fc hc a4 b4 b5 hR
          (by omega) (by omega) b2 b3
        refine ⟨this.1, ?_⟩
        rw [this.2]
        omega
  · cases R with
    | nil => simp only [getHeight] at c4; omega
    | node ky sy fy hy B C =>
      obtain ⟨a1, a2, a3, a4, a5⟩ := (avl_node_iff _ _ _ _ _ _).1 hR
      rw [getBalance_node] at c4
      rw [getHeight_node] at c1 c4 hd1 hd2 ⊢
      have := avl_leftRotate_single k (getSubtreeSize L + f +
        getSubtreeSize (CPUNode.node ky sy fy hy B C)) f (max (getHeight L) hy + 1)
        ky sy fy hy hL a4 a5 (by omega) (by omega) (by omega)
      refine ⟨this.1, ?_⟩
      rw [this.2]
      omega
  · cases R with
    | nil => simp only [getHeight] at c5; omega
    | node ky sy fy hy X B =>
      obtain ⟨a1, a2, a3, a4, a5⟩ := (avl_node_iff _ _ _ _ _ _).1 hR
      rw [getBalance_node] at c4 c5
      rw [getHeight_node] at c1 c4 c5 hd1 hd2 ⊢
      cases X with
      | nil => simp only [getHeight] at c5; omega
      | node kc sc fc hc C D =>
        obtain ⟨b1, b2, b3, b4, b5⟩ := (avl_node_iff _ _ _ _ _ _).1 a4
        rw [getHeight_node] at a1 a2 a3 c5
        have := avl_leftRotate_double k (getSubtreeSize L + f + getSubtreeSize
          (CPUNode.node ky sy fy hy (CPUNode.node kc sc fc hc C D) B)) f
          (max (getHeight L) hy + 1) ky sy fy hy kc sc fc hc hL b4 b5 a5
          (by omega) (by omega) b2 b3
        refine ⟨this.1, ?_⟩
        rw [this.2]
        omega
  · omega

theorem avl_deleteCPUNode {t : CPUNode} (T : Nat) (h : t.AVL) :
    (deleteCPUNode t T).AVL ∧
      (getHeight (deleteCPUNode t T) = getHeight t ∨
        getHeight (deleteCPUNode t T) + 1 = getHeight t) := by
  induction t with
  | nil => exact ⟨trivial, Or.inl rfl⟩
  | node k sz f ht l r ihl _ =>
    obtain ⟨h1, h2, h3, h4, h5⟩ := (avl_node_iff _ _ _ _ _ _).1 h
    obtain ⟨i1, i2⟩ := ihl h4
    have key : (rebalanceDelete (CPUNode.node k sz f ht (deleteCPUNode l T) r)).AVL ∧
        (getHeight (rebalanceDelete (CPUNode.node k sz f ht (deleteCPUNode l T) r)) = ht ∨
          getHeight (rebalanceDelete (CPUNode.node k sz f ht (deleteCPUNode l T) r)) + 1
            = ht) := by
      obtain ⟨j1, j2⟩ := avl_rebalanceDelete k sz f ht i1 h5 (by omega) (by omega)
      refine ⟨j1, ?_⟩
      omega
    unfold deleteCPUNode
    rw [getHeight_node]
    split_ifs with e1 e2 e3
    · exact key
    · exact key
    · exact ⟨(avl_node_iff _ _ _ _ _ _).2 ⟨h1, h2, h3, h4, h5⟩, Or.inl rfl⟩
    · have hl : l = .nil := not_not.1 e2
      subst hl
      cases r with
      | nil =>
        refine ⟨trivial, Or.inr ?_⟩
        simp only [getHeight] at h1 ⊢
        omega
      | node k2 s2 f2 ht2 l2 r2 =>
        obtain ⟨a1, a2, a3, a4, a5⟩ := (avl_node_iff _ _ _ _ _ _).1 h5
        obtain ⟨j1, j2⟩ := avl_rebalanceDelete k2 s2 f2 ht2 a4 a5 (by omega) (by omega)
        show (rebalanceDelete (CPUNode.node k2 s2 f2 ht2 l2 r2)).AVL ∧
          (getHeight (rebalanceDelete (CPUNode.node k2 s2 f2 ht2 l2 r2)) = ht ∨
            getHeight (rebalanceDelete (CPUNode.node k2 s2 f2 ht2 l2 r2)) + 1 = ht)
        refine ⟨j1, Or.inr ?_⟩
        rw [getHeight_node] at h1
        simp only [getHeight] at h1
        omega

theorem getHeight_nil : getHeight .nil = 0 := rfl

theorem keyOf_node (k s f ht : Nat) (l r : CPUNode) :
    keyOf (.node k s f ht l r) = k := rfl

theorem avl_rebalanceInsert_left (k s f ht v : Nat) {L R : CPUNode} (hL : L.AVL)
    (hR : R.AVL) (hvk : v < k) (hd1 : getHeight L ≤ getHeight R + 2)
    (hd2 : getHeight R ≤ getHeight L + 1)
    (hlean : getHeight L = getHeight R + 2 → L.LeansTo v) :
    (rebalanceInsert (.node k s f ht L R) v).AVL ∧
      ((getHeight L ≤ getHeight R + 1 ∧
          getHeight (rebalanceInsert (.node k s f ht L R) v) =
            max (getHeight L) (getHeight R) + 1 ∧
          (getHeight L = getHeight R + 1 →
            (rebalanceInsert (.node k s f ht L R) v).LeansTo v)) ∨
        (getHeight L = getHeight R + 2 ∧
          getHeight (rebalanceInsert (.node k s f ht L R) v) = getHeight R + 2)) := by
  unfold rebalanceInsert
  simp only [refresh, getBalance_node, leftOf, rightOf]
  split_ifs with c1 c2 c3 c4 c5
  · refine ⟨(avl_node_iff _ _ _ _ _ _).2 ⟨rfl, by omega, by omega, hL, hR⟩,
      Or.inl ⟨by omega, rfl, ?_⟩⟩
    intro e
    exact Or.inr (Or.inl ⟨hvk, e⟩)
  · cases L with
    | nil => have hz : getHeight CPUNode.nil = 0 := rfl; omega
    | node kx sx fx hx A B =>
      obtain ⟨a1, a2, a3, a4, a5⟩ := (avl_node_iff _ _ _ _ _ _).1 hL
      simp only [getHeight_node, keyOf_node] at c1 c2 hd1 hd2 hlean ⊢
      have hl := hlean (by omega)
      simp only [CPUNode.LeansTo] at hl
      have := avl_rightRotate_single k (getSubtreeSize (CPUNode.node kx sx fx hx A B) + f +
        getSubtreeSize R) f (max hx (getHeight R) + 1) kx sx fx hx a4 a5 hR
        (by omega) (by omega) (by omega)
      refine ⟨this.1, Or.inr ⟨by omega, ?_⟩⟩
      rw [this.2]
      omega
  · omega
  · cases L with
    | nil => have hz : getHeight CPUNode.nil = 0 := rfl; omega
    | node kx sx fx hx A X =>
      obtain ⟨a1, a2, a3, a4, a5⟩ := (avl_node_iff _ _ _ _ _ _).1 hL
      simp only [getHeight_node, keyOf_node] at c1 c2 c4 hd1 hd2 hlean ⊢
      have hl := hlean (by omega)
      simp only [CPUNode.LeansTo] at hl
      cases X with
      | nil => have hz : getHeight CPUNode.nil = 0 := rfl; omega
      | node kc sc fc hc C D =>
        obtain ⟨b1, b2, b3, b4, b5⟩ := (avl_node_iff _ _ _ _ _ _).1 a5
        rw [getHeight_node] at a1 a2 a3 hl
        have := avl_rightRotate_double k (getSubtreeSize (CPUNode.node kx sx fx hx A
          (CPUNode.node kc sc fc hc C D)) + f + getSubtreeSize R) f
          (max hx (getHeight R) + 1) kx sx fx hx kc sc fc hc a4 b4 b5 hR
          (by omega) (by omega) b2 b3
        refine ⟨this.1, Or.inr ⟨by omega, this.2⟩⟩
  · omega
  · exfalso
    cases L with
    | nil => have hz : getHeight CPUNode.nil = 0 := rfl; omega
    | node kx sx fx hx A B =>
      obtain ⟨a1, a2, a3, a4, a5⟩ := (avl_node_iff _ _ _ _ _ _).1 hL
      simp only [getHeight_node, keyOf_node] at c1 c2 c4 hd1 hd2 hlean
      have hl := hlean (by omega)
      simp only [CPUNode.LeansTo] at hl
      omega

theorem avl_rebalanceInsert_right (k s f ht v : Nat) {L R : CPUNode} (hL : L.AVL)
    (hR : R.AVL) (hvk : k < v) (hd1 : getHeight R ≤ getHeight L + 2)
    (hd2 : getHeight L ≤ getHeight R + 1)
    (hlean : getHeight R = getHeight L + 2 → R.LeansTo v) :
    (rebalanceInsert (.node k s f ht L R) v).AVL ∧
      ((getHeight R ≤ getHeight L + 1 ∧
          getHeight (rebalanceInsert (.node k s f ht L R) v) =
            max (getHeight L) (getHeight R) + 1 ∧
          (getHeight R = getHeight L + 1 →
            (rebalanceInsert (.node k s f ht L R) v).LeansTo v)) ∨
        (getHeight R = getHeight L + 2 ∧
          getHeight (rebalanceInsert (.node k s f ht L R) v) = getHeight L + 2)) := by
  unfold rebalanceInsert
  simp only [refresh, getBalance_node, leftOf, rightOf]
  split_ifs with c1 c2 c3 c4 c5
  · refine ⟨(avl_node_iff _ _ _ _ _ _).2 ⟨rfl, by omega, by omega, hL, hR⟩,
      Or.inl ⟨by omega, rfl, ?_⟩⟩
    intro e
    exact Or.inr (Or.inr ⟨hvk, e⟩)
  · omega
  · cases R with
    | nil => have hz : getHeight CPUNode.nil = 0 := rfl; omega
    | node ky sy fy hy B C =>
      obtain ⟨a1, a2, a3, a4, a5⟩ := (avl_node_iff _ _ _ _ _ _).1 hR
      simp only [getHeight_node, keyOf_node] at c1 c3 hd1 hd2 hlean ⊢
      have hl := hlean (by omega)
      simp only [CPUNode.LeansTo] at hl
      have := avl_leftRotate_single k (getSubtreeSize L + f +
        getSubtreeSize (CPUNode.node ky sy fy hy B C)) f (max (getHeight L) hy + 1)
        ky sy fy hy hL a4 a5 (by omega) (by omega) (by omega)
      refine ⟨this.1, Or.inr ⟨by omega, ?_⟩⟩
      rw [this.2]
      omega
  · omega
  · cases R with
    | nil => have hz : getHeight CPUNode.nil = 0 := rfl; omega
    | node ky sy fy hy X B =>
      obtain ⟨a1, a2, a3, a4, a5⟩ := (avl_node_iff _ _ _ _ _ _).1 hR
      simp only [getHeight_node, keyOf_node] at c1 c3 c5 hd1 hd2 hlean ⊢
      have hl := hlean (by omega)
      simp only [CPUNode.LeansTo] at hl
      cases X with
      | nil => have hz : getHeight CPUNode.nil = 0 := rfl; omega
      | node kc sc fc hc C D =>
        obtain ⟨b1, b2, b3, b4, b5⟩ := (avl_node_iff _ _ _ _ _ _).1 a4
        rw [getHeight_node] at a1 a2 a3 hl
        have := avl_leftRotate_double k (getSubtreeSize L + f + getSubtreeSize
          (CPUNode.node ky sy fy hy (CPUNode.node kc sc fc hc C D) B)) f
          (max (getHeight L) hy + 1) ky sy fy hy kc sc fc hc hL b4 b5 a5
          (by omega) (by omega) b2 b3
        refine ⟨this.1, Or.inr ⟨by omega, this.2⟩⟩
  · exfalso
    cases R with
    | nil => have hz : getHeight CPUNode.nil = 0 := rfl; omega
    | node ky sy fy hy B C =>
      obtain ⟨a1, a2, a3, a4, a5⟩ := (avl_node_iff _ _ _ _ _ _).1 hR
      simp only [getHeight_node, keyOf_node] at c1 c3 c5 hd1 hd2 hlean
      have hl := hlean (by omega)
      simp only [CPUNode.LeansTo] at hl
      omega

theorem avl_insertCPUNode {t : CPUNode} (v : Nat) (h : t.AVL) :
    (insertCPUNode t v).AVL ∧
      (getHeight (insertCPUNode t v) = getHeight t ∨
        (getHeight (insertCPUNode t v) = getHeight t + 1 ∧ (insertCPUNode t v).LeansTo v)) := by
  induction t with
  | nil =>
    refine ⟨(avl_node_iff _ _ _ _ _ _).2 ⟨rfl, by simp [getHeight], by simp [getHeight],
      trivial, trivial⟩, Or.inr ⟨rfl, Or.inl ⟨rfl, rfl, rfl⟩⟩⟩
  | node k sz f ht l r ihl ihr =>
    obtain ⟨h1, h2, h3, h4, h5⟩ := (avl_node_iff _ _ _ _ _ _).1 h
    unfold insertCPUNode
    rw [getHeight_node]
    split_ifs with e1 e2
    · exact ⟨(avl_node_iff _ _ _ _ _ _).2 ⟨h1, h2, h3, h4, h5⟩, Or.inl rfl⟩
    · obtain ⟨i1, i2⟩ := ihr h5
      obtain ⟨j1, j2⟩ := avl_rebalanceInsert_right k sz f ht v h4 i1 e2 (by omega) (by omega)
        (by
          intro e
          rcases i2 with i2 | i2
          · omega
          · exact i2.2)
      refine ⟨j1, ?_⟩
      rcases j2 with ⟨a, b, c⟩ | ⟨a, b⟩
      · by_cases hg : getHeight (insertCPUNode r v) = getHeight l + 1 ∧
            getHeight r ≤ getHeight l
        · by_cases hh : getHeight r = getHeight l
          · right
            exact ⟨by omega, c hg.1⟩
          · left; omega
        · left; omega
      · left; omega
    · have hvk : v < k := by omega
      obtain ⟨i1, i2⟩ := ihl h4
      obtain ⟨j1, j2⟩ := avl_rebalanceInsert_left k sz f ht v i1 h5 hvk (by omega) (by omega)
        (by
          intro e
          rcases i2 with i2 | i2
          · omega
          · exact i2.2)
      refine ⟨j1, ?_⟩
      rcases j2 with ⟨a, b, c⟩ | ⟨a, b⟩
      · by_cases hg : getHeight (insertCPUNode l v) = getHeight r + 1 ∧
            getHeight l ≤ getHeight r
        · by_cases hh : getHeight l = getHeight r
          · right
            exact ⟨by omega, c hg.1⟩
          · left; omega
        · left; omega
      · left; omega

/-! ### Strictly increasing keys -/

theorem strictlyOrdered_node_iff (k sz f ht : Nat) (l r : CPUNode) :
    (CPUNode.node k sz f ht l r).StrictlyOrdered ↔
      l.StrictlyOrdered ∧ r.StrictlyOrdered ∧ (∀ a ∈ l.keys, a < k) ∧ (∀ b ∈ r.keys, k < b) := by
  unfold CPUNode.StrictlyOrdered
  simp only [CPUNode.keys, List.pairwise_append, List.pairwise_cons, List.mem_cons]
  constructor
  · rintro ⟨h1, ⟨h2, h3⟩, h4⟩
    exact ⟨h1, h3, fun a ha => h4 a ha k (Or.inl rfl), h2⟩
  · rintro ⟨h1, h2, h3, h4⟩
    refine ⟨h1, ⟨h4, h2⟩, ?_⟩
    rintro a ha b (rfl | hb)
    · exact h3 a ha
    · exact lt_trans (h3 a ha) (h4 b hb)

theorem strictlyOrdered_insertCPUNode {t : CPUNode} (v : Nat) (h : t.StrictlyOrdered) :
    (insertCPUNode t v).StrictlyOrdered := by
  induction t with
  | nil => simp [insertCPUNode, CPUNode.StrictlyOrdered, CPUNode.keys]
  | node k sz f ht l r ihl ihr =>
    obtain ⟨h1, h2, h3, h4⟩ := (strictlyOrdered_node_iff _ _ _ _ _ _).1 h
    unfold insertCPUNode
    split_ifs with e1 e2
    · exact (strictlyOrdered_node_iff _ _ _ _ _ _).2 ⟨h1, h2, h3, h4⟩
    · unfold CPUNode.StrictlyOrdered
      rw [keys_rebalanceInsert]
      refine (strictlyOrdered_node_iff _ _ _ _ _ _).2 ⟨h1, ihr h2, h3, ?_⟩
      intro b hb
      rcases (mem_keys_insertCPUNode _ _ _).1 hb with rfl | hb
      · omega
      · exact h4 b hb
    · unfold CPUNode.StrictlyOrdered
      rw [keys_rebalanceInsert]
      refine (strictlyOrdered_node_iff _ _ _ _ _ _).2 ⟨ihl h1, h2, ?_, h4⟩
      intro a ha
      rcases (mem_keys_insertCPUNode _ _ _).1 ha with rfl | ha
      · omega
      · exact h3 a ha

theorem strictlyOrdered_deleteCPUNode {t : CPUNode} (T : Nat) (h : t.StrictlyOrdered) :
    (deleteCPUNode t T).StrictlyOrdered :=
  List.Pairwise.sublist (keys_deleteCPUNode_sublist t T) h

theorem avl_applyCpuOps {t : CPUNode} (ops : List CpuOp) (h : t.StrictlyOrdered)
    (ha : t.AVL) : (applyCpuOps t ops).StrictlyOrdered ∧ (applyCpuOps t ops).AVL := by
  induction ops generalizing t with
  | nil => exact ⟨h, ha⟩
  | cons op ops ih =>
    cases op with
    | insert v => exact ih (strictlyOrdered_insertCPUNode v h) (avl_insertCPUNode v ha).1
    | delete v => exact ih (strictlyOrdered_deleteCPUNode v h) (avl_deleteCPUNode v ha).1

theorem avl_createBST (M : Nat) : (createBST M).StrictlyOrdered ∧ (createBST M).AVL := by
  unfold createBST
  split_ifs with h
  · exact ⟨List.Pairwise.nil, trivial⟩
  · exact ⟨by simp [CPUNode.StrictlyOrdered, CPUNode.keys],
      (avl_node_iff _ _ _ _ _ _).2 ⟨rfl, by simp [getHeight], by simp [getHeight],
        trivial, trivial⟩⟩

/-! ## Claims about the shape of the CPU tree -/

/-- C20: on every tree obtained from `createBST(M)` by calls of `insertCPUNode` and
`deleteCPUNode`, the in-order sequence of `freeAfter` keys is strictly increasing, every
node's `height` field is one more than the larger height of its children (so the root's
field is the true height of the tree), and at every node the heights of the two subtrees
differ by at most one. -/
theorem cpu_tree_stays_avl (M : Nat) (ops : List CpuOp) :
    (applyCpuOps (createBST M) ops).keys.Pairwise (· < ·) ∧
      (applyCpuOps (createBST M) ops).AVL ∧
      getHeight (applyCpuOps (createBST M) ops) = (applyCpuOps (createBST M) ops).depth := by
  obtain ⟨h1, h2⟩ := avl_applyCpuOps ops (avl_createBST M).1 (avl_createBST M).2
  exact ⟨h1, h2, getHeight_eq_depth h2⟩

/-! ## Claims about the binary searches -/

theorem readAt_of_le {α : Type} {v : List α} {i : Nat} (h : v.length ≤ i) :
    readAt v i = .oob := by
  unfold readAt
  rw [List.getElem?_eq_none h]

theorem llPred_zero_div : (0 + llPred 0) / 2 = 2 ^ 63 - 1 := by
  unfold llPred llMod
  norm_num

/-- C22: on a non-empty log with strictly increasing timestamps and a `T` not smaller than
the first timestamp, `doBinarySearchMaxMins(T, 0, size-1)` returns (with any fuel of at
least `size`), reads only inside the log (a read outside would give `oob`), and the index
it returns is the unique `i` with `MaxMins[i].timestamp ≤ T` and `i = size-1` or
`MaxMins[i+1].timestamp > T`. -/
theorem log_floor_search_correct (MaxMins : List MaxMinNode) (T fuel : Nat)
    (hne : MaxMins ≠ [])
    (hs : MaxMins.Pairwise fun a b => a.timestamp < b.timestamp)
    (hT : logTsAt MaxMins 0 ≤ T) (hfuel : MaxMins.length ≤ fuel) :
    ∃ r, doBinarySearchMaxMins MaxMins T fuel 0 (llPred MaxMins.length) = .ok r ∧
      r < MaxMins.length ∧ logTsAt MaxMins r ≤ T ∧
      (r = MaxMins.length - 1 ∨ T < logTsAt MaxMins (r + 1)) ∧
      ∀ i, i < MaxMins.length → logTsAt MaxMins i ≤ T →
        (i = MaxMins.length - 1 ∨ T < logTsAt MaxMins (i + 1)) → i = r := by
  have hpos : 0 < MaxMins.length := List.length_pos.2 hne
  have hidx := log_index hs
  obtain ⟨r, hr, -, hr2, hr3, hr4⟩ := doBinarySearchMaxMins_spec MaxMins T hidx
    fuel 0 (MaxMins.length - 1) (Nat.zero_le _) (by omega) (by omega) hT
    (by intro i h1 h2; omega)
  rw [llPred_of_pos hpos]
  refine ⟨r, hr, by omega, hr3, ?_, ?_⟩
  · by_cases e : r = MaxMins.length - 1
    · exact Or.inl e
    · exact Or.inr (hr4 (r + 1) (by omega) (by omega))
  · intro i hi h1 h2
    rcases Nat.lt_trichotomy i r with c | c | c
    · exfalso
      rcases h2 with h2 | h2
      · omega
      · rcases Nat.eq_or_lt_of_le (show i + 1 ≤ r by omega) with e | e
        · rw [e] at h2; omega
        · have := hidx (i + 1) r e (by omega)
          omega
    · exact c
    · have := hr4 i c hi
      omega

/-- Witness of C22: a log with timestamps 1, 5, 9 and `T = 7`: the search returns 1. -/
theorem log_floor_search_correct_witness :
    ∃ r, doBinarySearchMaxMins
        [MaxMinNode.create 1 1 1, MaxMinNode.create 1 5 5, MaxMinNode.create 5 9 9] 7 3 0
        (llPred 3) = .ok r ∧ r < 3 ∧ r = 1 := by
  obtain ⟨r, h1, h2, h3, h4, h5⟩ := log_floor_search_correct
    [MaxMinNode.create 1 1 1, MaxMinNode.create 1 5 5, MaxMinNode.create 5 9 9] 7 3
    (by simp) (by simp [MaxMinNode.create]) (by decide) (by decide)
  exact ⟨r, h1, h2, (h5 1 (by decide) (by decide) (Or.inr (by decide))).symm⟩

/-- C23: on a non-empty bucket whose job timestamps are non-decreasing and a `value` not
smaller than the first timestamp, `getEndPoint(value, S, 0, |S|-1)` returns (with any fuel
of at least `|S|`), reads only inside the bucket (a read outside would give `oob`, and so
would the call that follows an underflow of `mid-1` on a bucket of fewer than `2^63`
entries), and returns the largest index whose timestamp is at most `value`. -/
theorem getEndPoint_in_bounds_and_last (jobList : List Job) (value : Nat) (S : List Nat)
    (fuel : Nat) (hne : S ≠ []) (hs : SortedByTs jobList S)
    (h0 : tsAt jobList S 0 ≤ value) (hfuel : S.length ≤ fuel) :
    (∃ r, getEndPoint jobList value S fuel 0 (S.length - 1) = .ok r ∧ r < S.length ∧
      tsAt jobList S r ≤ value ∧ ∀ i, i < S.length → tsAt jobList S i ≤ value → i ≤ r) ∧
      (S.length < 2 ^ 63 → ∀ f, getEndPoint jobList value S (f + 1) 0 (llPred 0) = .oob) := by
  have hpos : 0 < S.length := List.length_pos.2 hne
  obtain ⟨r, hr, -, hr2, hr3, hr4⟩ := getEndPoint_spec jobList value S hs.index fuel 0
    (S.length - 1) (Nat.zero_le _) (by omega) (by omega) h0 (by intro i h1 h2; omega)
  refine ⟨⟨r, hr, by omega, hr3, ?_⟩, ?_⟩
  · intro i hi hle
    by_contra hc
    have := hr4 i (by omega) hi
    omega
  · intro hlen f
    unfold getEndPoint
    rw [if_neg (by unfold llPred llMod; norm_num)]
    simp only
    rw [llPred_zero_div, readAt_of_le (by omega)]
    rfl

/-- Witness of C23: a bucket with timestamps 1, 5, 9 and `value = 7`. -/
theorem getEndPoint_in_bounds_and_last_witness :
    ∃ r, getEndPoint threeJobs 7 [0, 1, 2] 3 0 2 = .ok r ∧ r < 3 ∧
      tsAt threeJobs [0, 1, 2] r ≤ 7 :=
  have h := (getEndPoint_in_bounds_and_last threeJobs 7 [0, 1, 2] 3
    (by simp) (by simp [SortedByTs, getJob, Job.create, threeJobs]) (by decide) (by decide)).1
  h.imp fun _ hr => ⟨hr.1, hr.2.1, hr.2.2.1⟩

/-- C27: on a non-empty bucket whose job timestamps are non-decreasing,
`getStartPoint(value, S, 0, |S|-1)` returns for every `value` (with any fuel of at least
`|S|`), reads only inside the bucket (a read outside would give `oob`), and returns an
index of the bucket before which every timestamp is smaller than `value`; hence, when
`getEndPoint(Max, S, 0, |S|-1)` is called as the query does (first timestamp at most
`Max`), the window between the two results contains every entry whose timestamp lies in
`[value, Max]`. -/
theorem getStartPoint_never_skips (jobList : List Job) (value : Nat) (S : List Nat)
    (fuel : Nat) (hne : S ≠ []) (hs : SortedByTs jobList S) (hfuel : S.length ≤ fuel) :
    ∃ r, getStartPoint jobList value S fuel 0 (S.length - 1) = .ok r ∧ r < S.length ∧
      (∀ i, i < r → tsAt jobList S i < value) ∧
      ∀ Max, tsAt jobList S 0 ≤ Max →
        ∃ e, getEndPoint jobList Max S fuel 0 (S.length - 1) = .ok e ∧ e < S.length ∧
          ∀ i, i < S.length → value ≤ tsAt jobList S i → tsAt jobList S i ≤ Max →
            r ≤ i ∧ i ≤ e := by
  have hpos : 0 < S.length := List.length_pos.2 hne
  obtain ⟨r, hr, -, hr2, hr3⟩ := getStartPoint_spec jobList value S hs.index fuel 0
    (S.length - 1) (Nat.zero_le _) (by omega) (by omega) (by intro i hi; omega)
  refine ⟨r, hr, by omega, hr3, ?_⟩
  intro Max h0
  obtain ⟨e, he, -, he2, he3, he4⟩ := getEndPoint_spec jobList Max S hs.index fuel 0
    (S.length - 1) (Nat.zero_le _) (by omega) (by omega) h0 (by intro i h1 h2; omega)
  refine ⟨e, he, by omega, ?_⟩
  intro i hi h1 h2
  constructor
  · by_contra hc
    have := hr3 i (by omega)
    omega
  · by_contra hc
    have := he4 i (by omega) hi
    omega

/-- Witness of C27: a bucket with timestamps 1, 5, 9 and `value = 3`: the search returns
an index before the first entry that is at least 3. -/
theorem getStartPoint_never_skips_witness :
    ∃ r, getStartPoint threeJobs 3 [0, 1, 2] 3 0 2 = .ok r ∧ r < 3 ∧
      ∀ i, i < r → tsAt threeJobs [0, 1, 2] i < 3 :=
  have h := getStartPoint_never_skips threeJobs 3 [0, 1, 2] 3
    (by simp) (by simp [SortedByTs, getJob, Job.create, threeJobs]) (by decide)
  h.imp fun _ hr => ⟨hr.1, hr.2.1, hr.2.2.1⟩

/-! ### `deleteCPUNode` takes the minimum -/

theorem head_values_eq_getMinimum {t : CPUNode} (h : t.Inv) {a : Nat} {rest : List Nat}
    (hv : t.values = a :: rest) : a = getMinimum t := by
  cases t with
  | nil => simp [CPUNode.values] at hv
  | node k sz f ht l r =>
    have hs := values_sorted h.ordered h.freqPos
    have hmk := getMinimum_mem_keys k sz f ht l r
    have hmv := (mem_values_iff_mem_keys h.freqPos _).2 hmk
    have hak : a ∈ (CPUNode.node k sz f ht l r).keys :=
      (mem_values_iff_mem_keys h.freqPos _).1 (by rw [hv]; exact List.mem_cons_self _ _)
    have h1 := getMinimum_le h.ordered a hak
    rw [hv] at hs hmv
    rcases List.mem_cons.1 hmv with e | e
    · exact e.symm
    · have := (List.pairwise_cons.1 hs).1 _ e
      omega

theorem deleteCPUNode_takes_min {t : CPUNode} {T : Nat} (h : t.Inv)
    (hav : 0 < getValuesLessThanEqualTo t T) :
    t.values = getMinimum t :: (deleteCPUNode t T).values ∧ getMinimum t ≤ T := by
  rw [getValuesLessThanEqualTo_eq T h.ordered h.sizeOK, sumFreqLE_eq_countP] at hav
  have hs := values_sorted h.ordered h.freqPos
  have hv := values_deleteCPUNode T h.freqPos
  cases hvals : t.values with
  | nil => rw [hvals] at hav; simp at hav
  | cons a rest =>
    have ha := head_values_eq_getMinimum h hvals
    rw [hvals] at hav hs hv
    have hle : a ≤ T := by
      obtain ⟨x, hx, hxT⟩ := List.countP_pos_iff.1 hav
      simp only [decide_eq_true_eq] at hxT
      rcases List.mem_cons.1 hx with e | e
      · omega
      · have := (List.pairwise_cons.1 hs).1 _ e
        omega
    simp only [dropFirstIfLE, hle, if_true] at hv
    rw [hv, ← ha]
    exact ⟨rfl, hle⟩

/-! ## Claims about the two trees and the searches on concrete inputs -/

/-- C21: on a tree `t` obtained from `createBST(M)` by calls of `insertCPUNode` and
`deleteCPUNode`, and a `T` with `getValuesLessThanEqualTo(t, T) > 0`, the call
`deleteCPUNode(t, T)` removes exactly one occurrence of `getMinimum(t)`, which is at most
`T`: the values of `t` are `getMinimum(t)` followed by the values of the result; every
other value keeps its multiplicity, and the node of the minimum remains exactly when its
frequency was greater than 1. -/
theorem deleteCPUNode_removes_one_minimum (M : Nat) (ops : List CpuOp) (T : Nat)
    (t : CPUNode) (ht : t = applyCpuOps (createBST M) ops)
    (hav : 0 < getValuesLessThanEqualTo t T) :
    (t.values : Multiset Nat) = getMinimum t ::ₘ ((deleteCPUNode t T).values : Multiset Nat) ∧
      t.values = getMinimum t :: (deleteCPUNode t T).values ∧ getMinimum t ≤ T ∧
      (∀ x, x ≠ getMinimum t → (deleteCPUNode t T).values.count x = t.values.count x) ∧
      (deleteCPUNode t T).values.count (getMinimum t) + 1 = t.values.count (getMinimum t) ∧
      (getMinimum t ∈ (deleteCPUNode t T).keys ↔ 1 < t.values.count (getMinimum t)) := by
  have h : t.Inv := by rw [ht]; exact inv_applyCpuOps ops (inv_createBST M)
  obtain ⟨h1, h2⟩ := deleteCPUNode_takes_min h hav
  have h' := inv_deleteCPUNode T h
  have hc : ∀ x, t.values.count x =
      (if getMinimum t = x then 1 else 0) + (deleteCPUNode t T).values.count x := by
    intro x
    conv_lhs => rw [h1]
    rw [List.count_cons]
    by_cases e : getMinimum t = x
    · simp [e]; omega
    · simp [e]
  refine ⟨?_, h1, h2, ?_, ?_, ?_⟩
  · conv_lhs => rw [h1]
    rfl
  · intro x hx
    have := hc x
    rw [if_neg (Ne.symm hx)] at this
    omega
  · have := hc (getMinimum t)
    rw [if_pos rfl] at this
    omega
  · rw [← mem_values_iff_mem_keys h'.freqPos, ← List.count_pos_iff]
    have := hc (getMinimum t)
    rw [if_pos rfl] at this
    omega

/-- Witness of C21: two CPUs free at 0 and an inserted value 5; one CPU free at 0 is
taken. -/
theorem deleteCPUNode_removes_one_minimum_witness :
    (applyCpuOps (createBST 2) [.insert 5]).values =
        getMinimum (applyCpuOps (createBST 2) [.insert 5]) ::
          (deleteCPUNode (applyCpuOps (createBST 2) [.insert 5]) 0).values ∧
      (deleteCPUNode (applyCpuOps (createBST 2) [.insert 5]) 0).values = [0, 5] :=
  ⟨(deleteCPUNode_removes_one_minimum 2 [.insert 5] 0
    (applyCpuOps (createBST 2) [.insert 5]) rfl (by decide)).2.1, by decide⟩

set_option maxRecDepth 100000 in
/-- C24, evaluation at the failing input: the input `cpus 2; job 1 1 sysA a 50 1;
assign 2 1; job 3 2 sysA b 40 1; job 5 3 sysA c 50 1; job 9 4 sysA d 50 1; query 9 5` is
well formed; in the query the log entry found has `Min = 3` and bucket 50 holds the jobs
0, 2, 3 with timestamps 1, 5, 9. `getStartPoint(3, bucket, 0, 2)` returns index 0, whose
timestamp 1 is smaller than 3; the smallest index with a timestamp of at least 3 is 1. -/
theorem getStartPoint_returns_earlier_index :
    WellFormed scenarioStartPoint ∧
      ∃ r, run 2 0 scenarioStartPoint = .ok r ∧ r.1.qJobList 50 = [0, 2, 3] ∧
        nearbyEntry r.1 9 = .ok (MaxMinNode.create 3 9 9) ∧
        getStartPoint r.1.jobList 3 (r.1.qJobList 50) 3 0 2 = .ok 0 ∧
        tsAt r.1.jobList (r.1.qJobList 50) 0 = 1 ∧
        tsAt r.1.jobList (r.1.qJobList 50) 1 = 5 ∧
        getStartPoint threeJobs 3 [0, 1, 2] 3 0 2 = .ok 0 :=
  ⟨by rfl, resultOf (run 2 0 scenarioStartPoint), by rfl, by rfl, by rfl, by rfl, by rfl,
    by rfl, by rfl⟩

set_option maxRecDepth 100000 in
/-- C25, evaluation at the failing input: the input `cpus 1; job 1 1 sysA a 10 1;
job 2 2 sysA b 90 1; job 3 3 sysA c 10 1; job 3 4 sysA d 10 1; assign 4 1` is well
formed. Before the assign the arrival tree has the keys 1, 2, 3 with the node 3 of
frequency 2; the assign calls `deleteCustom(root, 2)` on the root, which has two children,
and leaves the in-order keys 1, 3, 3: two nodes with the key 3. -/
theorem deleteCustom_duplicates_successor_key :
    WellFormed scenarioSuccessor ∧
      (resultOf (run 1 0 (scenarioSuccessor.take 4))).1.startTimeRoot.keys = [1, 2, 3] ∧
      (resultOf (run 1 0 (scenarioSuccessor.take 4))).1.startTimeRoot.values = [1, 2, 3, 3] ∧
      ∃ r, run 1 0 scenarioSuccessor = .ok r ∧
        r.1.startTimeRoot =
          deleteCustom (resultOf (run 1 0 (scenarioSuccessor.take 4))).1.startTimeRoot 2 ∧
        r.1.startTimeRoot.keys = [1, 3, 3] ∧ ¬ r.1.startTimeRoot.StrictlyOrdered ∧
        deleteCustom (insertCPUNode (insertCPUNode (insertCPUNode (insertCPUNode .nil 1) 2) 3)
          3) 2 = r.1.startTimeRoot :=
  ⟨by rfl, by rfl, by rfl, resultOf (run 1 0 scenarioSuccessor), by rfl, by rfl, by rfl,
    fun h => by
      have e : (resultOf (run 1 0 scenarioSuccessor)).1.startTimeRoot.keys = [1, 3, 3] := by
        rfl
      unfold CPUNode.StrictlyOrdered at h
      rw [e] at h
      simp at h,
    by rfl⟩

set_option maxRecDepth 100000 in
/-- C26: for the input `cpus 1; job 0 1 sysA x 10 1; job 0 2 sysA y 5 1; assign 0 1;
query 0 5`, whose timestamps do not decrease, the `assign 0 1` prints job 0 and leaves its
`qExit` equal to 0, and the following `query 0 5` prints job 0 again, before job 1, as if
it were still waiting. This holds for every initial value of `prevTimestamp`. -/
theorem assign_at_zero_collides_with_sentinel (p0 : Nat) :
    ∃ s, run 1 p0 scenarioAssignAtZero = .ok (s, [0, 0, 1]) ∧
      (resultOf (run 1 p0 (scenarioAssignAtZero.take 3))).2 = [0] ∧
      (getJob (resultOf (run 1 p0 (scenarioAssignAtZero.take 3))).1.jobList 0).qExit = 0 ∧
      step (resultOf (run 1 p0 (scenarioAssignAtZero.take 3))).1 (.queryTopK 0 5) =
        .ok (s, [0, 1]) ∧
      printedLines (run 1 p0 scenarioAssignAtZero) =
        [(0, 1, "sysA", "x", 10, 1), (0, 1, "sysA", "x", 10, 1), (0, 2, "sysA", "y", 5, 1)] := by
  unfold scenarioAssignAtZero
  simp only [List.take_succ_cons, List.take_zero]
  rw [run_job_first, run_job_first 1 p0]
  exact ⟨(resultOf (run 1 0 scenarioAssignAtZero)).1, by rfl, by rfl, by rfl, by rfl, by rfl⟩

end JobScheduler
